import Mathlib

/-!
Verification of the graph-analytics engine of the China-Railway-Network
repository (`src/algorithms/graph_algorithms.py` and its callers), against
its natural-language specification.

Modelling conventions:
* Python numbers (edge weights, coordinates) are modelled as `ℚ`;
  `float('inf')` totals are modelled as `⊤ : WithTop ℚ`.
* The graph is a `networkx.Graph` built by `create_railway_network`
  (`src/core/network.py`): nodes added first (insertion order preserved),
  then undirected edges carrying a `time` and a `cost` weight.  We model it
  as the node list (with positions) plus the edge-insertion list; adjacency
  order is derived exactly as networkx stores it (per-node insertion order).
* Uncaught Python exceptions (networkx `NodeNotFound` escaping the repo
  functions) are modelled with `Except PyErr`; `NetworkXNoPath`, which the
  repo functions catch, is a constructor of the internal `NxRes` type.
-/

namespace CRN

/-- The two weight dimensions carried by every edge (`'time'`, `'cost'`). -/
inductive Dim : Type
  | time
  | cost
deriving DecidableEq, Repr

/-- Select one weight dimension from an edge's `(time, cost)` data. -/
def Dim.sel : Dim → ℚ × ℚ → ℚ
  | .time, p => p.1
  | .cost, p => p.2

/-- The railway graph: nodes in insertion order with their `pos` attribute,
and undirected edges `(u, v, time, cost)` in insertion order
(as added by `create_railway_network`). -/
structure Graph : Type where
  nodes : List (String × ℚ × ℚ)
  edges : List (String × String × ℚ × ℚ)

/-- Node identifiers in networkx enumeration (insertion) order. -/
def Graph.nodeIds (G : Graph) : List String := G.nodes.map (·.1)

/-- The `pos` attribute of a node (the data tables give every node one). -/
def Graph.pos (G : Graph) (u : String) : ℚ × ℚ :=
  ((G.nodes.find? (fun nd => decide (nd.1 = u))).map (·.2)).getD (0, 0)

/-- The `(time, cost)` data of the edge between `u` and `v`, if present
(`G[u][v]` in networkx; the graph is undirected). -/
def Graph.edgeData (G : Graph) (u v : String) : Option (ℚ × ℚ) :=
  (G.edges.find? (fun e =>
    (decide (e.1 = u) && decide (e.2.1 = v)) || (decide (e.1 = v) && decide (e.2.1 = u)))).map
    (fun e => e.2.2)

/-- `G[u][v][dim]`.  Python raises `KeyError` on a missing edge; the repo only
reads weights along edges of returned paths, where the edge exists, so the
default `0` is never observable there. -/
def Graph.w (G : Graph) (u v : String) (d : Dim) : ℚ :=
  ((G.edgeData u v).map d.sel).getD 0

/-- Whether `u`-`v` is an edge of the graph. -/
def Graph.hasEdge (G : Graph) (u v : String) : Bool := (G.edgeData u v).isSome

/-- networkx adjacency `G[u]`/`G_succ[u]`: neighbours of `u` with edge data, in
edge-insertion order (networkx stores per-node adjacency dicts in the order
edges touching the node were added). -/
def Graph.adj (G : Graph) (u : String) : List (String × ℚ × ℚ) :=
  G.edges.filterMap (fun e =>
    if e.1 = u then some (e.2.1, e.2.2)
    else if e.2.1 = u then some (e.1, e.2.2) else none)

/-- Well-formedness of the railway network (the §3 data-model invariants:
unique node ids, edges between existing distinct nodes, at most one edge per
unordered pair, non-negative weights). -/
def Graph.Wf (G : Graph) : Prop :=
  G.nodeIds.Nodup ∧
  (∀ e ∈ G.edges, e.1 ∈ G.nodeIds ∧ e.2.1 ∈ G.nodeIds ∧ e.1 ≠ e.2.1 ∧
    0 ≤ e.2.2.1 ∧ 0 ≤ e.2.2.2) ∧
  G.edges.Pairwise (fun e f => ¬((e.1 = f.1 ∧ e.2.1 = f.2.1) ∨ (e.1 = f.2.1 ∧ e.2.1 = f.1)))

instance (G : Graph) : Decidable G.Wf := by
  unfold Graph.Wf; infer_instance

/-! ## Paths -/

/-- `get_path_weight(G, path, weight)`: sum of the chosen weight over the
consecutive pairs of the path (`0` for the empty or single-node path). -/
def get_path_weight (G : Graph) (path : List String) (d : Dim) : ℚ :=
  match path with
  | a :: b :: rest => G.w a b d + get_path_weight G (b :: rest) d
  | _ => 0

/-- Every consecutive pair of the list is an edge of `G`. -/
def chainB (G : Graph) : List String → Bool
  | a :: b :: rest => G.hasEdge a b && chainB G (b :: rest)
  | _ => true

/-- A walk from `s` to `t`: nonempty, starts at `s`, ends at `t`, consecutive
pairs are edges.  (Repetition allowed.) -/
def isWalkB (G : Graph) (s t : String) (p : List String) : Bool :=
  decide (p.head? = some s) && decide (p.getLast? = some t) && chainB G p

/-- A simple path from `s` to `t`: a walk without repeated nodes. -/
def isPathB (G : Graph) (s t : String) (p : List String) : Bool :=
  isWalkB G s t p && p.Nodup

/-- Depth-first enumeration of the simple paths from `cur` to `t` that avoid
`visited`; `fuel` bounds the path length (`|nodes| + 1` is always enough for
simple paths). -/
def pathsAux (G : Graph) (t : String) : ℕ → String → List String → List (List String)
  | 0, _, _ => []
  | fuel + 1, cur, visited =>
    if cur = t then [[t]]
    else
      (G.adj cur).flatMap (fun pr =>
        if pr.1 ∈ visited then []
        else (pathsAux G t fuel pr.1 (cur :: visited)).map (cur :: ·))

/-- All simple paths from `s` to `t`; used to model the library's
shortest-path contracts. -/
def allPaths (G : Graph) (s t : String) : List (List String) :=
  pathsAux G t (G.nodeIds.length + 1) s []

/-- `s` and `t` are joined by a simple path (equivalently, by any walk). -/
def ConnectedB (G : Graph) (s t : String) : Bool := !(allPaths G s t).isEmpty

/-- First element of the list minimising `f` (later elements replace the
current minimum only when strictly smaller). -/
def argminBy (f : α → ℚ) : List α → Option α
  | [] => none
  | a :: rest =>
    match argminBy f rest with
    | none => some a
    | some b => if f b < f a then some b else some a

/-! ## Library models (networkx) -/

/-- Result of a networkx search as observed by the repo code: a value, the
`NetworkXNoPath` exception (caught by the repo), the `NodeNotFound` exception
(not caught), or non-termination of the library loop (`diverged`; shown
impossible for well-formed inputs where it matters). -/
inductive NxRes (α : Type) : Type
  | ok (val : α)
  | noPath
  | nodeNotFound
  | diverged
deriving DecidableEq, Repr

/-- Contract model of `nx.shortest_path(G, source, target)` (no weight):
bidirectional BFS.  Raises `NodeNotFound` when either endpoint is absent,
returns `[source]` when `source == target`, otherwise a hop-minimal path, or
`NetworkXNoPath` when disconnected. -/
def nx_shortest_path (G : Graph) (s t : String) : NxRes (List String) :=
  if s ∈ G.nodeIds ∧ t ∈ G.nodeIds then
    if t = s then .ok [s]
    else
      match argminBy (fun p => (p.length : ℚ)) (allPaths G s t) with
      | some p => .ok p
      | none => .noPath
  else .nodeNotFound

/-- Contract model of `nx.dijkstra_path(G, source, target, weight)` (valid for
the non-negative weights of the data model): raises `NodeNotFound` only when
the *source* is absent; returns `[source]` when `target == source`; otherwise
runs the search and returns a minimum-weight path, or `NetworkXNoPath` when
the target is absent or unreachable (the library has no upfront target
check). -/
def nx_dijkstra_path (G : Graph) (s t : String) (d : Dim) : NxRes (List String) :=
  if s ∈ G.nodeIds then
    if t = s then .ok [s]
    else
      match argminBy (fun p => get_path_weight G p d) (allPaths G s t) with
      | some p => .ok p
      | none => .noPath
  else .nodeNotFound

/-! ## Repo path strategies (`graph_algorithms.py`) -/

/-- An uncaught Python exception escaping a repo function. -/
inductive PyErr : Type
  | nodeNotFound
  | diverged
deriving DecidableEq, Repr

/-- The `(path, total, error-message)` triple returned by the three path
strategies. -/
structure PathResult : Type where
  path : Option (List String)
  total : WithTop ℚ
  err : Option String
deriving DecidableEq, Repr

/-- `bfs_shortest_path(G, start, end)`: hop-minimal path via
`nx.shortest_path`, catching only `NetworkXNoPath`. -/
def bfs_shortest_path (G : Graph) (s t : String) : Except PyErr PathResult :=
  match nx_shortest_path G s t with
  | .ok p => .ok ⟨some p, ((p.length - 1 : ℕ) : ℚ), none⟩
  | .noPath => .ok ⟨none, ⊤, some "无路径"⟩
  | .nodeNotFound => .error .nodeNotFound
  | .diverged => .error .diverged

/-- `dijkstra_shortest_path(G, start, end, weight)`: `nx.dijkstra_path` plus
`get_path_weight`, catching only `NetworkXNoPath`. -/
def dijkstra_shortest_path (G : Graph) (s t : String) (d : Dim) :
    Except PyErr PathResult :=
  match nx_dijkstra_path G s t d with
  | .ok p => .ok ⟨some p, (get_path_weight G p d : ℚ), none⟩
  | .noPath => .ok ⟨none, ⊤, some "无路径"⟩
  | .nodeNotFound => .error .nodeNotFound
  | .diverged => .error .diverged

/-! ## The A* search (`nx.astar_path`, embedded algorithm)

`heuristic(u, v, G)` computes `math.sqrt((x1-x2)**2 + (y1-y2)**2)`, which is
irrational in general, so the square root cannot be a computable `ℚ`-valued
function.  We therefore pass the heuristic as a function parameter (exactly as
`nx.astar_path` receives it) and characterise the repo's Euclidean heuristic
by `IsEuclid`: a non-negative function whose square is the squared distance
between the stored positions. -/

/-- `h` agrees with `heuristic(u, v, G)` (Euclidean distance of positions). -/
def IsEuclid (G : Graph) (h : String → String → ℚ) : Prop :=
  ∀ u v : String, u ∈ G.nodeIds → v ∈ G.nodeIds →
    0 ≤ h u v ∧
      (h u v) ^ 2 =
        ((G.pos u).1 - (G.pos v).1) ^ 2 + ((G.pos u).2 - (G.pos v).2) ^ 2

/-- Association-list lookup with plain string equality (models Python dict
lookup; newest binding first). -/
def lookupStr {α : Type} (k : String) : List (String × α) → Option α
  | [] => none
  | (k', v) :: rest => if k' = k then some v else lookupStr k rest

/-- A heap entry of `nx.astar_path`:
`(f-value, unique counter, node, g-value, parent)`.  The Python `heapq` pops
the smallest tuple; counters are pairwise distinct so comparison never goes
past the first two components. -/
abbrev AEntry : Type := ℚ × ℕ × String × ℚ × Option String

/-- Strict heap order on entries: by `f`, ties by the push counter. -/
def aLt (a b : AEntry) : Bool :=
  decide (a.1 < b.1) || (decide (a.1 = b.1) && decide (a.2.1 < b.2.1))

/-- Pop the minimum entry (the first one attaining the minimum; counters are
distinct so the minimum is unique). -/
def popMinA : List AEntry → Option (AEntry × List AEntry)
  | [] => none
  | e :: rest =>
    match popMinA rest with
    | none => some (e, [])
    | some (m, rest') => if aLt m e then some (m, e :: rest') else some (e, rest)

/-- The relaxation loop over the neighbours of the node being expanded
(`for neighbor, w in G_succ[curnode].items(): ...`).  State: pending queue,
push counter, `enqueued` map (newest binding first). -/
def relaxA (hw : String → String → ℚ) (t : String) (d : Dim) (cur : String) (dist : ℚ) :
    List (String × ℚ × ℚ) → List AEntry → ℕ → List (String × ℚ × ℚ) →
      List AEntry × ℕ × List (String × ℚ × ℚ)
  | [], q, c, enq => (q, c, enq)
  | (nbr, wdata) :: rest, q, c, enq =>
    let cost := d.sel wdata
    let ncost := dist + cost
    match lookupStr nbr enq with
    | some (qc, h) =>
      if qc ≤ ncost then relaxA hw t d cur dist rest q c enq
      else
        relaxA hw t d cur dist rest (q ++ [(ncost + h, c, nbr, ncost, some cur)]) (c + 1)
          ((nbr, ncost, h) :: enq)
    | none =>
      let h := hw nbr t
      relaxA hw t d cur dist rest (q ++ [(ncost + h, c, nbr, ncost, some cur)]) (c + 1)
        ((nbr, ncost, h) :: enq)

/-- Follow the `explored` parent map from a node towards the source
(the`while node is not None` reconstruction loop); `fuel` bounds the chain
length (the map is acyclic in every reachable state). -/
def parentChain (expl : List (String × Option String)) : ℕ → Option String → List String
  | _, none => []
  | 0, some _ => []
  | fuel + 1, some u => u :: parentChain expl fuel ((lookupStr u expl).getD none)

/-- The mutable state of the `nx.astar_path` loop: the heap, the push
counter `next(c)`, and the `enqueued` and `explored` dicts. -/
structure AState : Type where
  queue : List AEntry
  cnt : ℕ
  enq : List (String × ℚ × ℚ)
  expl : List (String × Option String)
deriving DecidableEq, Repr

/-- One iteration of the `while queue:` loop of `nx.astar_path`:
either the next state (`.inl`) or the loop's result (`.inr`). -/
def astarStep (G : Graph) (hw : String → String → ℚ) (t : String) (d : Dim)
    (st : AState) : AState ⊕ NxRes (List String) :=
  match popMinA st.queue with
  | none => .inr .noPath
  | some ((_, _, cur, dist, par), rest) =>
    if cur = t then
      .inr (.ok ((cur :: parentChain st.expl (st.expl.length + 1) par).reverse))
    else
      match lookupStr cur st.expl with
      | some none => .inl ⟨rest, st.cnt, st.enq, st.expl⟩
      | some (some _) =>
        -- `qcost, h = enqueued[curnode]` (present in every reachable state;
        -- a missing key would be a Python `KeyError`)
        match lookupStr cur st.enq with
        | some (qc, _) =>
          if qc < dist then .inl ⟨rest, st.cnt, st.enq, st.expl⟩
          else
            match relaxA hw t d cur dist (G.adj cur) rest st.cnt st.enq with
            | (q2, c2, e2) => .inl ⟨q2, c2, e2, (cur, par) :: st.expl⟩
        | none =>
          match relaxA hw t d cur dist (G.adj cur) rest st.cnt st.enq with
          | (q2, c2, e2) => .inl ⟨q2, c2, e2, (cur, par) :: st.expl⟩
      | none =>
        match relaxA hw t d cur dist (G.adj cur) rest st.cnt st.enq with
        | (q2, c2, e2) => .inl ⟨q2, c2, e2, (cur, par) :: st.expl⟩

/-- The `while queue:` loop: iterate `astarStep`.  `.diverged` marks fuel
exhaustion, which `astarFuel` rules out for non-negative weights. -/
def astarRun (G : Graph) (hw : String → String → ℚ) (t : String) (d : Dim) :
    ℕ → AState → NxRes (List String)
  | 0, _ => .diverged
  | fuel + 1, st =>
    match astarStep G hw t d st with
    | .inl st' => astarRun G hw t d fuel st'
    | .inr r => r

/-- Common denominator of the selected weights of all edges. -/
def wDen (G : Graph) (d : Dim) : ℕ := (G.edges.map (fun e => (d.sel e.2.2).den)).prod

/-- `Σ_e (w_e * wDen)` as a natural number (the weights are non-negative and
`w_e * wDen` is integral, so nothing is lost). -/
def wSumNat (G : Graph) (d : Dim) : ℕ :=
  (G.edges.map (fun e => ((d.sel e.2.2) * (wDen G d : ℚ)).num.toNat)).sum

/-- Fuel sufficient for the loop to run to completion on non-negative weights:
every push strictly decreases the node's `enqueued` value, the values are
multiples of `1/wDen` bounded by a simple-path cost (at most
`|nodes| * Σ w_e`), so pushes per node are bounded and each iteration
strictly decreases the measure `|queue| + 2 Σ_v ψ(v)`. -/
def astarFuel (G : Graph) (d : Dim) : ℕ :=
  2 * G.nodes.length * ((G.nodes.length + 1) * wSumNat G d + 1) + 2

/-- Model of `nx.astar_path(G, source, target, heuristic, weight)`: upfront
`NodeNotFound` check on both endpoints, then the heap search. -/
def nx_astar_path (G : Graph) (h : String → String → ℚ) (s t : String) (d : Dim) :
    NxRes (List String) :=
  if s ∈ G.nodeIds ∧ t ∈ G.nodeIds then
    astarRun G h t d (astarFuel G d) ⟨[(0, 0, s, 0, none)], 1, [], []⟩
  else .nodeNotFound

/-- `astar_shortest_path(G, start, end, weight)`: wraps the heuristic so that
it is the Euclidean distance for `'time'` and constantly `0` for `'cost'`,
runs `nx.astar_path`, and recomputes the total with `get_path_weight`;
catches only `NetworkXNoPath`.  `hE` is the Euclidean heuristic
(see `IsEuclid`). -/
def astar_shortest_path (G : Graph) (hE : String → String → ℚ) (s t : String) (d : Dim) :
    Except PyErr PathResult :=
  let h : String → String → ℚ := fun u v => if d = Dim.time then hE u v else 0
  match nx_astar_path G h s t d with
  | .ok p => .ok ⟨some p, (get_path_weight G p d : ℚ), none⟩
  | .noPath => .ok ⟨none, ⊤, some "无路径"⟩
  | .nodeNotFound => .error .nodeNotFound
  | .diverged => .error .diverged

/-! ## The dual-objective router (`find_dual_paths`) -/

/-- One entry of the per-segment detail list (`get_path_details`). -/
structure Seg : Type where
  source : String
  target : String
  time : ℚ
  cost : ℚ
deriving DecidableEq, Repr

/-- `get_path_details(G, path)`: one record per consecutive pair
(`[]` when the path has fewer than two nodes). -/
def get_path_details (G : Graph) : List String → List Seg
  | a :: b :: rest =>
    ⟨a, b, G.w a b .time, G.w a b .cost⟩ :: get_path_details G (b :: rest)
  | _ => []

/-- The result dictionary of `find_dual_paths`.  `none` in an `Option` field
models an absent dictionary key (`total_time`/... are only set inside the
branches) or a `None` value (`time_path`/`cost_path` start as `None`). -/
structure DualResult : Type where
  start : String
  «end» : String
  algorithm : String
  time_path : Option (List String)
  cost_path : Option (List String)
  total_time : Option (WithTop ℚ)
  total_cost : Option (WithTop ℚ)
  time_path_cost : Option ℚ
  cost_path_time : Option ℚ
  time_details : List Seg
  cost_details : List Seg
deriving DecidableEq, Repr

/-- The trailing detail computation of `find_dual_paths`
(`if result.get('time_path'): ...`).  A one-node path is truthy but yields
`[]` details, and an empty path is falsy with `[]` details, so mapping
`get_path_details` over the option is observationally identical. -/
def withDetails (G : Graph) (r : DualResult) : DualResult :=
  { r with
    time_details := (r.time_path.map (get_path_details G)).getD []
    cost_details := (r.cost_path.map (get_path_details G)).getD [] }

/-- `find_dual_paths(G, start, end, algorithm)`.  Dispatch: `'bfs'`,
`'astar'`, and everything else runs Dijkstra.  `hE` is the Euclidean
heuristic parameter of the A* model (unused except in `'astar'` mode). -/
def find_dual_paths (G : Graph) (hE : String → String → ℚ) (s t : String)
    (algorithm : String) : Except PyErr DualResult :=
  let base : DualResult :=
    ⟨s, t, algorithm, none, none, none, none, none, none, [], []⟩
  if algorithm = "bfs" then
    match bfs_shortest_path G s t with
    | .error e => .error e
    | .ok r =>
      match r.path with
      | some (a :: p) =>
        let path := a :: p
        let tt := get_path_weight G path .time
        let tc := get_path_weight G path .cost
        .ok (withDetails G { base with
          time_path := some path, total_time := some (tt : ℚ),
          time_path_cost := some tc,
          cost_path := some path, total_cost := some (tc : ℚ),
          cost_path_time := some tt })
      | _ => .ok (withDetails G base)
  else if algorithm = "astar" then
    match astar_shortest_path G hE s t .time with
    | .error e => .error e
    | .ok rt =>
      match astar_shortest_path G hE s t .cost with
      | .error e => .error e
      | .ok rc =>
        .ok (withDetails G { base with
          time_path := rt.path, total_time := some rt.total,
          cost_path := rc.path, total_cost := some rc.total,
          time_path_cost :=
            match rt.path with
            | some (a :: p) => some (get_path_weight G (a :: p) .cost)
            | _ => none,
          cost_path_time :=
            match rc.path with
            | some (a :: p) => some (get_path_weight G (a :: p) .time)
            | _ => none })
  else
    match dijkstra_shortest_path G s t .time with
    | .error e => .error e
    | .ok rt =>
      match dijkstra_shortest_path G s t .cost with
      | .error e => .error e
      | .ok rc =>
        .ok (withDetails G { base with
          time_path := rt.path, total_time := some rt.total,
          cost_path := rc.path, total_cost := some rc.total,
          time_path_cost :=
            match rt.path with
            | some (a :: p) => some (get_path_weight G (a :: p) .cost)
            | _ => none,
          cost_path_time :=
            match rc.path with
            | some (a :: p) => some (get_path_weight G (a :: p) .time)
            | _ => none })

/-! ## The multi-stop router (`find_multi_stop_path`) -/

/-- The consecutive pairs of the stop sequence
(`full_route_points[i], full_route_points[i+1]`). -/
def chainPairs : List String → List (String × String)
  | a :: b :: rest => (a, b) :: chainPairs (b :: rest)
  | _ => []

/-- One chain of the multi-stop computation: Dijkstra per consecutive pair,
concatenated; the first segment is kept whole, later segments drop the
duplicated junction node (`if i > 0: curr_path.extend(seg_path[1:])`). -/
def buildChainAux (G : Graph) (d : Dim) :
    List (String × String) → ℕ → List String → NxRes (List String)
  | [], _, curr => .ok curr
  | (u, v) :: rest, i, curr =>
    match nx_dijkstra_path G u v d with
    | .ok seg => buildChainAux G d rest (i + 1) (if 0 < i then curr ++ seg.drop 1 else curr ++ seg)
    | .noPath => .noPath
    | .nodeNotFound => .nodeNotFound
    | .diverged => .diverged

/-- The concatenated chain for one weight dimension. -/
def buildChain (G : Graph) (d : Dim) (route : List String) : NxRes (List String) :=
  buildChainAux G d (chainPairs route) 0 []

/-- The result dictionary of `find_multi_stop_path` on success. -/
structure MultiResult : Type where
  start : String
  «end» : String
  waypoints : List String
  time_path : List String
  total_time : ℚ
  time_path_cost : ℚ
  cost_path : List String
  total_cost : ℚ
  cost_path_time : ℚ
  time_details : List Seg
  cost_details : List Seg
deriving DecidableEq, Repr

/-- `find_multi_stop_path(G, start, end, waypoints)`: the inner `Except
String` is the `{'error': ...}` dictionary returned when any segment raises
`NetworkXNoPath`; `NodeNotFound` (absent segment source) is not caught and
escapes as a `PyErr`. -/
def find_multi_stop_path (G : Graph) (s e : String) (waypoints : List String) :
    Except PyErr (Except String MultiResult) :=
  let route := s :: (waypoints ++ [e])
  match buildChain G .time route with
  | .nodeNotFound => .error .nodeNotFound
  | .diverged => .error .diverged
  | .noPath => .ok (.error "路径不可达，请检查途径点是否连通")
  | .ok tpath =>
    match buildChain G .cost route with
    | .nodeNotFound => .error .nodeNotFound
    | .diverged => .error .diverged
    | .noPath => .ok (.error "路径不可达，请检查途径点是否连通")
    | .ok cpath =>
      .ok (.ok ⟨s, e, waypoints, tpath,
        get_path_weight G tpath .time, get_path_weight G tpath .cost,
        cpath, get_path_weight G cpath .cost, get_path_weight G cpath .time,
        get_path_details G tpath, get_path_details G cpath⟩)

/-! ## The spanning-tree tracer (`get_mst_steps`) -/

/-- One step record `{'u': u, 'v': v, 'weight': w, 'action': 'add'}`. -/
structure MSTStep : Type where
  u : String
  v : String
  weight : ℚ
  action : String
deriving DecidableEq, Repr

/-- `G.edges(data=True)` enumeration order: for each node in insertion order,
its adjacency in insertion order, skipping edges whose other endpoint was
already processed (networkx's `seen` set). -/
def nxEdges (G : Graph) : List (String × String × ℚ × ℚ) :=
  go G.nodeIds []
where
  go : List String → List String → List (String × String × ℚ × ℚ)
    | [], _ => []
    | n :: rest, seen =>
      ((G.adj n).filterMap (fun pr =>
        if pr.1 ∈ seen then none else some (n, pr.1, pr.2))) ++ go rest (n :: seen)

/-- Stable insertion of `x` into a sorted list: `x` goes before the first
element it is `le`-related to, so equal keys keep their original relative
order (Python's `list.sort` is stable). -/
def insSorted (le : α → α → Bool) (x : α) : List α → List α
  | [] => [x]
  | y :: ys => if le x y then x :: y :: ys else y :: insSorted le x ys

/-- Stable sort (models `edges.sort(key=lambda x: x[2])`). -/
def sortStable (le : α → α → Bool) : List α → List α
  | [] => []
  | x :: xs => insSorted le x (sortStable le xs)

/-- Union-find `find(i)` with path compression
(`if parent[i] == i: return i; parent[i] = find(parent[i]); ...`), with a
fuel bound on the recursion depth (the parent chains stay within the node
set, so `|nodes| + 1` is always enough). -/
def ufFind : ℕ → (String → String) → String → String × (String → String)
  | 0, parent, i => (i, parent)
  | fuel + 1, parent, i =>
    if parent i = i then (i, parent)
    else
      let r := ufFind fuel parent (parent i)
      (r.1, fun x => if x = i then r.1 else r.2 x)

/-- Union-find `union(i, j)`: returns whether a merge happened
(`parent[root_i] = root_j`). -/
def ufUnion (fuel : ℕ) (parent : String → String) (i j : String) :
    Bool × (String → String) :=
  let fi := ufFind fuel parent i
  let fj := ufFind fuel fi.2 j
  if fi.1 ≠ fj.1 then (true, fun x => if x = fi.1 then fj.1 else fj.2 x)
  else (false, fj.2)

/-- The Kruskal loop over the sorted edges. -/
def kruskalLoop (fuel : ℕ) : List (String × String × ℚ) → (String → String) → List MSTStep
  | [], _ => []
  | (u, v, w) :: rest, parent =>
    let r := ufUnion fuel parent u v
    if r.1 then ⟨u, v, w, "add"⟩ :: kruskalLoop fuel rest r.2
    else kruskalLoop fuel rest r.2

/-- Strict `heapq` order on Prim's `(weight, u, v)` tuples: lexicographic,
with Python's string comparison on ties. -/
def pLt (a b : ℚ × String × String) : Bool :=
  decide (a.1 < b.1) ||
    (decide (a.1 = b.1) &&
      (decide (a.2.1 < b.2.1) || (decide (a.2.1 = b.2.1) && decide (a.2.2 < b.2.2))))

/-- Pop the minimum `(weight, u, v)` tuple. -/
def popMinP : List (ℚ × String × String) → Option ((ℚ × String × String) × List (ℚ × String × String))
  | [] => none
  | e :: rest =>
    match popMinP rest with
    | none => some (e, [])
    | some (m, rest') => if pLt m e then some (m, e :: rest') else some (e, rest)

/-- The Prim loop: pop the minimum candidate edge; if its target is
unvisited, emit a step and push the target's crossing edges. -/
def primLoop (G : Graph) (wk : Dim) :
    ℕ → List (ℚ × String × String) → List String → List MSTStep
  | 0, _, _ => []
  | fuel + 1, cand, visited =>
    match popMinP cand with
    | none => []
    | some ((w, u, v), rest) =>
      if v ∈ visited then primLoop G wk fuel rest visited
      else
        let pushes := (G.adj v).filterMap (fun pr =>
          if pr.1 ∈ v :: visited then none else some (wk.sel pr.2, v, pr.1))
        ⟨u, v, w, "add"⟩ :: primLoop G wk fuel (rest ++ pushes) (v :: visited)

/-- Fuel sufficient for the Prim loop: one pop per iteration, pushes bounded
by the total adjacency size. -/
def primFuel (G : Graph) : ℕ :=
  1 + (G.nodeIds.map (fun v => (G.adj v).length)).sum + G.edges.length

/-- `get_mst_steps(G, algorithm, weight_key)`: Kruskal (stable sort plus
union-find) or Prim (heap from the first node); any other algorithm string
leaves `steps` empty. -/
def get_mst_steps (G : Graph) (algorithm : String) (wk : Dim) : List MSTStep :=
  if algorithm = "kruskal" then
    let edges := (nxEdges G).map (fun e => (e.1, e.2.1, wk.sel e.2.2))
    let sorted := sortStable (fun a b => a.2.2 ≤ b.2.2) edges
    kruskalLoop (G.nodes.length + 1) sorted id
  else if algorithm = "prim" then
    match G.nodeIds with
    | [] => []
    | start :: _ =>
      -- the initial pushes have no visited-check in the source
      let cand := (G.adj start).map (fun pr => (wk.sel pr.2, start, pr.1))
      primLoop G wk (primFuel G) cand [start]
  else []

instance {ε α : Type} [DecidableEq ε] [DecidableEq α] : DecidableEq (Except ε α) := fun a b =>
  match a, b with
  | .ok x, .ok y =>
    if h : x = y then isTrue (by rw [h])
    else isFalse (fun hh => h (Except.ok.inj hh))
  | .error x, .error y =>
    if h : x = y then isTrue (by rw [h])
    else isFalse (fun hh => h (Except.error.inj hh))
  | .ok _, .error _ => isFalse (fun h => Except.noConfusion h)
  | .error _, .ok _ => isFalse (fun h => Except.noConfusion h)

/-! ## Concrete fixture graphs -/

/-- A one-node graph (node `A` only, no edges). -/
def exG1 : Graph := ⟨[("A", 0, 0)], []⟩

/-- The §8 disconnected fixture: components `{A, B}` and `{C, D}` with one
edge each. -/
def exG2 : Graph :=
  ⟨[("A", 0, 0), ("B", 1, 0), ("C", 5, 0), ("D", 6, 0)],
   [("A", "B", 1, 1), ("C", "D", 1, 1)]⟩

/-- Three collinear nodes where the Euclidean heuristic overestimates the
`time` metric: the direct edge `A-C` costs `2` while the detour through the
geometrically remote `B` costs `0 + 1`. -/
def exG3 : Graph :=
  ⟨[("A", 0, 0), ("B", 100, 0), ("C", 3, 0)],
   [("A", "C", 2, 2), ("A", "B", 0, 0), ("B", "C", 1, 1)]⟩

/-- The x-coordinates of `exG3`'s nodes (all on the x-axis). -/
def exCoord (s : String) : ℚ := if s = "B" then 100 else if s = "C" then 3 else 0

/-- Euclidean distance between `exG3`'s nodes (rational because the nodes are
collinear). -/
def exH (u v : String) : ℚ := |exCoord u - exCoord v|

/-! ## Derived definitions used in specifications -/

/-- The optimal (minimum simple-path) weight between two nodes under one
dimension; `0` when no path exists (only used under reachability
hypotheses). -/
def optWeight (G : Graph) (d : Dim) (u v : String) : ℚ :=
  match argminBy (fun p => get_path_weight G p d) (allPaths G u v) with
  | some p => get_path_weight G p d
  | none => 0

/-- Nodes joined by a list of undirected edges (used to state the
spanning-forest property of the MST tracer). -/
def Joined (es : List (String × String)) : String → String → Prop :=
  Relation.ReflTransGen (fun a b => (a, b) ∈ es ∨ (b, a) ∈ es)

/-- The edge pairs of a list of MST steps. -/
def stepPairs (steps : List MSTStep) : List (String × String) :=
  steps.map (fun st => (st.u, st.v))

/-- The edge pairs of the graph. -/
def edgePairs (G : Graph) : List (String × String) :=
  G.edges.map (fun e => (e.1, e.2.1))

/-- The union-find root of `v` (the parent chain followed to its fixpoint,
without compression), with a fuel bound on the chain length. -/
def ufRoot (p : String → String) : ℕ → String → String
  | 0, v => v
  | fuel + 1, v => if p v = v then v else ufRoot p fuel (p v)

/-- Number of union-find roots among the graph's nodes. -/
def rootsCount (G : Graph) (p : String → String) : ℕ :=
  (G.nodeIds.filter (fun v => decide (p v = v))).length

/-- Number of non-root nodes (this bounds the parent-chain depth). -/
def nonRootsCount (G : Graph) (p : String → String) : ℕ :=
  (G.nodeIds.filter (fun v => !decide (p v = v))).length

/-- A rank function witnessing that the parent map is an acyclic forest:
zero on roots and strictly decreasing along parent links. -/
def RankOk (p : String → String) (rank : String → ℕ) : Prop :=
  (∀ v, p v = v → rank v = 0) ∧ (∀ v, p v ≠ v → rank (p v) < rank v)

/-- Well-formedness of a union-find parent map over the graph's nodes:
identity outside the node set, closed on the node set, and an acyclic
forest whose ranks are bounded by the number of non-roots (so every parent
chain reaches its root within `|nodes|` steps). -/
def UFInv (G : Graph) (p : String → String) : Prop :=
  (∀ v, v ∉ G.nodeIds → p v = v) ∧
  (∀ v ∈ G.nodeIds, p v ∈ G.nodeIds) ∧
  ∃ rank : String → ℕ, RankOk p rank ∧ ∀ v, rank v ≤ nonRootsCount G p

/-- Every MST step joins two nodes that the earlier steps had not yet
joined (no emitted edge closes a cycle of the emitted forest). -/
def Fresh : List (String × String) → List MSTStep → Prop
  | _, [] => True
  | base, st :: rest => ¬ Joined base st.u st.v ∧ Fresh (base ++ [(st.u, st.v)]) rest

/-- Termination measure of the Prim loop: queue length plus the total
adjacency size of the unvisited nodes. -/
def primMeasure (G : Graph) (cand : List (ℚ × String × String)) (visited : List String) : ℕ :=
  cand.length +
    ((G.nodeIds.filter (fun x => !decide (x ∈ visited))).map (fun x => (G.adj x).length)).sum

/-- The sum of the selected weights of all edges, as a rational. -/
def wSumQ (G : Graph) (d : Dim) : ℚ := (G.edges.map (fun e => d.sel e.2.2)).sum

/-- `x` is an integer multiple of `1 / wDen` (all reachable `g`-values of the
A* loop are, being sums of edge weights). -/
def LatQ (G : Graph) (d : Dim) (x : ℚ) : Prop := ∃ z : ℤ, x * (wDen G d : ℚ) = z

/-- The natural representative `x * wDen` of a non-negative lattice value. -/
def natRep (G : Graph) (d : Dim) (x : ℚ) : ℕ := (x * (wDen G d : ℚ)).num.toNat

/-- Number of distinct keys ever bound in the `enqueued` map (old bindings
are shadowed, not removed, so the list records every node ever enqueued). -/
def enqKeysLen (enq : List (String × ℚ × ℚ)) : ℕ :=
  ((enq.map (fun b => b.1)).dedup).length

/-- The running bound on every `g`-value of the loop: a node's first
enqueued value is at most one edge heavier than some previous `g`-value, so
each of the at most `|nodes|` first enqueues raises the bound by at most
`Σ w_e`. -/
def gBound (G : Graph) (d : Dim) (enq : List (String × ℚ × ℚ)) : ℚ :=
  ((enqKeysLen enq + 1 : ℕ) : ℚ) * wSumQ G d

/-- Invariant of a queue entry `(f, c, node, g, parent)`: the node is a
graph node reachable from the source and `g` is a non-negative lattice
value within the running bound. -/
def QEntryOk (G : Graph) (d : Dim) (s : String) (enq : List (String × ℚ × ℚ))
    (e : AEntry) : Prop :=
  e.2.2.1 ∈ G.nodeIds ∧ ConnectedB G s e.2.2.1 = true ∧ 0 ≤ e.2.2.2.1 ∧
    LatQ G d e.2.2.2.1 ∧ e.2.2.2.1 ≤ gBound G d enq

/-- Invariant of an `enqueued` binding `(node, g, h)`. -/
def EEntryOk (G : Graph) (d : Dim) (enq : List (String × ℚ × ℚ))
    (b : String × ℚ × ℚ) : Prop :=
  b.1 ∈ G.nodeIds ∧ 0 ≤ b.2.1 ∧ LatQ G d b.2.1 ∧ b.2.1 ≤ gBound G d enq

/-- Invariant of the reachable A* states. -/
def AInv (G : Graph) (d : Dim) (s : String) (st : AState) : Prop :=
  (∀ e ∈ st.queue, QEntryOk G d s st.enq e) ∧ (∀ b ∈ st.enq, EEntryOk G d st.enq b)

/-- Potential of a node in the `enqueued` map: its scaled `g`-value, or the
sentinel `(|nodes| + 1) * wSumNat + 1` when it was never enqueued.  Pushes
strictly decrease it. -/
def enqPsi (G : Graph) (d : Dim) (enq : List (String × ℚ × ℚ)) (v : String) : ℕ :=
  match lookupStr v enq with
  | none => (G.nodes.length + 1) * wSumNat G d + 1
  | some (g, _) => natRep G d g

/-- Termination measure of the A* loop: queue length plus twice the total
node potential.  Every iteration strictly decreases it. -/
def aMeasure (G : Graph) (d : Dim) (st : AState) : ℕ :=
  st.queue.length + 2 * ((G.nodeIds.map (enqPsi G d st.enq)).sum)

/-- `Spells expl op chain`: following the `explored` parent map from `op`
produces exactly the node list `chain` (ending at a root whose parent is
`none`). -/
inductive Spells (expl : List (String × Option String)) : Option String → List String → Prop
  | nil : Spells expl none []
  | cons {u : String} {p : Option String} {rest : List String} :
      lookupStr u expl = some p → Spells expl p rest → Spells expl (some u) (u :: rest)

/-- The queue/counter/`enqueued` part of the Dijkstra invariant of the A*
loop with an everywhere-zero heuristic, relative to an `explored` map.
Reading a queue entry as `(f, c, node, g, parent)`:
`f = g`; each entry's parent chain spells a walk from `s` to its node of
cost exactly `g`; each entry is the initial one or has a positive counter
and an `enqueued` binding at most its `g`; every unexplored enqueued node
retains a queue entry at its current binding; every entry whose node was
explored from a real parent is stale; while `s` is unexplored its initial
entry is still queued; nodes explored from a real parent keep their
optimal-cost binding; distinct non-initial entries of one node have
distinct `g`; the counter stays positive; bindings store the zero
heuristic. -/
def RelInv (G : Graph) (d : Dim) (s : String) (expl : List (String × Option String))
    (q : List AEntry) (c : ℕ) (enq : List (String × ℚ × ℚ)) : Prop :=
  (∀ e ∈ q, e.1 = e.2.2.2.1) ∧
  (∀ e ∈ q, ∃ chain, Spells expl e.2.2.2.2 chain ∧
    chain.length ≤ expl.length ∧
    isWalkB G s e.2.2.1 ((e.2.2.1 :: chain).reverse) = true ∧
    get_path_weight G ((e.2.2.1 :: chain).reverse) d = e.2.2.2.1) ∧
  (∀ e ∈ q, (e = (0, 0, s, 0, none)) ∨
    (1 ≤ e.2.1 ∧ ∃ qc hh, lookupStr e.2.2.1 enq = some (qc, hh) ∧ qc ≤ e.2.2.2.1)) ∧
  (∀ v qc hh, lookupStr v enq = some (qc, hh) →
    v ∉ expl.map (fun b => b.1) →
    ∃ e ∈ q, e.2.2.1 = v ∧ e.2.2.2.1 = qc) ∧
  (∀ e ∈ q, ∀ par0, lookupStr e.2.2.1 expl = some (some par0) →
    ∃ qc hh, lookupStr e.2.2.1 enq = some (qc, hh) ∧ qc < e.2.2.2.1) ∧
  (s ∉ expl.map (fun b => b.1) → (0, 0, s, 0, none) ∈ q) ∧
  (∀ b ∈ expl, (∃ par0, b.2 = some par0) →
    ∃ qc hh, lookupStr b.1 enq = some (qc, hh) ∧ qc = optWeight G d s b.1) ∧
  List.Pairwise (fun e e' : AEntry => e.2.2.1 = e'.2.2.1 → 1 ≤ e.2.1 → 1 ≤ e'.2.1 →
    e.2.2.2.1 ≠ e'.2.2.2.1) q ∧
  1 ≤ c ∧
  (∀ b ∈ enq, b.2.2 = 0)

/-- The Dijkstra invariant of the A* loop with an everywhere-zero heuristic:
`RelInv` for the current state, plus: the frontier of the explored set is
fully relaxed (each neighbour of an explored node that is itself unexplored
has a queue entry within one edge of the explored node's optimal cost), and
the target is never explored (the loop returns when it pops it). -/
def DInv (G : Graph) (d : Dim) (s t : String) (st : AState) : Prop :=
  RelInv G d s st.expl st.queue st.cnt st.enq ∧
  (∀ v ∈ st.expl.map (fun b => b.1), ∀ pr ∈ G.adj v,
    pr.1 ∉ st.expl.map (fun b => b.1) →
    ∃ e ∈ st.queue, e.2.2.1 = pr.1 ∧ e.2.2.2.1 ≤ optWeight G d s v + d.sel pr.2) ∧
  t ∉ st.expl.map (fun b => b.1)

theorem exH_CC : exH "C" "C" = 0 := by simp [exH, exCoord]

theorem exH_BC : exH "B" "C" = 97 := by simp [exH, exCoord]; norm_num

theorem exG3_euclid : IsEuclid exG3 exH := by
  intro u v hu hv
  simp [Graph.nodeIds, exG3] at hu hv
  rcases hu with rfl | rfl | rfl <;> rcases hv with rfl | rfl | rfl <;>
    simp [exH, exCoord, Graph.pos, exG3, sq_abs, abs_nonneg, List.find?]

theorem exG1_wf : exG1.Wf := by decide

theorem exG2_wf : exG2.Wf := by decide

theorem exG3_wf : exG3.Wf := by decide

/-! ## Claim counterexamples -/

/-- C1 (counterexample): with node `A` present and `B` absent,
`dijkstra_shortest_path` does *not* fail with `InvalidNodeError`: the missing
target surfaces as `NetworkXNoPath`, which the function catches and turns
into a no-path result; `find_dual_paths` (dijkstra mode) likewise returns a
normal result, and `find_multi_stop_path` returns the no-path error
dictionary — contradicting the claim that all strategies and routers report
`InvalidNodeError` for an absent end node. -/
theorem C1_counterexample :
    "A" ∈ exG1.nodeIds ∧ "B" ∉ exG1.nodeIds ∧
    dijkstra_shortest_path exG1 "A" "B" Dim.time = .ok ⟨none, ⊤, some "无路径"⟩ ∧
    find_dual_paths exG1 (fun _ _ => 0) "A" "B" "dijkstra" =
      .ok ⟨"A", "B", "dijkstra", none, none, some ⊤, some ⊤, none, none, [], []⟩ ∧
    find_multi_stop_path exG1 "A" "B" [] =
      .ok (.error "路径不可达，请检查途径点是否连通") := by
  decide

/-- C2 (counterexample): on the two-component graph `{A,B}`, `{C,D}` the Prim
tracer returns exactly one step (the tree edge of the start node's component
only), not the claimed two steps, one per component; Kruskal does return
two. -/
theorem C2_counterexample :
    exG2.Wf ∧ ConnectedB exG2 "A" "C" = false ∧
    get_mst_steps exG2 "prim" Dim.cost = [⟨"A", "B", 1, "add"⟩] ∧
    (get_mst_steps exG2 "prim" Dim.cost).length = 1 ∧
    get_mst_steps exG2 "kruskal" Dim.cost =
      [⟨"A", "B", 1, "add"⟩, ⟨"C", "D", 1, "add"⟩] := by
  decide

/-- C3 (counterexample): for an unreachable pair of existing nodes, the
`total_time`/`total_cost` aggregates of `find_dual_paths` are *not* omitted
or null: the keys are set to `float('inf')` (here `some ⊤`). -/
theorem C3_counterexample :
    "A" ∈ exG2.nodeIds ∧ "C" ∈ exG2.nodeIds ∧ ConnectedB exG2 "A" "C" = false ∧
    find_dual_paths exG2 (fun _ _ => 0) "A" "C" "dijkstra" =
      .ok ⟨"A", "C", "dijkstra", none, none, some ⊤, some ⊤, none, none, [], []⟩ ∧
    (some (⊤ : WithTop ℚ) ≠ (none : Option (WithTop ℚ))) := by
  decide

/-- C4 (counterexample): the step records of `get_mst_steps` carry fields
`u`/`v` and the action string `'add'`, not `'include'` as the claim
states. -/
theorem C4_counterexample :
    get_mst_steps exG2 "kruskal" Dim.cost =
      [⟨"A", "B", 1, "add"⟩, ⟨"C", "D", 1, "add"⟩] ∧
    (∀ st ∈ get_mst_steps exG2 "kruskal" Dim.cost, st.action = "add" ∧ st.action ≠ "include") ∧
    (∀ st ∈ get_mst_steps exG2 "prim" Dim.cost, st.action = "add" ∧ st.action ≠ "include") := by
  decide

set_option maxRecDepth 8000 in
set_option maxHeartbeats 2000000 in
/-- C6 (counterexample): on the well-formed graph `exG3` (non-negative
weights) with the repo's Euclidean heuristic, the pair `(A, C)` is reachable
but A* under `time` returns the direct edge of weight `2` while Dijkstra
returns the optimal detour of weight `1` — the heuristic overestimates, so
the totals are not identical. -/
theorem C6_counterexample :
    exG3.Wf ∧ IsEuclid exG3 exH ∧ ConnectedB exG3 "A" "C" = true ∧
    astar_shortest_path exG3 exH "A" "C" Dim.time = .ok ⟨some ["A", "C"], (2 : ℚ), none⟩ ∧
    dijkstra_shortest_path exG3 "A" "C" Dim.time =
      .ok ⟨some ["A", "B", "C"], (1 : ℚ), none⟩ ∧
    (2 : ℚ) ≠ 1 := by
  refine ⟨exG3_wf, exG3_euclid, by decide, ?_, ?_, by norm_num⟩
  · simp [astar_shortest_path, nx_astar_path, astarRun, astarStep, astarFuel, wSumNat, wDen,
      popMinA, aLt, relaxA, parentChain, lookupStr, Graph.adj, Graph.nodeIds, exG3, exH_CC,
      exH_BC, Dim.sel, get_path_weight, Graph.w, Graph.edgeData]
    norm_num [astarRun, astarStep, popMinA, aLt, relaxA, parentChain, lookupStr, Graph.adj,
      exG3, Dim.sel, get_path_weight, Graph.w, Graph.edgeData]
  · simp [dijkstra_shortest_path, nx_dijkstra_path, allPaths, pathsAux, Graph.adj,
      Graph.nodeIds, exG3, argminBy, get_path_weight, Graph.w, Graph.edgeData, Dim.sel]

/-! ## Basic lemmas: `argminBy` -/

theorem argminBy_eq_none_iff {α : Type} {f : α → ℚ} {l : List α} :
    argminBy f l = none ↔ l = [] := by
  cases l with
  | nil => simp [argminBy]
  | cons x rest =>
    simp only [argminBy]
    rcases h2 : argminBy f rest with _ | m
    · simp
    · by_cases hlt : f m < f x <;> simp [hlt]

theorem argminBy_mem {α : Type} {f : α → ℚ} :
    ∀ {l : List α} {a : α}, argminBy f l = some a → a ∈ l := by
  intro l
  induction l with
  | nil => intro a h; simp [argminBy] at h
  | cons x rest ih =>
    intro a h
    rcases hr : argminBy f rest with _ | b <;> simp only [argminBy, hr] at h
    · simp_all
    · by_cases hlt : f b < f x
      · rw [if_pos hlt] at h
        cases h
        exact List.mem_cons_of_mem _ (ih hr)
      · rw [if_neg hlt] at h
        simp_all

theorem argminBy_le {α : Type} {f : α → ℚ} :
    ∀ {l : List α} {a : α}, argminBy f l = some a → ∀ b ∈ l, f a ≤ f b := by
  intro l
  induction l with
  | nil => simp
  | cons x rest ih =>
    intro a h b hb
    rcases hr : argminBy f rest with _ | m <;> simp only [argminBy, hr] at h
    · cases h
      rw [List.mem_cons] at hb
      rcases hb with rfl | hb
      · exact le_refl _
      · rw [argminBy_eq_none_iff] at hr
        subst hr
        cases hb
    · by_cases hlt : f m < f x
      · rw [if_pos hlt] at h
        cases h
        rw [List.mem_cons] at hb
        rcases hb with rfl | hb
        · exact le_of_lt hlt
        · exact ih hr _ hb
      · rw [if_neg hlt] at h
        cases h
        rw [List.mem_cons] at hb
        rcases hb with rfl | hb
        · exact le_refl _
        · exact le_trans (not_lt.mp hlt) (ih hr _ hb)

/-! ## Basic lemmas: graph access -/

theorem w_nonneg {G : Graph} (hwf : G.Wf) (u v : String) (d : Dim) : 0 ≤ G.w u v d := by
  rw [Graph.w, Graph.edgeData]
  rcases hfind : G.edges.find? _ with _ | e
  · simp
  · have he := List.mem_of_find?_eq_some hfind
    have := (hwf.2.1 e he).2.2.2
    cases d <;> simp [Dim.sel, this.1, this.2]

theorem gpw_nonneg {G : Graph} (hwf : G.Wf) (d : Dim) :
    ∀ p : List String, 0 ≤ get_path_weight G p d := by
  intro p
  induction p with
  | nil => simp [get_path_weight]
  | cons a rest ih =>
    cases rest with
    | nil => simp [get_path_weight]
    | cons b rest' =>
      rw [get_path_weight]
      exact add_nonneg (w_nonneg hwf a b d) ih

theorem gpw_append (G : Graph) (d : Dim) :
    ∀ (xs : List String) (y : String) (zs : List String),
      get_path_weight G (xs ++ y :: zs) d =
        get_path_weight G (xs ++ [y]) d + get_path_weight G (y :: zs) d := by
  intro xs
  induction xs with
  | nil => intro y zs; simp [get_path_weight]
  | cons x xs ih =>
    intro y zs
    cases xs with
    | nil => simp [get_path_weight]
    | cons x' xs' =>
      show G.w x x' d + get_path_weight G ((x' :: xs') ++ y :: zs) d =
        (G.w x x' d + get_path_weight G ((x' :: xs') ++ [y]) d) + get_path_weight G (y :: zs) d
      rw [ih y zs, add_assoc]

theorem adj_mem_edges {G : Graph} {u b : String} {w : ℚ × ℚ} (h : (b, w) ∈ G.adj u) :
    (u, b, w) ∈ G.edges ∨ (b, u, w) ∈ G.edges := by
  rw [Graph.adj, List.mem_filterMap] at h
  obtain ⟨e, he, hmatch⟩ := h
  by_cases h1 : e.1 = u
  · rw [if_pos h1] at hmatch
    cases hmatch
    left
    rw [← h1]
    exact he
  · rw [if_neg h1] at hmatch
    by_cases h2 : e.2.1 = u
    · rw [if_pos h2] at hmatch
      cases hmatch
      right
      rw [← h2]
      exact he
    · rw [if_neg h2] at hmatch
      cases hmatch

theorem adj_of_mem_edges₁ {G : Graph} {u b : String} {w : ℚ × ℚ}
    (h : (u, b, w) ∈ G.edges) : (b, w) ∈ G.adj u := by
  rw [Graph.adj, List.mem_filterMap]
  exact ⟨(u, b, w), h, by simp⟩

theorem adj_of_mem_edges₂ {G : Graph} {u b : String} {w : ℚ × ℚ}
    (h : (b, u, w) ∈ G.edges) : (b, w) ∈ G.adj u := by
  rw [Graph.adj, List.mem_filterMap]
  refine ⟨(b, u, w), h, ?_⟩
  by_cases hbu : b = u
  · subst hbu; simp
  · simp [hbu]

theorem hasEdge_exists {G : Graph} {u b : String} (h : G.hasEdge u b = true) :
    ∃ w, (u, b, w) ∈ G.edges ∨ (b, u, w) ∈ G.edges := by
  rw [Graph.hasEdge, Graph.edgeData, Option.isSome_map'] at h
  rw [List.find?_isSome] at h
  obtain ⟨e, he, hpred⟩ := h
  simp only [Bool.or_eq_true, Bool.and_eq_true, decide_eq_true_eq] at hpred
  rcases hpred with ⟨h1, h2⟩ | ⟨h1, h2⟩
  · exact ⟨e.2.2, Or.inl (by rw [← h1, ← h2]; exact he)⟩
  · exact ⟨e.2.2, Or.inr (by rw [← h1, ← h2]; exact he)⟩

theorem hasEdge_of_mem_edges {G : Graph} {u b : String} {w : ℚ × ℚ}
    (h : (u, b, w) ∈ G.edges ∨ (b, u, w) ∈ G.edges) : G.hasEdge u b = true := by
  rw [Graph.hasEdge, Graph.edgeData, Option.isSome_map', List.find?_isSome]
  rcases h with h | h
  · exact ⟨(u, b, w), h, by simp⟩
  · refine ⟨(b, u, w), h, ?_⟩
    show ((decide (b = u) && decide (u = b)) || (decide (b = b) && decide (u = u))) = true
    simp

theorem adj_of_hasEdge {G : Graph} {u b : String} (h : G.hasEdge u b = true) :
    ∃ w, (b, w) ∈ G.adj u := by
  obtain ⟨w, h | h⟩ := hasEdge_exists h
  · exact ⟨w, adj_of_mem_edges₁ h⟩
  · exact ⟨w, adj_of_mem_edges₂ h⟩

theorem hasEdge_of_adj {G : Graph} {u b : String} {w : ℚ × ℚ} (h : (b, w) ∈ G.adj u) :
    G.hasEdge u b = true :=
  hasEdge_of_mem_edges (adj_mem_edges h)

theorem adj_ne {G : Graph} (hwf : G.Wf) {u b : String} {w : ℚ × ℚ}
    (h : (b, w) ∈ G.adj u) : b ≠ u := by
  rcases adj_mem_edges h with h | h
  · exact fun hq => (hwf.2.1 _ h).2.2.1 (by rw [hq])
  · exact fun hq => (hwf.2.1 _ h).2.2.1 (by rw [hq])

theorem adj_mem_nodes {G : Graph} (hwf : G.Wf) {u b : String} {w : ℚ × ℚ}
    (h : (b, w) ∈ G.adj u) : b ∈ G.nodeIds := by
  rcases adj_mem_edges h with h | h
  · exact (hwf.2.1 _ h).2.1
  · exact (hwf.2.1 _ h).1

theorem edgeData_eq_of_adj {G : Graph} (hwf : G.Wf) {u b : String} {w : ℚ × ℚ}
    (h : (b, w) ∈ G.adj u) : G.edgeData u b = some w := by
  have hmem := adj_mem_edges h
  rw [Graph.edgeData]
  rcases hfind : G.edges.find? _ with _ | e
  · exfalso
    have hnone := List.find?_eq_none.mp hfind
    rcases hmem with hm | hm
    · have h2 := hnone _ hm
      simp at h2
    · have h2 := hnone _ hm
      simp at h2
  · have hememm := List.mem_of_find?_eq_some hfind
    have hpred := List.find?_some hfind
    simp only [Bool.or_eq_true, Bool.and_eq_true, decide_eq_true_eq] at hpred
    have pairwise := hwf.2.2
    have hsymm : Symmetric
        (fun e f : String × String × ℚ × ℚ =>
          ¬((e.1 = f.1 ∧ e.2.1 = f.2.1) ∨ (e.1 = f.2.1 ∧ e.2.1 = f.1))) := by
      intro a b hab hc
      exact hab (by tauto)
    have hiff : ∀ f g : String × String × ℚ × ℚ, f ∈ G.edges → g ∈ G.edges →
        ((f.1 = g.1 ∧ f.2.1 = g.2.1) ∨ (f.1 = g.2.1 ∧ f.2.1 = g.1)) → f = g := by
      intro f g hf hg hsame
      by_cases hfg : f = g
      · exact hfg
      · exact absurd hsame (pairwise.forall hsymm hf hg hfg)
    rcases hmem with hm | hm
    · have heq : (u, b, w) = e := by
        apply hiff _ _ hm hememm
        rcases hpred with ⟨h1, h2⟩ | ⟨h1, h2⟩
        · exact Or.inl ⟨h1.symm, h2.symm⟩
        · exact Or.inr ⟨h2.symm, h1.symm⟩
      rw [← heq]
      rfl
    · have heq : (b, u, w) = e := by
        apply hiff _ _ hm hememm
        rcases hpred with ⟨h1, h2⟩ | ⟨h1, h2⟩
        · exact Or.inr ⟨h2.symm, h1.symm⟩
        · exact Or.inl ⟨h1.symm, h2.symm⟩
      rw [← heq]
      rfl

theorem w_eq_of_adj {G : Graph} (hwf : G.Wf) {u b : String} {w : ℚ × ℚ}
    (h : (b, w) ∈ G.adj u) (d : Dim) : G.w u b d = d.sel w := by
  rw [Graph.w, edgeData_eq_of_adj hwf h]
  rfl

/-! ## Lemmas: walks and the path enumeration -/

theorem hasEdge_mem_nodes {G : Graph} (hwf : G.Wf) {a b : String}
    (h : G.hasEdge a b = true) : a ∈ G.nodeIds ∧ b ∈ G.nodeIds := by
  obtain ⟨w, h | h⟩ := hasEdge_exists h
  · exact ⟨(hwf.2.1 _ h).1, (hwf.2.1 _ h).2.1⟩
  · exact ⟨(hwf.2.1 _ h).2.1, (hwf.2.1 _ h).1⟩

theorem walk_nodes_mem {G : Graph} (hwf : G.Wf) :
    ∀ (p : List String) (s : String), chainB G p = true → p.head? = some s →
      s ∈ G.nodeIds → ∀ x ∈ p, x ∈ G.nodeIds := by
  intro p
  induction p with
  | nil => intro s _ h; cases h
  | cons a rest ih =>
    intro s hchain hhead hs x hx
    cases hhead
    rw [List.mem_cons] at hx
    rcases hx with rfl | hx
    · exact hs
    · cases rest with
      | nil => cases hx
      | cons b rest' =>
        rw [chainB, Bool.and_eq_true] at hchain
        exact ih b hchain.2 rfl (hasEdge_mem_nodes hwf hchain.1).2 x hx

theorem pathsAux_sound {G : Graph} (hwf : G.Wf) {t : String} :
    ∀ (fuel : ℕ) (cur : String) (visited : List String) (p : List String),
      cur ∉ visited → p ∈ pathsAux G t fuel cur visited →
        p.head? = some cur ∧ p.getLast? = some t ∧ chainB G p = true ∧ p.Nodup ∧
          ∀ x ∈ p, x ∉ visited := by
  intro fuel
  induction fuel with
  | zero => intro cur visited p _ h; cases h
  | succ fuel ih =>
    intro cur visited p hcur hp
    rw [pathsAux] at hp
    by_cases hct : cur = t
    · rw [if_pos hct] at hp
      subst hct
      rw [List.mem_singleton] at hp
      subst hp
      refine ⟨rfl, rfl, rfl, List.nodup_singleton _, ?_⟩
      intro x hx
      rw [List.mem_singleton] at hx
      subst hx
      exact hcur
    · rw [if_neg hct] at hp
      rw [List.mem_flatMap] at hp
      obtain ⟨pr, hpr, hmem⟩ := hp
      by_cases hv : pr.1 ∈ visited
      · rw [if_pos hv] at hmem
        cases hmem
      · rw [if_neg hv] at hmem
        rw [List.mem_map] at hmem
        obtain ⟨q, hq, rfl⟩ := hmem
        have hne : pr.1 ≠ cur := adj_ne hwf (by
          show (pr.1, pr.2) ∈ G.adj cur
          simpa using hpr)
        have hnotin : pr.1 ∉ cur :: visited := by
          rw [List.mem_cons]
          rintro (h | h)
          · exact hne h
          · exact hv h
        obtain ⟨hhead, hlast, hchain, hnodup, hdisj⟩ := ih pr.1 (cur :: visited) q hnotin hq
        have hcurq : cur ∉ q := by
          intro hc
          exact (hdisj cur hc) (List.mem_cons_self cur visited)
        refine ⟨rfl, ?_, ?_, ?_, ?_⟩
        · cases q with
          | nil => cases hhead
          | cons b q' => simpa using hlast
        · cases q with
          | nil => cases hhead
          | cons b q' =>
            rw [List.head?_cons, Option.some_inj] at hhead
            subst hhead
            rw [chainB, Bool.and_eq_true]
            refine ⟨?_, hchain⟩
            obtain ⟨w, hw⟩ : ∃ w, (pr.1, w) ∈ G.adj cur := ⟨pr.2, by simpa using hpr⟩
            exact hasEdge_of_adj hw
        · exact List.nodup_cons.mpr ⟨hcurq, hnodup⟩
        · intro x hx
          rw [List.mem_cons] at hx
          rcases hx with rfl | hx
          · exact hcur
          · intro hc
            exact (hdisj x hx) (List.mem_cons_of_mem _ hc)

theorem pathsAux_complete {G : Graph} {t : String} :
    ∀ (p : List String) (fuel : ℕ) (cur : String) (visited : List String),
      chainB G p = true → p.head? = some cur → p.getLast? = some t → p.Nodup →
      (∀ x ∈ p, x ∉ visited) → p.length ≤ fuel →
      p ∈ pathsAux G t fuel cur visited := by
  intro p
  induction p with
  | nil => intro fuel cur visited _ h; cases h
  | cons a rest ih =>
    intro fuel cur visited hchain hhead hlast hnodup hdisj hlen
    cases hhead
    cases fuel with
    | zero => simp at hlen
    | succ fuel =>
      rw [pathsAux]
      cases rest with
      | nil =>
        rw [List.getLast?_singleton, Option.some_inj] at hlast
        subst hlast
        rw [if_pos rfl]
        exact List.mem_singleton.mpr rfl
      | cons b rest' =>
        have hat : a ≠ t := by
          intro h
          subst h
          have : a ∈ b :: rest' := by
            have := hlast
            rw [List.getLast?_cons_cons] at this
            exact List.mem_of_mem_getLast? this
          exact (List.nodup_cons.mp hnodup).1 this
        rw [if_neg hat]
        rw [chainB, Bool.and_eq_true] at hchain
        obtain ⟨w, hw⟩ := adj_of_hasEdge hchain.1
        rw [List.mem_flatMap]
        refine ⟨(b, w), hw, ?_⟩
        have hbv : b ∉ visited := hdisj b (List.mem_cons_of_mem _ (List.mem_cons_self _ _))
        rw [if_neg hbv, List.mem_map]
        refine ⟨b :: rest', ?_, rfl⟩
        apply ih fuel b (a :: visited) hchain.2 rfl
        · rw [List.getLast?_cons_cons] at hlast
          exact hlast
        · exact (List.nodup_cons.mp hnodup).2
        · intro x hx
          rw [List.mem_cons]
          rintro (rfl | hc)
          · exact (List.nodup_cons.mp hnodup).1 hx
          · exact hdisj x (List.mem_cons_of_mem _ hx) hc
        · simpa using Nat.le_of_succ_le_succ hlen

theorem mem_allPaths_sound {G : Graph} (hwf : G.Wf) {s t : String} {p : List String}
    (hp : p ∈ allPaths G s t) : isPathB G s t p = true := by
  obtain ⟨hhead, hlast, hchain, hnodup, _⟩ :=
    pathsAux_sound hwf _ s [] p (List.not_mem_nil s) hp
  rw [isPathB, isWalkB]
  simp [hhead, hlast, hchain, hnodup]

theorem mem_allPaths_complete {G : Graph} (hwf : G.Wf) {s t : String} {p : List String}
    (hp : isPathB G s t p = true) : p ∈ allPaths G s t := by
  rw [isPathB, isWalkB] at hp
  simp only [Bool.and_eq_true, decide_eq_true_eq] at hp
  obtain ⟨⟨⟨hhead, hlast⟩, hchain⟩, hnodup⟩ := hp
  apply pathsAux_complete p _ s [] hchain hhead hlast hnodup (by simp)
  cases p with
  | nil => cases hhead
  | cons a rest =>
    cases rest with
    | nil => simp [allPaths]
    | cons b rest' =>
      rw [List.head?_cons, Option.some_inj] at hhead
      subst hhead
      have hmem : ∀ x ∈ a :: b :: rest', x ∈ G.nodeIds := by
        apply walk_nodes_mem hwf _ a hchain rfl
        rw [chainB, Bool.and_eq_true] at hchain
        exact (hasEdge_mem_nodes hwf hchain.1).1
      have hsub : (a :: b :: rest') ⊆ G.nodeIds := fun x hx => hmem x hx
      have hcard : (a :: b :: rest').length ≤ G.nodeIds.length := by
        have h1 : (a :: b :: rest').toFinset.card = (a :: b :: rest').length :=
          List.toFinset_card_of_nodup hnodup
        have h2 : (a :: b :: rest').toFinset ⊆ G.nodeIds.toFinset := by
          intro x hx
          rw [List.mem_toFinset] at hx ⊢
          exact hsub hx
        calc (a :: b :: rest').length = (a :: b :: rest').toFinset.card := h1.symm
          _ ≤ G.nodeIds.toFinset.card := Finset.card_le_card h2
          _ ≤ G.nodeIds.length := G.nodeIds.toFinset_card_le
      omega

theorem chainB_tail {G : Graph} {a : String} {l : List String}
    (h : chainB G (a :: l) = true) : chainB G l = true := by
  cases l with
  | nil => rfl
  | cons b l' =>
    rw [chainB, Bool.and_eq_true] at h
    exact h.2

theorem chainB_suffix {G : Graph} :
    ∀ {l₁ l₂ : List String}, chainB G (l₁ ++ l₂) = true → chainB G l₂ = true := by
  intro l₁
  induction l₁ with
  | nil => intro l₂ h; exact h
  | cons x l₁ ih =>
    intro l₂ h
    exact ih (chainB_tail h)

/-- Splicing a walk down to a simple path of no larger weight (non-negative
weights); the path's nodes stay within the walk's. -/
theorem walk_to_path {G : Graph} (hwf : G.Wf) (d : Dim) :
    ∀ (w : List String) (s t : String), isWalkB G s t w = true →
      ∃ p, isPathB G s t p = true ∧ (∀ x ∈ p, x ∈ w) ∧
        get_path_weight G p d ≤ get_path_weight G w d := by
  intro w
  induction w with
  | nil => intro s t hw; simp [isWalkB] at hw
  | cons a rest ih =>
    intro s t hw
    rw [isWalkB] at hw
    simp only [Bool.and_eq_true, decide_eq_true_eq] at hw
    obtain ⟨⟨hhead, hlast⟩, hchain⟩ := hw
    rw [List.head?_cons, Option.some_inj] at hhead
    subst hhead
    cases rest with
    | nil =>
      rw [List.getLast?_singleton, Option.some_inj] at hlast
      subst hlast
      refine ⟨[a], ?_, by simp, le_refl _⟩
      rw [isPathB, isWalkB]
      simp [chainB]
    | cons b rest' =>
      have hchain2 := hchain
      rw [chainB, Bool.and_eq_true] at hchain2
      rw [List.getLast?_cons_cons] at hlast
      have hwalk' : isWalkB G b t (b :: rest') = true := by
        rw [isWalkB]
        simp [hlast, hchain2.2]
      obtain ⟨p', hp', hsub', hle'⟩ := ih b t hwalk'
      rw [isPathB, isWalkB] at hp'
      simp only [Bool.and_eq_true, decide_eq_true_eq] at hp'
      obtain ⟨⟨⟨hhead', hlast'⟩, hchain'⟩, hnodup'⟩ := hp'
      by_cases hsp : a ∈ p'
      · -- drop the prefix of `p'` before the walk's start node
        obtain ⟨ys, zs, rfl⟩ := List.append_of_mem hsp
        refine ⟨a :: zs, ?_, ?_, ?_⟩
        · rw [isPathB, isWalkB]
          simp only [Bool.and_eq_true, decide_eq_true_eq]
          refine ⟨⟨⟨by simp, ?_⟩, ?_⟩, ?_⟩
          · rw [← hlast']
            exact (List.getLast?_append_of_ne_nil ys (by simp)).symm
          · exact chainB_suffix hchain'
          · exact (List.nodup_append.mp hnodup').2.1
        · intro x hx
          exact List.mem_cons_of_mem a
            (hsub' x (by
              rw [List.mem_append]
              exact Or.inr hx))
        · have h1 : get_path_weight G (ys ++ a :: zs) d =
              get_path_weight G (ys ++ [a]) d + get_path_weight G (a :: zs) d :=
            gpw_append G d ys a zs
          have h2 : get_path_weight G (a :: zs) d ≤ get_path_weight G (ys ++ a :: zs) d := by
            rw [h1]
            have := gpw_nonneg hwf d (ys ++ [a])
            linarith
          calc get_path_weight G (a :: zs) d
              ≤ get_path_weight G (ys ++ a :: zs) d := h2
            _ ≤ get_path_weight G (b :: rest') d := hle'
            _ ≤ G.w a b d + get_path_weight G (b :: rest') d := by
                have := w_nonneg hwf a b d
                linarith
            _ = get_path_weight G (a :: b :: rest') d := rfl
      · refine ⟨a :: p', ?_, ?_, ?_⟩
        · rw [isPathB, isWalkB]
          simp only [Bool.and_eq_true, decide_eq_true_eq]
          cases p' with
          | nil => cases hhead'
          | cons c p'' =>
            rw [List.head?_cons, Option.some_inj] at hhead'
            subst hhead'
            refine ⟨⟨⟨by simp, ?_⟩, ?_⟩, ?_⟩
            · rw [List.getLast?_cons_cons]
              exact hlast'
            · rw [chainB, Bool.and_eq_true]
              exact ⟨hchain2.1, hchain'⟩
            · exact List.nodup_cons.mpr ⟨hsp, hnodup'⟩
        · intro x hx
          rw [List.mem_cons] at hx
          rcases hx with rfl | hx
          · exact List.mem_cons_self _ _
          · exact List.mem_cons_of_mem a (hsub' x hx)
        · cases p' with
          | nil => cases hhead'
          | cons c p'' =>
            rw [List.head?_cons, Option.some_inj] at hhead'
            subst hhead'
            show G.w a c d + get_path_weight G (c :: p'') d ≤
              G.w a c d + get_path_weight G (c :: rest') d
            linarith [hle']

/-! ## Lemmas: connectivity, optimal weights and the library models -/

theorem allPaths_self (G : Graph) (s : String) : allPaths G s s = [[s]] := by
  rw [allPaths, pathsAux, if_pos rfl]

theorem connectedB_self (G : Graph) (s : String) : ConnectedB G s s = true := by
  rw [ConnectedB, allPaths_self]
  rfl

theorem connectedB_eq_false_iff {G : Graph} {s t : String} :
    ConnectedB G s t = false ↔ allPaths G s t = [] := by
  rw [ConnectedB]
  simp [List.isEmpty_iff]

theorem connectedB_eq_true_iff {G : Graph} {s t : String} :
    ConnectedB G s t = true ↔ allPaths G s t ≠ [] := by
  rw [ConnectedB]
  simp [List.isEmpty_iff]

theorem optWeight_le_path {G : Graph} {d : Dim} {s t : String} {p : List String}
    (hp : p ∈ allPaths G s t) : optWeight G d s t ≤ get_path_weight G p d := by
  rw [optWeight]
  rcases h : argminBy (fun p => get_path_weight G p d) (allPaths G s t) with _ | q
  · rw [argminBy_eq_none_iff] at h
    rw [h] at hp
    cases hp
  · exact argminBy_le h p hp

theorem optWeight_le_walk {G : Graph} (hwf : G.Wf) {d : Dim} {s t : String} {w : List String}
    (hw : isWalkB G s t w = true) : optWeight G d s t ≤ get_path_weight G w d := by
  obtain ⟨p, hp, _, hle⟩ := walk_to_path hwf d w s t hw
  exact le_trans (optWeight_le_path (mem_allPaths_complete hwf hp)) hle

theorem optWeight_self (G : Graph) (d : Dim) (s : String) : optWeight G d s s = 0 := by
  rw [optWeight, allPaths_self]
  simp [argminBy, get_path_weight]

/-- The Dijkstra contract model on a reachable pair: it returns a member of
`allPaths` realising the optimal weight. -/
theorem nx_dijkstra_spec {G : Graph} {s t : String} (d : Dim)
    (hs : s ∈ G.nodeIds) (hne : allPaths G s t ≠ []) :
    ∃ p, nx_dijkstra_path G s t d = .ok p ∧ p ∈ allPaths G s t ∧
      get_path_weight G p d = optWeight G d s t := by
  rw [nx_dijkstra_path, if_pos hs]
  by_cases hts : t = s
  · subst hts
    rw [if_pos rfl]
    refine ⟨[t], rfl, ?_, ?_⟩
    · rw [allPaths_self]
      exact List.mem_singleton.mpr rfl
    · rw [optWeight_self]
      rfl
  · rw [if_neg hts]
    rcases h : argminBy (fun p => get_path_weight G p d) (allPaths G s t) with _ | p
    · rw [argminBy_eq_none_iff] at h
      exact absurd h hne
    · refine ⟨p, rfl, argminBy_mem h, ?_⟩
      rw [optWeight, h]

theorem nx_dijkstra_noPath {G : Graph} {s t : String} (d : Dim)
    (hs : s ∈ G.nodeIds) (hnone : allPaths G s t = []) :
    nx_dijkstra_path G s t d = .noPath := by
  have hts : t ≠ s := by
    intro h
    subst h
    rw [allPaths_self] at hnone
    cases hnone
  rw [nx_dijkstra_path, if_pos hs, if_neg hts]
  rw [argminBy_eq_none_iff.mpr hnone]

theorem nx_dijkstra_notFound {G : Graph} {s t : String} (d : Dim)
    (hs : s ∉ G.nodeIds) : nx_dijkstra_path G s t d = .nodeNotFound := by
  rw [nx_dijkstra_path, if_neg hs]

/-- The BFS contract model on a reachable pair: some hop-minimal member of
`allPaths`. -/
theorem nx_shortest_spec {G : Graph} {s t : String}
    (hs : s ∈ G.nodeIds) (ht : t ∈ G.nodeIds) (hne : allPaths G s t ≠ []) :
    ∃ p, nx_shortest_path G s t = .ok p ∧ p ∈ allPaths G s t ∧
      ∀ q ∈ allPaths G s t, p.length ≤ q.length := by
  rw [nx_shortest_path, if_pos ⟨hs, ht⟩]
  by_cases hts : t = s
  · subst hts
    rw [if_pos rfl]
    refine ⟨[t], rfl, ?_, ?_⟩
    · rw [allPaths_self]
      exact List.mem_singleton.mpr rfl
    · rw [allPaths_self]
      intro q hq
      rw [List.mem_singleton] at hq
      subst hq
      exact le_refl _
  · rw [if_neg hts]
    rcases h : argminBy (fun p : List String => (p.length : ℚ)) (allPaths G s t) with _ | p
    · rw [argminBy_eq_none_iff] at h
      exact absurd h hne
    · refine ⟨p, rfl, argminBy_mem h, ?_⟩
      intro q hq
      have := argminBy_le h q hq
      exact_mod_cast this

theorem nx_shortest_notFound {G : Graph} {s t : String}
    (h : ¬(s ∈ G.nodeIds ∧ t ∈ G.nodeIds)) : nx_shortest_path G s t = .nodeNotFound := by
  rw [nx_shortest_path, if_neg h]

/-! ## Claim theorems: C9 and C10 -/

/-- C9: for every well-formed graph and reachable pair, the total `time` of
the Dijkstra `time`-optimal path is at most the total `time` of the
hop-minimal path returned by the BFS strategy. -/
theorem C9_dijkstra_time_le_bfs_time {G : Graph} {s t : String} (hwf : G.Wf)
    (hs : s ∈ G.nodeIds) (ht : t ∈ G.nodeIds) (hconn : ConnectedB G s t = true) :
    ∃ p q,
      dijkstra_shortest_path G s t Dim.time =
        .ok ⟨some p, (get_path_weight G p Dim.time : ℚ), none⟩ ∧
      bfs_shortest_path G s t = .ok ⟨some q, ((q.length - 1 : ℕ) : ℚ), none⟩ ∧
      get_path_weight G p Dim.time ≤ get_path_weight G q Dim.time := by
  rw [connectedB_eq_true_iff] at hconn
  obtain ⟨p, hp, hpmem, hpw⟩ := nx_dijkstra_spec Dim.time hs hconn
  obtain ⟨q, hq, hqmem, _⟩ := nx_shortest_spec hs ht hconn
  refine ⟨p, q, ?_, ?_, ?_⟩
  · rw [dijkstra_shortest_path, hp]
  · rw [bfs_shortest_path, hq]
  · rw [hpw]
    exact optWeight_le_path hqmem

/-- C9 witness. -/
theorem C9_witness :
    ∃ p q,
      dijkstra_shortest_path exG2 "A" "B" Dim.time =
        .ok ⟨some p, (get_path_weight exG2 p Dim.time : ℚ), none⟩ ∧
      bfs_shortest_path exG2 "A" "B" = .ok ⟨some q, ((q.length - 1 : ℕ) : ℚ), none⟩ ∧
      get_path_weight exG2 p Dim.time ≤ get_path_weight exG2 q Dim.time :=
  C9_dijkstra_time_le_bfs_time (by decide) (by decide) (by decide) (by decide)

/-- C10: any algorithm selector other than `'bfs'` and `'astar'` silently
falls through to the Dijkstra branch; the result is the Dijkstra-mode result
except for the echoed `algorithm` tag. -/
theorem C10_unknown_algorithm_is_dijkstra (G : Graph) (hE : String → String → ℚ)
    (s t alg : String) (h1 : alg ≠ "bfs") (h2 : alg ≠ "astar") :
    find_dual_paths G hE s t alg =
      (find_dual_paths G hE s t "dijkstra").map (fun r => { r with algorithm := alg }) := by
  rw [find_dual_paths, if_neg h1, if_neg h2]
  rw [find_dual_paths, if_neg (by decide : ¬("dijkstra" = "bfs")),
    if_neg (by decide : ¬("dijkstra" = "astar"))]
  rcases dijkstra_shortest_path G s t Dim.time with e | rt
  · rfl
  · rcases dijkstra_shortest_path G s t Dim.cost with e | rc
    · rfl
    · simp only [Except.map]
      rcases rt with ⟨_ | ⟨_ | ⟨a, p⟩⟩, tt, te⟩ <;>
        rcases rc with ⟨_ | ⟨_ | ⟨b, q⟩⟩, ct, ce⟩ <;> rfl

/-! ## Claim theorems: C8 (degenerate `start == end`) -/

theorem astarRun_self (G : Graph) (hw : String → String → ℚ) (t : String) (d : Dim)
    (fuel : ℕ) (f0 d0 : ℚ) (c cnt : ℕ) :
    astarRun G hw t d (fuel + 1) ⟨[(f0, c, t, d0, none)], cnt, [], []⟩ = .ok [t] := by
  rw [astarRun, astarStep]
  simp [popMinA, parentChain]

theorem nx_astar_self {G : Graph} (h : String → String → ℚ) {s : String} (d : Dim)
    (hs : s ∈ G.nodeIds) : nx_astar_path G h s s d = .ok [s] := by
  rw [nx_astar_path, if_pos ⟨hs, hs⟩]
  show astarRun G h s d
    (2 * G.nodes.length * ((G.nodes.length + 1) * wSumNat G d + 1) + 1 + 1) _ = _
  exact astarRun_self G h s d _ 0 0 0 1

/-- C8: querying any strategy or router with `start == end` (an existing
node) is not an error: a zero-length path (the single node) with zero totals
in every dimension. -/
theorem C8_start_eq_end {G : Graph} (hE : String → String → ℚ) {s : String}
    (hs : s ∈ G.nodeIds) :
    bfs_shortest_path G s s = .ok ⟨some [s], ((0 : ℚ) : WithTop ℚ), none⟩ ∧
    (∀ d, dijkstra_shortest_path G s s d = .ok ⟨some [s], ((0 : ℚ) : WithTop ℚ), none⟩) ∧
    (∀ d, astar_shortest_path G hE s s d = .ok ⟨some [s], ((0 : ℚ) : WithTop ℚ), none⟩) ∧
    (∀ alg, find_dual_paths G hE s s alg =
      .ok ⟨s, s, alg, some [s], some [s], some ((0 : ℚ) : WithTop ℚ),
        some ((0 : ℚ) : WithTop ℚ), some 0, some 0, [], []⟩) ∧
    find_multi_stop_path G s s [] = .ok (.ok ⟨s, s, [], [s], 0, 0, [s], 0, 0, [], []⟩) := by
  have hbfs : bfs_shortest_path G s s = .ok ⟨some [s], ((0 : ℚ) : WithTop ℚ), none⟩ := by
    rw [bfs_shortest_path, nx_shortest_path, if_pos ⟨hs, hs⟩, if_pos rfl]
    norm_num
  have hdij : ∀ d, dijkstra_shortest_path G s s d =
      .ok ⟨some [s], ((0 : ℚ) : WithTop ℚ), none⟩ := by
    intro d
    rw [dijkstra_shortest_path, nx_dijkstra_path, if_pos hs, if_pos rfl]
    rfl
  have hast : ∀ d, astar_shortest_path G hE s s d =
      .ok ⟨some [s], ((0 : ℚ) : WithTop ℚ), none⟩ := by
    intro d
    simp only [astar_shortest_path]
    rw [nx_astar_self _ d hs]
    rfl
  have hmulti : find_multi_stop_path G s s [] =
      .ok (.ok ⟨s, s, [], [s], 0, 0, [s], 0, 0, [], []⟩) := by
    rw [find_multi_stop_path]
    have hnx : ∀ d, nx_dijkstra_path G s s d = .ok [s] := by
      intro d
      rw [nx_dijkstra_path, if_pos hs, if_pos rfl]
    have hchain : ∀ d, buildChain G d (s :: ([] ++ [s])) = .ok [s] := by
      intro d
      rw [buildChain]
      show buildChainAux G d [(s, s)] 0 [] = .ok [s]
      rw [buildChainAux, hnx]
      rfl
    rw [hchain, hchain]
    rfl
  refine ⟨hbfs, hdij, hast, ?_, hmulti⟩
  intro alg
  rw [find_dual_paths]
  by_cases h1 : alg = "bfs"
  · rw [if_pos h1, hbfs]
    subst h1
    show Except.ok (withDetails G _) = _
    rw [withDetails]
    simp [get_path_details, get_path_weight]
  · rw [if_neg h1]
    by_cases h2 : alg = "astar"
    · rw [if_pos h2, hast, hast]
      subst h2
      show Except.ok (withDetails G _) = _
      rw [withDetails]
      simp [get_path_details, get_path_weight]
    · rw [if_neg h2, hdij, hdij]
      show Except.ok (withDetails G _) = _
      rw [withDetails]
      simp [get_path_details, get_path_weight]

/-- C8 witness. -/
theorem C8_witness :
    bfs_shortest_path exG2 "A" "A" = .ok ⟨some ["A"], ((0 : ℚ) : WithTop ℚ), none⟩ ∧
    (∀ d, dijkstra_shortest_path exG2 "A" "A" d =
      .ok ⟨some ["A"], ((0 : ℚ) : WithTop ℚ), none⟩) ∧
    (∀ d, astar_shortest_path exG2 (fun _ _ => 0) "A" "A" d =
      .ok ⟨some ["A"], ((0 : ℚ) : WithTop ℚ), none⟩) ∧
    (∀ alg, find_dual_paths exG2 (fun _ _ => 0) "A" "A" alg =
      .ok ⟨"A", "A", alg, some ["A"], some ["A"], some ((0 : ℚ) : WithTop ℚ),
        some ((0 : ℚ) : WithTop ℚ), some 0, some 0, [], []⟩) ∧
    find_multi_stop_path exG2 "A" "A" [] =
      .ok (.ok ⟨"A", "A", [], ["A"], 0, 0, ["A"], 0, 0, [], []⟩) :=
  C8_start_eq_end (fun _ _ => 0) (by decide)

/-! ## Claim theorems: C5 and C7 (multi-stop router) -/

theorem chainPairs_cons (a b : String) (rest : List String) :
    chainPairs (a :: b :: rest) = (a, b) :: chainPairs (b :: rest) := rfl

theorem allPaths_props {G : Graph} (hwf : G.Wf) {s t : String} {p : List String}
    (hp : p ∈ allPaths G s t) :
    p.head? = some s ∧ p.getLast? = some t ∧ chainB G p = true ∧ p.Nodup := by
  have h := mem_allPaths_sound hwf hp
  rw [isPathB, isWalkB] at h
  simp only [Bool.and_eq_true, decide_eq_true_eq] at h
  exact ⟨h.1.1.1, h.1.1.2, h.1.2, h.2⟩

theorem gpw_glue {G : Graph} {d : Dim} (curr : List String) (u : String) (zs : List String)
    (hlast : curr.getLast? = some u) :
    get_path_weight G (curr ++ zs) d =
      get_path_weight G curr d + get_path_weight G (u :: zs) d := by
  have hne : curr ≠ [] := by
    intro h
    subst h
    cases hlast
  have hdecomp : curr.dropLast ++ [curr.getLast hne] = curr := List.dropLast_append_getLast hne
  have hu : curr.getLast hne = u := by
    have := List.getLast?_eq_getLast curr hne
    rw [this, Option.some_inj] at hlast
    exact hlast
  rw [hu] at hdecomp
  calc get_path_weight G (curr ++ zs) d
      = get_path_weight G ((curr.dropLast ++ [u]) ++ zs) d := by rw [hdecomp]
    _ = get_path_weight G (curr.dropLast ++ u :: zs) d := by rw [List.append_assoc]; rfl
    _ = get_path_weight G (curr.dropLast ++ [u]) d + get_path_weight G (u :: zs) d :=
        gpw_append G d curr.dropLast u zs
    _ = get_path_weight G curr d + get_path_weight G (u :: zs) d := by rw [hdecomp]

theorem append_drop_getLast {curr : List String} {u v : String} {zs : List String}
    (hlast : curr.getLast? = some u) (hsegl : (u :: zs).getLast? = some v) :
    (curr ++ zs).getLast? = some v := by
  cases zs with
  | nil =>
    rw [List.getLast?_singleton, Option.some_inj] at hsegl
    subst hsegl
    simpa using hlast
  | cons z zs' =>
    rw [List.getLast?_cons_cons] at hsegl
    rw [List.getLast?_append_of_ne_nil curr (by simp)]
    exact hsegl

theorem chain_ok_aux {G : Graph} (hwf : G.Wf) (d : Dim) :
    ∀ (rest : List String) (u : String) (i : ℕ) (curr : List String),
      0 < i → curr.getLast? = some u → u ∈ G.nodeIds →
      (∀ x ∈ rest, x ∈ G.nodeIds) →
      (∀ pr ∈ chainPairs (u :: rest), ConnectedB G pr.1 pr.2 = true) →
      ∃ full, buildChainAux G d (chainPairs (u :: rest)) i curr = .ok full ∧
        get_path_weight G full d = get_path_weight G curr d +
          ((chainPairs (u :: rest)).map (fun pr => optWeight G d pr.1 pr.2)).sum := by
  intro rest
  induction rest with
  | nil =>
    intro u i curr _ _ _ _ _
    exact ⟨curr, rfl, by simp [chainPairs]⟩
  | cons v rest' ih =>
    intro u i curr hi hlast hu hmem hconn
    have hcv : ConnectedB G u v = true := hconn (u, v) (List.mem_cons_self _ _)
    rw [connectedB_eq_true_iff] at hcv
    obtain ⟨seg, hseg, hsegmem, hsegw⟩ := nx_dijkstra_spec d hu hcv
    obtain ⟨hsh, hsl, _, _⟩ := allPaths_props hwf hsegmem
    obtain ⟨zs, rfl⟩ : ∃ zs, seg = u :: zs := by
      cases seg with
      | nil => cases hsh
      | cons u0 zs =>
        rw [List.head?_cons, Option.some_inj] at hsh
        exact ⟨zs, by rw [hsh]⟩
    rw [chainPairs_cons]
    simp only [buildChainAux, hseg]
    rw [if_pos hi]
    have hlast' : (curr ++ (u :: zs).drop 1).getLast? = some v := by
      simpa using append_drop_getLast hlast hsl
    have hgw : get_path_weight G (curr ++ (u :: zs).drop 1) d =
        get_path_weight G curr d + optWeight G d u v := by
      show get_path_weight G (curr ++ zs) d = _
      rw [gpw_glue curr u zs hlast, hsegw]
    obtain ⟨full, hfull, hfw⟩ := ih v (i + 1) (curr ++ (u :: zs).drop 1)
      (Nat.succ_pos i) hlast' (hmem v (List.mem_cons_self _ _))
      (fun x hx => hmem x (List.mem_cons_of_mem _ hx))
      (fun pr hpr => hconn pr (by rw [chainPairs_cons]; exact List.mem_cons_of_mem _ hpr))
    refine ⟨full, ?_, ?_⟩
    · exact hfull
    · rw [hfw, hgw]
      show _ = get_path_weight G curr d +
        (optWeight G d u v + ((chainPairs (v :: rest')).map _).sum)
      ring

theorem buildChain_ok {G : Graph} (hwf : G.Wf) (d : Dim) (s : String) (rest : List String)
    (hs : s ∈ G.nodeIds) (hmem : ∀ x ∈ rest, x ∈ G.nodeIds)
    (hconn : ∀ pr ∈ chainPairs (s :: rest), ConnectedB G pr.1 pr.2 = true) :
    ∃ full, buildChain G d (s :: rest) = .ok full ∧
      get_path_weight G full d =
        ((chainPairs (s :: rest)).map (fun pr => optWeight G d pr.1 pr.2)).sum := by
  cases rest with
  | nil => exact ⟨[], rfl, by simp [chainPairs, get_path_weight]⟩
  | cons v rest' =>
    have hcv : ConnectedB G s v = true := hconn (s, v) (List.mem_cons_self _ _)
    rw [connectedB_eq_true_iff] at hcv
    obtain ⟨seg, hseg, hsegmem, hsegw⟩ := nx_dijkstra_spec d hs hcv
    obtain ⟨hsh, hsl, _, _⟩ := allPaths_props hwf hsegmem
    rw [buildChain, chainPairs_cons]
    simp only [buildChainAux, hseg]
    rw [if_neg (by omega : ¬(0 < 0))]
    obtain ⟨full, hfull, hfw⟩ := chain_ok_aux hwf d rest' v 1 ([] ++ seg)
      Nat.one_pos (by simpa using hsl) (hmem v (List.mem_cons_self _ _))
      (fun x hx => hmem x (List.mem_cons_of_mem _ hx))
      (fun pr hpr => hconn pr (List.mem_cons_of_mem _ hpr))
    refine ⟨full, hfull, ?_⟩
    rw [hfw]
    show _ = optWeight G d s v + ((chainPairs (v :: rest')).map _).sum
    rw [show get_path_weight G ([] ++ seg) d = optWeight G d s v by simpa using hsegw]

theorem chain_noPath {G : Graph} (hwf : G.Wf) (d : Dim) :
    ∀ (rest : List String) (u : String) (i : ℕ) (curr : List String),
      u ∈ G.nodeIds → (∀ x ∈ rest, x ∈ G.nodeIds) →
      (∃ pr ∈ chainPairs (u :: rest), ConnectedB G pr.1 pr.2 = false) →
      buildChainAux G d (chainPairs (u :: rest)) i curr = .noPath := by
  intro rest
  induction rest with
  | nil =>
    intro u i curr _ _ hex
    obtain ⟨pr, hpr, _⟩ := hex
    cases hpr
  | cons v rest' ih =>
    intro u i curr hu hmem hex
    rw [chainPairs_cons]
    by_cases hcv : ConnectedB G u v = true
    · rw [connectedB_eq_true_iff] at hcv
      obtain ⟨seg, hseg, _, _⟩ := nx_dijkstra_spec d hu hcv
      simp only [buildChainAux, hseg]
      apply ih v _ _ (hmem v (List.mem_cons_self _ _))
        (fun x hx => hmem x (List.mem_cons_of_mem _ hx))
      obtain ⟨pr, hpr, hprf⟩ := hex
      rw [chainPairs_cons, List.mem_cons] at hpr
      rcases hpr with rfl | hpr
      · rw [← connectedB_eq_true_iff] at hcv
        rw [hcv] at hprf
        cases hprf
      · exact ⟨pr, hpr, hprf⟩
    · have hfalse : ConnectedB G u v = false := by
        cases h : ConnectedB G u v
        · rfl
        · exact absurd h hcv
      rw [connectedB_eq_false_iff] at hfalse
      simp only [buildChainAux, nx_dijkstra_noPath d hu hfalse]

/-- C5: if any consecutive-stop segment (of either chain — they share the
same segments) is unreachable, `find_multi_stop_path` fails the whole
request with the no-path error dictionary and returns no partial route. -/
theorem C5_multi_stop_strict {G : Graph} (hwf : G.Wf) (s e : String) (wps : List String)
    (hs : s ∈ G.nodeIds) (hmem : ∀ x ∈ wps ++ [e], x ∈ G.nodeIds)
    (hex : ∃ pr ∈ chainPairs (s :: (wps ++ [e])), ConnectedB G pr.1 pr.2 = false) :
    find_multi_stop_path G s e wps = .ok (.error "路径不可达，请检查途径点是否连通") := by
  have ht : buildChain G Dim.time (s :: (wps ++ [e])) = .noPath := by
    rw [buildChain]
    exact chain_noPath hwf Dim.time (wps ++ [e]) s 0 [] hs hmem hex
  simp only [find_multi_stop_path]
  rw [ht]

/-- C5 witness: waypoint chain `A → C` on the disconnected fixture. -/
theorem C5_witness :
    find_multi_stop_path exG2 "C" "A" [] =
      .ok (.error "路径不可达，请检查途径点是否连通") :=
  C5_multi_stop_strict exG2_wf "C" "A" [] (by decide) (by decide)
    ⟨("C", "A"), by decide, by decide⟩

/-- C7: when every consecutive-stop segment is reachable, the total weight of
each concatenated chain equals the exact sum of the optimal weights of its
segments, for both dimensions. -/
theorem C7_multi_stop_sum {G : Graph} (hwf : G.Wf) (s e : String) (wps : List String)
    (hs : s ∈ G.nodeIds) (hmem : ∀ x ∈ wps ++ [e], x ∈ G.nodeIds)
    (hconn : ∀ pr ∈ chainPairs (s :: (wps ++ [e])), ConnectedB G pr.1 pr.2 = true) :
    ∃ r, find_multi_stop_path G s e wps = .ok (.ok r) ∧
      r.total_time =
        ((chainPairs (s :: (wps ++ [e]))).map (fun pr => optWeight G Dim.time pr.1 pr.2)).sum ∧
      r.total_cost =
        ((chainPairs (s :: (wps ++ [e]))).map (fun pr => optWeight G Dim.cost pr.1 pr.2)).sum := by
  obtain ⟨ft, hft, hftw⟩ := buildChain_ok hwf Dim.time s (wps ++ [e]) hs hmem hconn
  obtain ⟨fc, hfc, hfcw⟩ := buildChain_ok hwf Dim.cost s (wps ++ [e]) hs hmem hconn
  simp only [find_multi_stop_path]
  rw [hft, hfc]
  exact ⟨_, rfl, hftw, hfcw⟩

/-- C7 witness. -/
theorem C7_witness :
    ∃ r, find_multi_stop_path exG2 "A" "B" [] = .ok (.ok r) ∧
      r.total_time =
        ((chainPairs ("A" :: ([] ++ ["B"]))).map
          (fun pr => optWeight exG2 Dim.time pr.1 pr.2)).sum ∧
      r.total_cost =
        ((chainPairs ("A" :: ([] ++ ["B"]))).map
          (fun pr => optWeight exG2 Dim.cost pr.1 pr.2)).sum :=
  C7_multi_stop_sum exG2_wf "A" "B" [] (by decide) (by decide) (by decide)

/-! ## Lemmas: the `Joined` closure of an undirected edge list -/

theorem joined_refl (es : List (String × String)) (x : String) : Joined es x x :=
  Relation.ReflTransGen.refl

theorem joined_single {es : List (String × String)} {a b : String}
    (h : (a, b) ∈ es) : Joined es a b :=
  Relation.ReflTransGen.single (Or.inl h)

theorem joined_single' {es : List (String × String)} {a b : String}
    (h : (b, a) ∈ es) : Joined es a b :=
  Relation.ReflTransGen.single (Or.inr h)

theorem joined_trans {es : List (String × String)} {x y z : String}
    (h1 : Joined es x y) (h2 : Joined es y z) : Joined es x z :=
  Relation.ReflTransGen.trans h1 h2

theorem joined_symm {es : List (String × String)} {x y : String}
    (h : Joined es x y) : Joined es y x := by
  induction h with
  | refl => exact Relation.ReflTransGen.refl
  | tail _ hstep ih =>
    refine Relation.ReflTransGen.trans (Relation.ReflTransGen.single ?_) ih
    tauto

theorem joined_mono {es es' : List (String × String)} (hsub : ∀ pr ∈ es, pr ∈ es')
    {x y : String} (h : Joined es x y) : Joined es' x y := by
  induction h with
  | refl => exact Relation.ReflTransGen.refl
  | tail _ hstep ih =>
    refine Relation.ReflTransGen.tail ih ?_
    rcases hstep with h | h
    · exact Or.inl (hsub _ h)
    · exact Or.inr (hsub _ h)

theorem joined_congr {es es' : List (String × String)} (hiff : ∀ pr, pr ∈ es ↔ pr ∈ es')
    (x y : String) : Joined es x y ↔ Joined es' x y :=
  ⟨joined_mono (fun pr h => (hiff pr).mp h), joined_mono (fun pr h => (hiff pr).mpr h)⟩

/-- Adding one undirected edge to the list: the closure grows exactly by
linking the two endpoint classes. -/
theorem joined_cons_iff (es : List (String × String)) (a b x y : String) :
    Joined ((a, b) :: es) x y ↔
      Joined es x y ∨ (Joined es x a ∧ Joined es b y) ∨ (Joined es x b ∧ Joined es a y) := by
  constructor
  · intro h
    induction h with
    | refl => exact Or.inl (joined_refl es x)
    | @tail m w _ hstep ih =>
      have hstep' : (m = a ∧ w = b) ∨ (m, w) ∈ es ∨ (w = a ∧ m = b) ∨ (w, m) ∈ es := by
        rcases hstep with h | h <;> rw [List.mem_cons, Prod.mk.injEq] at h <;> tauto
      rcases ih with hxm | ⟨hxa, hbm⟩ | ⟨hxb, ham⟩
      · rcases hstep' with ⟨rfl, rfl⟩ | hmem | ⟨rfl, rfl⟩ | hmem
        · exact Or.inr (Or.inl ⟨hxm, joined_refl _ _⟩)
        · exact Or.inl (joined_trans hxm (joined_single hmem))
        · exact Or.inr (Or.inr ⟨hxm, joined_refl _ _⟩)
        · exact Or.inl (joined_trans hxm (joined_single' hmem))
      · rcases hstep' with ⟨rfl, rfl⟩ | hmem | ⟨rfl, rfl⟩ | hmem
        · exact Or.inr (Or.inl ⟨hxa, joined_refl _ _⟩)
        · exact Or.inr (Or.inl ⟨hxa, joined_trans hbm (joined_single hmem)⟩)
        · exact Or.inl hxa
        · exact Or.inr (Or.inl ⟨hxa, joined_trans hbm (joined_single' hmem)⟩)
      · rcases hstep' with ⟨rfl, rfl⟩ | hmem | ⟨rfl, rfl⟩ | hmem
        · exact Or.inl hxb
        · exact Or.inr (Or.inr ⟨hxb, joined_trans ham (joined_single hmem)⟩)
        · exact Or.inr (Or.inr ⟨hxb, joined_refl _ _⟩)
        · exact Or.inr (Or.inr ⟨hxb, joined_trans ham (joined_single' hmem)⟩)
  · intro h
    have hmono : ∀ {x' y'}, Joined es x' y' → Joined ((a, b) :: es) x' y' :=
      fun h' => joined_mono (fun pr hpr => List.mem_cons_of_mem _ hpr) h'
    have hab : Joined ((a, b) :: es) a b := joined_single (List.mem_cons_self _ _)
    rcases h with h | ⟨h1, h2⟩ | ⟨h1, h2⟩
    · exact hmono h
    · exact joined_trans (hmono h1) (joined_trans hab (hmono h2))
    · exact joined_trans (hmono h1) (joined_trans (joined_symm hab) (hmono h2))

/-- Appending an edge whose endpoints are already joined changes nothing. -/
theorem joined_cons_redundant {es : List (String × String)} {a b : String}
    (hab : Joined es a b) (x y : String) :
    Joined ((a, b) :: es) x y ↔ Joined es x y := by
  rw [joined_cons_iff]
  constructor
  · rintro (h | ⟨h1, h2⟩ | ⟨h1, h2⟩)
    · exact h
    · exact joined_trans h1 (joined_trans hab h2)
    · exact joined_trans h1 (joined_trans (joined_symm hab) h2)
  · exact Or.inl

/-- A node that appears in no pair is joined only to itself. -/
theorem joined_eq_of_not_mentioned {es : List (String × String)} {x y : String}
    (h : Joined es x y)
    (hy : ∀ pr ∈ es, pr.1 ≠ y ∧ pr.2 ≠ y) : x = y := by
  induction h with
  | refl => rfl
  | @tail m w _ hstep _ =>
    exfalso
    rcases hstep with hs | hs
    · exact (hy _ hs).2 rfl
    · exact (hy _ hs).1 rfl

theorem joined_nil {x y : String} : Joined [] x y ↔ x = y := by
  constructor
  · intro h
    induction h with
    | refl => rfl
    | tail _ hstep _ => rcases hstep with hs | hs <;> cases hs
  · rintro rfl
    exact joined_refl [] x

/-! ## Lemmas: counting list elements -/

theorem length_filter_split {α : Type} (pred : α → Bool) :
    ∀ l : List α, (l.filter pred).length + (l.filter (fun x => !pred x)).length = l.length := by
  intro l
  induction l with
  | nil => rfl
  | cons a rest ih =>
    by_cases h : pred a = true
    · simp [List.filter_cons, h, ← ih]
      omega
    · rw [Bool.not_eq_true] at h
      simp [List.filter_cons, h, ← ih]
      omega

theorem length_filter_of_flip {α : Type} [DecidableEq α] {pred pred' : α → Bool} {a : α} :
    ∀ {l : List α}, l.Nodup → a ∈ l → (∀ x ∈ l, x ≠ a → pred' x = pred x) →
      pred a = true → pred' a = false →
      (l.filter pred).length = (l.filter pred').length + 1 := by
  intro l
  induction l with
  | nil => intro _ ha; cases ha
  | cons b rest ih =>
    intro hnd hb hsame hpa hpa'
    rw [List.mem_cons] at hb
    rcases hb with rfl | hb
    · have hrest : rest.filter pred = rest.filter pred' := by
        apply List.filter_congr
        intro x hx
        exact (hsame x (List.mem_cons_of_mem _ hx)
          (fun hxa => (List.nodup_cons.mp hnd).1 (hxa ▸ hx))).symm
      simp [List.filter_cons, hpa, hpa', hrest]
    · have hba : b ≠ a := fun hba => (List.nodup_cons.mp hnd).1 (hba ▸ hb)
      have hsb := hsame b (List.mem_cons_self _ _) hba
      have ihr := ih (List.nodup_cons.mp hnd).2 hb
        (fun x hx hxa => hsame x (List.mem_cons_of_mem _ hx) hxa) hpa hpa'
      by_cases hpb : pred b = true
      · simp [List.filter_cons, hpb, hsb ▸ hpb, ihr]
      · rw [Bool.not_eq_true] at hpb
        simp [List.filter_cons, hpb, hsb ▸ hpb, ihr]

theorem two_mem_le_length {α : Type} {x y : α} :
    ∀ {l : List α}, x ∈ l → y ∈ l → x ≠ y → 2 ≤ l.length := by
  intro l
  induction l with
  | nil => intro hx; cases hx
  | cons a rest ih =>
    intro hx hy hne
    rw [List.mem_cons] at hx hy
    rcases hx with rfl | hx
    · rcases hy with rfl | hy
      · exact absurd rfl hne
      · have := List.length_pos.mpr (List.ne_nil_of_mem hy)
        simp only [List.length_cons]
        omega
    · have := List.length_pos.mpr (List.ne_nil_of_mem hx)
      simp only [List.length_cons]
      omega

/-! ## Lemmas: union-find roots -/

theorem rankOk_root_of_zero {p : String → String} {rank : String → ℕ}
    (h : RankOk p rank) {v : String} (hv : rank v = 0) : p v = v := by
  by_contra hne
  have := h.2 v hne
  omega

theorem rank_pos {p : String → String} {rank : String → ℕ}
    (h : RankOk p rank) {v : String} (hv : p v ≠ v) : 0 < rank v := by
  have := h.2 v hv
  omega

theorem ufRoot_of_fix {p : String → String} {v : String} (h : p v = v) :
    ∀ fuel, ufRoot p fuel v = v
  | 0 => rfl
  | fuel + 1 => by simp [ufRoot, h]

theorem ufRoot_fix {p : String → String} {rank : String → ℕ} (h : RankOk p rank) :
    ∀ (fuel : ℕ) (v : String), rank v ≤ fuel →
      p (ufRoot p fuel v) = ufRoot p fuel v := by
  intro fuel
  induction fuel with
  | zero =>
    intro v hv
    have hfix := rankOk_root_of_zero h (Nat.le_zero.mp hv)
    simpa [ufRoot] using hfix
  | succ n ih =>
    intro v hv
    by_cases hfix : p v = v
    · rw [ufRoot_of_fix hfix]
      exact hfix
    · rw [show ufRoot p (n + 1) v = ufRoot p n (p v) by simp [ufRoot, hfix]]
      exact ih (p v) (by have := h.2 v hfix; omega)

theorem ufRoot_stable {p : String → String} {rank : String → ℕ} (h : RankOk p rank) :
    ∀ (fuel fuel' : ℕ) (v : String), rank v ≤ fuel → rank v ≤ fuel' →
      ufRoot p fuel v = ufRoot p fuel' v := by
  intro fuel
  induction fuel with
  | zero =>
    intro fuel' v hv _
    have hfix := rankOk_root_of_zero h (Nat.le_zero.mp hv)
    rw [ufRoot_of_fix hfix, ufRoot_of_fix hfix]
  | succ n ih =>
    intro fuel' v hv hv'
    by_cases hfix : p v = v
    · rw [ufRoot_of_fix hfix, ufRoot_of_fix hfix]
    · cases fuel' with
      | zero => exact absurd (rankOk_root_of_zero h (Nat.le_zero.mp hv')) hfix
      | succ m =>
        have hd := h.2 v hfix
        simp only [ufRoot, if_neg hfix]
        exact ih m (p v) (by omega) (by omega)

theorem ufRoot_step {p : String → String} {rank : String → ℕ} (h : RankOk p rank)
    {fuel : ℕ} {v : String} (hfix : p v ≠ v) (hv : rank v ≤ fuel) :
    ufRoot p fuel v = ufRoot p fuel (p v) := by
  cases fuel with
  | zero => exact absurd (rankOk_root_of_zero h (Nat.le_zero.mp hv)) hfix
  | succ n =>
    have hd := h.2 v hfix
    rw [show ufRoot p (n + 1) v = ufRoot p n (p v) by simp [ufRoot, hfix]]
    exact ufRoot_stable h n (n + 1) (p v) (by omega) (by omega)

theorem ufRoot_mem_nodes {G : Graph} {p : String → String}
    (hcl : ∀ v ∈ G.nodeIds, p v ∈ G.nodeIds) :
    ∀ (fuel : ℕ) (v : String), v ∈ G.nodeIds → ufRoot p fuel v ∈ G.nodeIds := by
  intro fuel
  induction fuel with
  | zero => intro v hv; exact hv
  | succ n ih =>
    intro v hv
    by_cases hfix : p v = v
    · rw [ufRoot_of_fix hfix]; exact hv
    · rw [show ufRoot p (n + 1) v = ufRoot p n (p v) by simp [ufRoot, hfix]]
      exact ih (p v) (hcl v hv)

theorem ufRoot_rank_zero {p : String → String} {rank : String → ℕ} (h : RankOk p rank)
    {fuel : ℕ} {v : String} (hv : rank v ≤ fuel) : rank (ufRoot p fuel v) = 0 :=
  h.1 _ (ufRoot_fix h fuel v hv)

theorem rootsCount_add_nonRootsCount (G : Graph) (p : String → String) :
    rootsCount G p + nonRootsCount G p = G.nodeIds.length :=
  length_filter_split _ _

theorem nonRootsCount_le (G : Graph) (p : String → String) :
    nonRootsCount G p ≤ G.nodeIds.length :=
  List.length_filter_le _ _

theorem rootsCount_id (G : Graph) : rootsCount G id = G.nodeIds.length := by
  rw [rootsCount]
  rw [List.filter_eq_self.mpr (fun x _ => by simp)]

theorem ufFind_of_fix {p : String → String} {v : String} (h : p v = v) :
    ∀ fuel, ufFind fuel p v = (v, p)
  | 0 => rfl
  | fuel + 1 => by simp [ufFind, h]

/-- Characterisation of `ufFind`: it returns the chain root, and the output
parent map agrees with the input except on (some) chain nodes, which it
redirects straight to the root. -/
theorem ufFind_char {p : String → String} {rank : String → ℕ} (hro : RankOk p rank) :
    ∀ (fuel : ℕ) (v : String), rank v ≤ fuel →
      (ufFind fuel p v).1 = ufRoot p fuel v ∧
      ∀ x, (ufFind fuel p v).2 x = p x ∨
        ((ufFind fuel p v).2 x = ufRoot p fuel v ∧ p x ≠ x ∧ rank x ≤ fuel ∧
          ufRoot p fuel x = ufRoot p fuel v) := by
  intro fuel
  induction fuel with
  | zero => intro v _; exact ⟨rfl, fun x => Or.inl rfl⟩
  | succ n ih =>
    intro v hv
    by_cases hfix : p v = v
    · rw [ufFind_of_fix hfix]
      exact ⟨(ufRoot_of_fix hfix _).symm, fun x => Or.inl rfl⟩
    · have hrank : rank (p v) ≤ n := by have := hro.2 v hfix; omega
      obtain ⟨ih1, ih2⟩ := ih (p v) hrank
      have hunf : ufFind (n + 1) p v =
          ((ufFind n p (p v)).1,
            fun x => if x = v then (ufFind n p (p v)).1 else (ufFind n p (p v)).2 x) := by
        simp [ufFind, hfix]
      have hroot : ufRoot p n (p v) = ufRoot p (n + 1) v := by simp [ufRoot, hfix]
      rw [hunf]
      constructor
      · exact ih1.trans hroot
      · intro x
        dsimp only
        by_cases hx : x = v
        · subst hx
          right
          exact ⟨by rw [if_pos rfl]; exact ih1.trans hroot, hfix, hv, rfl⟩
        · rw [if_neg hx]
          rcases ih2 x with h | ⟨hval, hnf, hrx, hrtx⟩
          · exact Or.inl h
          · right
            refine ⟨hval.trans hroot, hnf, by omega, ?_⟩
            calc ufRoot p (n + 1) x
                = ufRoot p n x := (ufRoot_stable hro n (n + 1) x hrx (by omega)).symm
              _ = ufRoot p n (p v) := hrtx
              _ = ufRoot p (n + 1) v := hroot

/-- Full specification of `ufFind` under the forest invariant: the root is
returned, root status, roots, ranks and counts are all preserved. -/
theorem ufFind_spec {G : Graph} {p : String → String} {rank : String → ℕ}
    (hro : RankOk p rank) (hout : ∀ v, v ∉ G.nodeIds → p v = v)
    (hcl : ∀ v ∈ G.nodeIds, p v ∈ G.nodeIds)
    {fuel : ℕ} (hbound : ∀ x, rank x ≤ fuel) (v : String) :
    (ufFind fuel p v).1 = ufRoot p fuel v ∧
    (∀ x, (ufFind fuel p v).2 x = x ↔ p x = x) ∧
    RankOk (ufFind fuel p v).2 rank ∧
    (∀ x, ufRoot (ufFind fuel p v).2 fuel x = ufRoot p fuel x) ∧
    (∀ x, x ∉ G.nodeIds → (ufFind fuel p v).2 x = x) ∧
    (∀ x, x ∈ G.nodeIds → (ufFind fuel p v).2 x ∈ G.nodeIds) ∧
    rootsCount G (ufFind fuel p v).2 = rootsCount G p ∧
    nonRootsCount G (ufFind fuel p v).2 = nonRootsCount G p := by
  obtain ⟨h1, h2⟩ := ufFind_char hro fuel v (hbound v)
  have hRfix : p (ufRoot p fuel v) = ufRoot p fuel v := ufRoot_fix hro fuel v (hbound v)
  have hRzero : rank (ufRoot p fuel v) = 0 := hro.1 _ hRfix
  have hb : ∀ x, (ufFind fuel p v).2 x = x ↔ p x = x := by
    intro x
    rcases h2 x with h | ⟨hval, hnf, _, _⟩
    · rw [h]
    · constructor
      · intro hqx
        exfalso
        have hRx : ufRoot p fuel v = x := hval.symm.trans hqx
        rw [hRx] at hRzero
        exact hnf (rankOk_root_of_zero hro hRzero)
      · intro hpx
        exact absurd hpx hnf
  have hc : RankOk (ufFind fuel p v).2 rank := by
    constructor
    · intro x hqx
      exact hro.1 x ((hb x).mp hqx)
    · intro x hqx
      rcases h2 x with h | ⟨hval, hnf, _, _⟩
      · rw [h]
        exact hro.2 x (fun hpx => hqx (h.trans hpx))
      · rw [hval, hRzero]
        exact rank_pos hro hnf
  have hd : ∀ x, ufRoot (ufFind fuel p v).2 fuel x = ufRoot p fuel x := by
    have aux : ∀ (k : ℕ) (x : String), rank x ≤ k →
        ufRoot (ufFind fuel p v).2 fuel x = ufRoot p fuel x := by
      intro k
      induction k with
      | zero =>
        intro x hx
        have hpx := rankOk_root_of_zero hro (Nat.le_zero.mp hx)
        rw [ufRoot_of_fix ((hb x).mpr hpx), ufRoot_of_fix hpx]
      | succ n ih =>
        intro x hx
        by_cases hqx : (ufFind fuel p v).2 x = x
        · rw [ufRoot_of_fix hqx, ufRoot_of_fix ((hb x).mp hqx)]
        · have hpx : p x ≠ x := fun h => hqx ((hb x).mpr h)
          have hstep_q := ufRoot_step hc hqx (hbound x)
          rcases h2 x with h | ⟨hval, _, _, hrtx⟩
          · rw [hstep_q, h, ih (p x) (by have := hro.2 x hpx; omega)]
            exact (ufRoot_step hro hpx (hbound x)).symm
          · rw [hstep_q, hval,
              ufRoot_of_fix ((hb (ufRoot p fuel v)).mpr hRfix)]
            exact hrtx.symm
    exact fun x => aux (rank x) x le_rfl
  refine ⟨h1, hb, hc, hd, ?_, ?_, ?_, ?_⟩
  · intro x hx
    exact (hb x).mpr (hout x hx)
  · intro x hx
    by_cases hvmem : v ∈ G.nodeIds
    · rcases h2 x with h | ⟨hval, _, _, _⟩
      · rw [h]; exact hcl x hx
      · rw [hval]; exact ufRoot_mem_nodes hcl fuel v hvmem
    · rw [show (ufFind fuel p v).2 = p by rw [ufFind_of_fix (hout v hvmem) fuel]]
      exact hcl x hx
  · unfold rootsCount
    rw [List.filter_congr (fun x _ => decide_eq_decide.mpr (hb x))]
  · unfold nonRootsCount
    rw [List.filter_congr (fun x _ => by rw [decide_eq_decide.mpr (hb x)])]

/-- Full specification of `ufUnion` under the forest invariant: the boolean
reports whether the two roots differed; a merge redirects the first root's
class onto the second root and loses exactly one root; a no-op preserves
everything. -/
theorem ufUnion_spec {G : Graph} {p : String → String} {rank : String → ℕ}
    (hnd : G.nodeIds.Nodup)
    (hro : RankOk p rank) (hout : ∀ v, v ∉ G.nodeIds → p v = v)
    (hcl : ∀ v ∈ G.nodeIds, p v ∈ G.nodeIds)
    (hbd : ∀ v, rank v ≤ nonRootsCount G p)
    {fuel : ℕ} (hfuel : G.nodeIds.length < fuel)
    {i j : String} (hi : i ∈ G.nodeIds) (hj : j ∈ G.nodeIds) :
    UFInv G (ufUnion fuel p i j).2 ∧
    ((ufUnion fuel p i j).1 = true ↔ ufRoot p fuel i ≠ ufRoot p fuel j) ∧
    ((ufUnion fuel p i j).1 = true →
      (∀ x, ufRoot (ufUnion fuel p i j).2 fuel x =
        if ufRoot p fuel x = ufRoot p fuel i then ufRoot p fuel j
        else ufRoot p fuel x) ∧
      rootsCount G (ufUnion fuel p i j).2 + 1 = rootsCount G p) ∧
    ((ufUnion fuel p i j).1 = false →
      (∀ x, ufRoot (ufUnion fuel p i j).2 fuel x = ufRoot p fuel x) ∧
      rootsCount G (ufUnion fuel p i j).2 = rootsCount G p) := by
  have hbound : ∀ x, rank x ≤ fuel := by
    intro x
    have h1 := hbd x
    have h2 := nonRootsCount_le G p
    omega
  obtain ⟨f1a, f1b, f1c, f1d, f1e, f1f, f1g, f1h⟩ := ufFind_spec hro hout hcl hbound i
  obtain ⟨f2a, f2b, f2c, f2d, f2e, f2f, f2g, f2h⟩ := ufFind_spec f1c f1e f1f hbound j
  have hd2 : ∀ x, ufRoot (ufFind fuel (ufFind fuel p i).2 j).2 fuel x = ufRoot p fuel x :=
    fun x => (f2d x).trans (f1d x)
  have hr2p : (ufFind fuel (ufFind fuel p i).2 j).1 = ufRoot p fuel j := f2a.trans (f1d j)
  have hR1fix : (ufFind fuel (ufFind fuel p i).2 j).2 (ufFind fuel p i).1 = (ufFind fuel p i).1 := by
    rw [f2b, f1b, f1a]
    exact ufRoot_fix hro fuel i (hbound i)
  have hR2fix : (ufFind fuel (ufFind fuel p i).2 j).2 (ufFind fuel (ufFind fuel p i).2 j).1 =
      (ufFind fuel (ufFind fuel p i).2 j).1 := by
    rw [f2b, f2a]
    exact ufRoot_fix f1c fuel j (hbound j)
  have hR1mem : (ufFind fuel p i).1 ∈ G.nodeIds := by
    rw [f1a]; exact ufRoot_mem_nodes hcl fuel i hi
  have hR2mem : (ufFind fuel (ufFind fuel p i).2 j).1 ∈ G.nodeIds := by
    rw [f2a]; exact ufRoot_mem_nodes f1f fuel j hj
  have hnonR : nonRootsCount G (ufFind fuel (ufFind fuel p i).2 j).2 = nonRootsCount G p :=
    f2h.trans f1h
  have hrtsC : rootsCount G (ufFind fuel (ufFind fuel p i).2 j).2 = rootsCount G p :=
    f2g.trans f1g
  by_cases hcond : (ufFind fuel p i).1 ≠ (ufFind fuel (ufFind fuel p i).2 j).1
  · have hres : ufUnion fuel p i j =
        (true, fun x => if x = (ufFind fuel p i).1 then (ufFind fuel (ufFind fuel p i).2 j).1
          else (ufFind fuel (ufFind fuel p i).2 j).2 x) := by
      simp only [ufUnion, if_pos hcond]
    rw [hres]
    set q2 := (ufFind fuel (ufFind fuel p i).2 j).2 with hq2def
    set R1 := (ufFind fuel p i).1 with hR1def
    set R2 := (ufFind fuel (ufFind fuel p i).2 j).1 with hR2def
    set p' : String → String := fun x => if x = R1 then R2 else q2 x with hpprimedef
    have hp'R1 : p' R1 = R2 := by rw [hpprimedef]; simp
    have hp'ne : ∀ x, x ≠ R1 → p' x = q2 x := by
      intro x hx; rw [hpprimedef]; simp [hx]
    have hp'R2 : p' R2 = R2 := by
      rw [hp'ne R2 (Ne.symm hcond), hR2fix]
    have hrkzR2 : rank R2 = 0 := f2c.1 _ hR2fix
    set rank' : String → ℕ := fun x => if ufRoot q2 fuel x = R1 then rank x + 1 else rank x
      with hrkprimedef
    have hrk'eq : ∀ x, rank' x = if ufRoot q2 fuel x = R1 then rank x + 1 else rank x := by
      intro x
      rw [hrkprimedef]
    have hro' : RankOk p' rank' := by
      constructor
      · intro x hx
        have hxR1 : x ≠ R1 := by
          intro h
          rw [h, hp'R1] at hx
          exact hcond hx.symm
        rw [hp'ne x hxR1] at hx
        rw [hrk'eq x, ufRoot_of_fix hx fuel, if_neg hxR1]
        exact f2c.1 x hx
      · intro x hx
        by_cases hxR1 : x = R1
        · subst hxR1
          have e1 : rank' R2 = rank R2 := by
            rw [hrk'eq R2, ufRoot_of_fix hR2fix fuel, if_neg (Ne.symm hcond)]
          have e2 : rank' R1 = rank R1 + 1 := by
            rw [hrk'eq R1, ufRoot_of_fix hR1fix fuel, if_pos rfl]
          rw [hp'R1, e1, e2, hrkzR2]
          omega
        · have hq2x : q2 x ≠ x := by rw [← hp'ne x hxR1]; exact hx
          have hdec := f2c.2 x hq2x
          have hclassEq : ufRoot q2 fuel (q2 x) = ufRoot q2 fuel x :=
            (ufRoot_step f2c hq2x (hbound x)).symm
          rw [hp'ne x hxR1, hrk'eq (q2 x), hrk'eq x, hclassEq]
          by_cases hcls : ufRoot q2 fuel x = R1
          · rw [if_pos hcls, if_pos hcls]; omega
          · rw [if_neg hcls, if_neg hcls]; omega
    have hbound' : ∀ x, rank' x ≤ fuel := by
      intro x
      have h1 := hbd x
      have h2 := nonRootsCount_le G p
      rw [hrk'eq x]
      by_cases hcls : ufRoot q2 fuel x = R1
      · rw [if_pos hcls]; omega
      · rw [if_neg hcls]; omega
    have hcount : rootsCount G q2 = rootsCount G p' + 1 := by
      apply length_filter_of_flip hnd hR1mem
      · intro x _ hx
        rw [decide_eq_decide, hp'ne x hx]
      · simp only [decide_eq_true_eq]
        exact hR1fix
      · rw [decide_eq_false_iff_not, hp'R1]
        exact fun h => hcond h.symm
    have hnoncount : nonRootsCount G p' = nonRootsCount G q2 + 1 := by
      apply length_filter_of_flip hnd hR1mem
      · intro x _ hx
        rw [hp'ne x hx]
      · rw [hp'R1]
        simp only [Bool.not_eq_true', decide_eq_false_iff_not]
        exact fun h => hcond h.symm
      · rw [hR1fix]
        simp
    have hinv' : UFInv G p' := by
      refine ⟨?_, ?_, rank', hro', ?_⟩
      · intro x hx
        have hxR1 : x ≠ R1 := fun h => hx (h ▸ hR1mem)
        rw [hp'ne x hxR1]
        exact f2e x hx
      · intro x hx
        by_cases hxR1 : x = R1
        · rw [hxR1, hp'R1]; exact hR2mem
        · rw [hp'ne x hxR1]; exact f2f x hx
      · intro v
        have h1 := hbd v
        rw [hnoncount, hnonR, hrk'eq v]
        by_cases hcls : ufRoot q2 fuel v = R1
        · rw [if_pos hcls]; omega
        · rw [if_neg hcls]; omega
    have hrootcase : ∀ x, q2 x = x →
        ufRoot p' fuel x = if ufRoot q2 fuel x = R1 then R2 else ufRoot q2 fuel x := by
      intro x hx
      by_cases hxR1 : x = R1
      · subst hxR1
        rw [ufRoot_of_fix hR1fix fuel, if_pos rfl]
        have hstep := ufRoot_step hro'
          (show p' R1 ≠ R1 by rw [hp'R1]; exact Ne.symm hcond) (hbound' R1)
        rw [hstep, hp'R1, ufRoot_of_fix hp'R2 fuel]
      · have hp'x : p' x = x := (hp'ne x hxR1).trans hx
        rw [ufRoot_of_fix hp'x fuel, ufRoot_of_fix hx fuel, if_neg hxR1]
    have haux : ∀ (k : ℕ) (x : String), rank x ≤ k →
        ufRoot p' fuel x = if ufRoot q2 fuel x = R1 then R2 else ufRoot q2 fuel x := by
      intro k
      induction k with
      | zero =>
        intro x hx
        exact hrootcase x (rankOk_root_of_zero f2c (Nat.le_zero.mp hx))
      | succ n ih =>
        intro x hx
        by_cases hq2x : q2 x = x
        · exact hrootcase x hq2x
        · have hxR1 : x ≠ R1 := by
            intro h
            apply hq2x
            rw [h]
            exact hR1fix
          have hp'x : p' x = q2 x := hp'ne x hxR1
          have hp'nex : p' x ≠ x := by rw [hp'x]; exact hq2x
          have hclassEq : ufRoot q2 fuel (q2 x) = ufRoot q2 fuel x :=
            (ufRoot_step f2c hq2x (hbound x)).symm
          rw [ufRoot_step hro' hp'nex (hbound' x), hp'x,
            ih (q2 x) (by have := f2c.2 x hq2x; omega), hclassEq]
    refine ⟨hinv', ⟨fun _ => by rw [← f1a, ← hr2p]; exact hcond, fun _ => rfl⟩, ?_, ?_⟩
    · intro _
      constructor
      · intro x
        show ufRoot p' fuel x = _
        rw [haux (rank x) x le_rfl, hd2 x, ← f1a, ← hr2p]
      · show rootsCount G p' + 1 = rootsCount G p
        omega
    · intro h
      exact absurd h (by simp)
  · have hres : ufUnion fuel p i j =
        (false, (ufFind fuel (ufFind fuel p i).2 j).2) := by
      simp only [ufUnion, if_neg hcond]
    rw [hres]
    have heq : ufRoot p fuel i = ufRoot p fuel j := by
      rw [← f1a, ← hr2p]
      exact not_ne_iff.mp hcond
    refine ⟨⟨f2e, f2f, rank, f2c, fun v => by rw [hnonR]; exact hbd v⟩, ?_, ?_, ?_⟩
    · constructor
      · intro h
        exact absurd h (by simp)
      · intro hne
        exact absurd heq hne
    · intro h
      exact absurd h (by simp)
    · intro _
      exact ⟨hd2, hrtsC⟩

/-! ## Lemmas: joining `Joined` with `ConnectedB` -/

theorem chainB_glue {G : Graph} {u : String} {zs : List String} :
    ∀ p : List String, p.getLast? = some u → chainB G p = true →
      chainB G (u :: zs) = true → chainB G (p ++ zs) = true := by
  intro p
  induction p with
  | nil => intro hl; cases hl
  | cons a rest ih =>
    intro hl hc hz
    cases rest with
    | nil =>
      rw [List.getLast?_singleton, Option.some_inj] at hl
      subst hl
      exact hz
    | cons b rest' =>
      rw [List.getLast?_cons_cons] at hl
      rw [chainB, Bool.and_eq_true] at hc
      have := ih hl hc.2 hz
      show chainB G (a :: b :: (rest' ++ zs)) = true
      rw [chainB, Bool.and_eq_true]
      exact ⟨hc.1, this⟩

theorem isWalk_glue {G : Graph} {x y z : String} {p q : List String}
    (hp : isWalkB G x y p = true) (hq : isWalkB G y z q = true) :
    isWalkB G x z (p ++ q.drop 1) = true := by
  rw [isWalkB, Bool.and_eq_true, Bool.and_eq_true] at hp hq
  simp only [decide_eq_true_eq] at hp hq
  obtain ⟨⟨hph, hpl⟩, hpc⟩ := hp
  obtain ⟨⟨hqh, hql⟩, hqc⟩ := hq
  cases q with
  | nil => cases hqh
  | cons b q' =>
    rw [List.head?_cons, Option.some_inj] at hqh
    subst hqh
    rw [isWalkB, Bool.and_eq_true, Bool.and_eq_true]
    simp only [decide_eq_true_eq, List.drop_one, List.tail_cons]
    refine ⟨⟨?_, ?_⟩, chainB_glue p hpl hpc hqc⟩
    · cases p with
      | nil => cases hph
      | cons a p' => simpa using hph
    · cases q' with
      | nil =>
        rw [List.getLast?_singleton, Option.some_inj] at hql
        subst hql
        simpa using hpl
      | cons c q'' =>
        rw [List.getLast?_cons_cons] at hql
        rw [List.getLast?_append_of_ne_nil p (by simp)]
        exact hql

theorem connected_trans {G : Graph} (hwf : G.Wf) {x y z : String}
    (h1 : ConnectedB G x y = true) (h2 : ConnectedB G y z = true) :
    ConnectedB G x z = true := by
  rw [connectedB_eq_true_iff] at h1 h2 ⊢
  obtain ⟨p, hp⟩ := List.exists_mem_of_ne_nil _ h1
  obtain ⟨q, hq⟩ := List.exists_mem_of_ne_nil _ h2
  have hpw : isWalkB G x y p = true := by
    have := mem_allPaths_sound hwf hp
    rw [isPathB, Bool.and_eq_true] at this
    exact this.1
  have hqw : isWalkB G y z q = true := by
    have := mem_allPaths_sound hwf hq
    rw [isPathB, Bool.and_eq_true] at this
    exact this.1
  obtain ⟨r, hr, _, _⟩ := walk_to_path hwf Dim.time _ x z (isWalk_glue hpw hqw)
  intro hnil
  have hmem := mem_allPaths_complete hwf hr
  rw [hnil] at hmem
  cases hmem

theorem hasEdge_symm (G : Graph) (u v : String) : G.hasEdge u v = G.hasEdge v u := by
  by_cases h : G.hasEdge u v = true
  · obtain ⟨w, hw⟩ := hasEdge_exists h
    rw [h, hasEdge_of_mem_edges hw.symm]
  · have h' : ¬G.hasEdge v u = true := fun hh => by
      obtain ⟨w, hw⟩ := hasEdge_exists hh
      exact h (hasEdge_of_mem_edges hw.symm)
    rw [Bool.not_eq_true] at h h'
    rw [h, h']

theorem connected_of_edge {G : Graph} (hwf : G.Wf) {a b : String}
    (h : G.hasEdge a b = true) : ConnectedB G a b = true := by
  have hne : a ≠ b := by
    obtain ⟨w, hw | hw⟩ := hasEdge_exists h
    · exact (hwf.2.1 _ hw).2.2.1
    · exact fun he => (hwf.2.1 _ hw).2.2.1 he.symm
  have hp : isPathB G a b [a, b] = true := by
    rw [isPathB, isWalkB, Bool.and_eq_true, Bool.and_eq_true, Bool.and_eq_true]
    refine ⟨⟨⟨by simp, by simp⟩, ?_⟩, by simp [hne]⟩
    rw [chainB, Bool.and_eq_true]
    exact ⟨h, rfl⟩
  rw [connectedB_eq_true_iff]
  intro hnil
  have hmem := mem_allPaths_complete hwf hp
  rw [hnil] at hmem
  cases hmem

theorem joined_to_connected {G : Graph} (hwf : G.Wf) {es : List (String × String)}
    (hcov : ∀ pr ∈ es, G.hasEdge pr.1 pr.2 = true) {x y : String}
    (h : Joined es x y) : ConnectedB G x y = true := by
  induction h with
  | refl => exact connectedB_self G x
  | @tail m w _ hstep ih =>
    refine connected_trans hwf ih ?_
    rcases hstep with hs | hs
    · exact connected_of_edge hwf (hcov _ hs)
    · exact connected_of_edge hwf (by rw [hasEdge_symm]; exact hcov _ hs)

theorem walk_to_joined {G : Graph} {es : List (String × String)}
    (hcov : ∀ a b, G.hasEdge a b = true → Joined es a b) :
    ∀ (p : List String) (x y : String), isWalkB G x y p = true → Joined es x y := by
  intro p
  induction p with
  | nil => intro x y hw; rw [isWalkB] at hw; simp at hw
  | cons a rest ih =>
    intro x y hw
    rw [isWalkB, Bool.and_eq_true, Bool.and_eq_true] at hw
    simp only [decide_eq_true_eq] at hw
    obtain ⟨⟨hh, hl⟩, hc⟩ := hw
    rw [List.head?_cons, Option.some_inj] at hh
    subst hh
    cases rest with
    | nil =>
      rw [List.getLast?_singleton, Option.some_inj] at hl
      subst hl
      exact joined_refl es a
    | cons b rest' =>
      rw [chainB, Bool.and_eq_true] at hc
      refine joined_trans (hcov a b hc.1) (ih b y ?_)
      rw [isWalkB, Bool.and_eq_true, Bool.and_eq_true]
      simp only [decide_eq_true_eq]
      exact ⟨⟨by simp, by rw [← hl, List.getLast?_cons_cons]⟩, hc.2⟩

theorem connected_to_joined {G : Graph} (hwf : G.Wf) {es : List (String × String)}
    (hcov : ∀ a b, G.hasEdge a b = true → Joined es a b) {x y : String}
    (h : ConnectedB G x y = true) : Joined es x y := by
  rw [connectedB_eq_true_iff] at h
  obtain ⟨p, hp⟩ := List.exists_mem_of_ne_nil _ h
  have hpw : isWalkB G x y p = true := by
    have := mem_allPaths_sound hwf hp
    rw [isPathB, Bool.and_eq_true] at this
    exact this.1
  exact walk_to_joined hcov p x y hpw

/-! ## Lemmas: the networkx edge enumeration and the stable sort -/

theorem insSorted_perm {α : Type} (le : α → α → Bool) (x : α) :
    ∀ l : List α, (insSorted le x l).Perm (x :: l) := by
  intro l
  induction l with
  | nil => exact List.Perm.refl _
  | cons y ys ih =>
    rw [insSorted]
    by_cases h : le x y = true
    · rw [if_pos h]
    · rw [if_neg h]
      exact (List.Perm.cons y ih).trans (List.Perm.swap x y ys)

theorem sortStable_perm {α : Type} (le : α → α → Bool) :
    ∀ l : List α, (sortStable le l).Perm l := by
  intro l
  induction l with
  | nil => exact List.Perm.refl _
  | cons x xs ih =>
    rw [sortStable]
    exact (insSorted_perm le x _).trans (List.Perm.cons x ih)

theorem nxEdges_go_mem {G : Graph} :
    ∀ (rem seen : List String) (e : String × String × ℚ × ℚ),
      e ∈ nxEdges.go G rem seen → (e.2.1, e.2.2) ∈ G.adj e.1 := by
  intro rem
  induction rem with
  | nil => intro seen e he; cases he
  | cons n rest ih =>
    intro seen e he
    rw [nxEdges.go, List.mem_append] at he
    rcases he with he | he
    · rw [List.mem_filterMap] at he
      obtain ⟨pr, hpr, hmk⟩ := he
      by_cases hs : pr.1 ∈ seen
      · rw [if_pos hs] at hmk; cases hmk
      · rw [if_neg hs, Option.some_inj] at hmk
        rw [← hmk]
        exact hpr
    · exact ih _ e he

theorem nxEdges_mem {G : Graph} {e : String × String × ℚ × ℚ} (he : e ∈ nxEdges G) :
    (e.2.1, e.2.2) ∈ G.adj e.1 :=
  nxEdges_go_mem _ _ e he

theorem nxEdges_go_covers {G : Graph} {a b : String} {d : ℚ × ℚ} (hne : a ≠ b)
    (hab : (b, d) ∈ G.adj a) (hba : (a, d) ∈ G.adj b) :
    ∀ (rem seen : List String), rem.Nodup → (∀ x ∈ rem, x ∉ seen) →
      a ∈ rem → b ∈ rem →
      (a, b, d) ∈ nxEdges.go G rem seen ∨ (b, a, d) ∈ nxEdges.go G rem seen := by
  intro rem
  induction rem with
  | nil => intro seen _ _ ha; cases ha
  | cons n rest ih =>
    intro seen hnd hdisj ha hb
    rw [nxEdges.go]
    by_cases hna : n = a
    · subst hna
      left
      rw [List.mem_append]
      left
      rw [List.mem_filterMap]
      refine ⟨(b, d), hab, ?_⟩
      have hbrest : b ∈ rest := by
        rw [List.mem_cons] at hb
        rcases hb with rfl | hb
        · exact absurd rfl hne
        · exact hb
      rw [if_neg (hdisj b (List.mem_cons_of_mem _ hbrest))]
    · by_cases hnb : n = b
      · subst hnb
        right
        rw [List.mem_append]
        left
        rw [List.mem_filterMap]
        refine ⟨(a, d), hba, ?_⟩
        have harest : a ∈ rest := by
          rw [List.mem_cons] at ha
          rcases ha with rfl | ha
          · exact absurd rfl hna
          · exact ha
        rw [if_neg (hdisj a (List.mem_cons_of_mem _ harest))]
      · have harest : a ∈ rest := by
          rw [List.mem_cons] at ha
          rcases ha with rfl | ha
          · exact absurd rfl (Ne.symm hna)
          · exact ha
        have hbrest : b ∈ rest := by
          rw [List.mem_cons] at hb
          rcases hb with rfl | hb
          · exact absurd rfl (Ne.symm hnb)
          · exact hb
        have hdisj' : ∀ x ∈ rest, x ∉ n :: seen := by
          intro x hx
          rw [List.mem_cons]
          rintro (rfl | hxs)
          · exact (List.nodup_cons.mp hnd).1 hx
          · exact hdisj x (List.mem_cons_of_mem _ hx) hxs
        rcases ih (n :: seen) (List.nodup_cons.mp hnd).2 hdisj' harest hbrest with h | h
        · left; rw [List.mem_append]; right; exact h
        · right; rw [List.mem_append]; right; exact h

theorem nxEdges_covers {G : Graph} (hwf : G.Wf) {e : String × String × ℚ × ℚ}
    (he : e ∈ G.edges) :
    (e.1, e.2.1, e.2.2) ∈ nxEdges G ∨ (e.2.1, e.1, e.2.2) ∈ nxEdges G := by
  obtain ⟨h1, h2, hne, _⟩ := hwf.2.1 e he
  exact nxEdges_go_covers hne (adj_of_mem_edges₁ he) (adj_of_mem_edges₂ he)
    G.nodeIds [] hwf.1 (by simp) h1 h2

theorem joined_append_singleton (es : List (String × String)) (a b x y : String) :
    Joined (es ++ [(a, b)]) x y ↔ Joined ((a, b) :: es) x y :=
  joined_congr (fun pr => by
    simp only [List.mem_append, List.mem_cons, List.not_mem_nil, or_false]
    tauto) x y

theorem joined_middle_cons (es fs : List (String × String)) (a b : String) (x y : String) :
    Joined (es ++ (a, b) :: fs) x y ↔ Joined ((a, b) :: (es ++ fs)) x y :=
  joined_congr (fun pr => by
    simp only [List.mem_append, List.mem_cons]
    tauto) x y

theorem merge_eq_iff {α : Type} {r1 r2 a b : α} [DecidableEq α] (hne : r1 ≠ r2) :
    ((if a = r1 then r2 else a) = (if b = r1 then r2 else b)) ↔
      (a = b ∨ (a = r1 ∧ r2 = b) ∨ (a = r2 ∧ r1 = b)) := by
  by_cases hx : a = r1
  · by_cases hy : b = r1
    · rw [if_pos hx, if_pos hy]
      constructor
      · intro _; exact Or.inl (hx.trans hy.symm)
      · intro _; rfl
    · rw [if_pos hx, if_neg hy]
      constructor
      · intro h; exact Or.inr (Or.inl ⟨hx, h⟩)
      · rintro (h | ⟨_, h⟩ | ⟨h1, _⟩)
        · exact absurd (h ▸ hx) hy
        · exact h
        · exact absurd (h1.symm.trans hx).symm hne
  · by_cases hy : b = r1
    · rw [if_neg hx, if_pos hy]
      constructor
      · intro h; exact Or.inr (Or.inr ⟨h, hy.symm⟩)
      · rintro (h | ⟨h1, _⟩ | ⟨h1, _⟩)
        · exact absurd (h.trans hy) hx
        · exact absurd h1 hx
        · exact h1
    · rw [if_neg hx, if_neg hy]
      constructor
      · intro h; exact Or.inl h
      · rintro (h | ⟨h1, _⟩ | ⟨_, h2⟩)
        · exact h
        · exact absurd h1 hx
        · exact absurd h2.symm hy

/-- Master invariant of the Kruskal loop: every emitted step is an `add` of
a processed edge joining two previously separate classes, the step pairs
generate the same connectivity as the processed edges, and each step costs
exactly one root. -/
theorem kruskalLoop_spec {G : Graph} (hwf : G.Wf) {fuel : ℕ}
    (hfuel : G.nodeIds.length < fuel) :
    ∀ (edges : List (String × String × ℚ)) (p : String → String)
      (sofar : List (String × String)),
      UFInv G p →
      (∀ e ∈ edges, e.1 ∈ G.nodeIds ∧ e.2.1 ∈ G.nodeIds) →
      (∀ u v, u ∈ G.nodeIds → v ∈ G.nodeIds →
        (ufRoot p fuel u = ufRoot p fuel v ↔ Joined sofar u v)) →
      (∀ st ∈ kruskalLoop fuel edges p, st.action = "add" ∧
        (st.u, st.v, st.weight) ∈ edges) ∧
      Fresh sofar (kruskalLoop fuel edges p) ∧
      ∃ q, UFInv G q ∧
        (∀ u v, u ∈ G.nodeIds → v ∈ G.nodeIds →
          (ufRoot q fuel u = ufRoot q fuel v ↔
            Joined (sofar ++ stepPairs (kruskalLoop fuel edges p)) u v)) ∧
        rootsCount G q + (kruskalLoop fuel edges p).length = rootsCount G p ∧
        (∀ x y, x ∈ G.nodeIds → y ∈ G.nodeIds →
          (Joined (sofar ++ stepPairs (kruskalLoop fuel edges p)) x y ↔
            Joined (sofar ++ edges.map (fun e => (e.1, e.2.1))) x y)) := by
  intro edges
  induction edges with
  | nil =>
    intro p sofar hinv _ hI2
    refine ⟨fun st hst => absurd hst (List.not_mem_nil st), trivial,
      p, hinv, ?_, by simp [kruskalLoop], ?_⟩
    · intro u v hu hv
      simpa [kruskalLoop, stepPairs] using hI2 u v hu hv
    · intro x y _ _
      simp [kruskalLoop, stepPairs]
  | cons e rest ih =>
    obtain ⟨u, v, w⟩ := e
    intro p sofar hinv hedges hI2
    have hu : u ∈ G.nodeIds := (hedges (u, v, w) (List.mem_cons_self _ _)).1
    have hv : v ∈ G.nodeIds := (hedges (u, v, w) (List.mem_cons_self _ _)).2
    obtain ⟨hout, hcl, rank, hro, hbd⟩ := hinv
    obtain ⟨hinv2, hiff, htrue, hfalse⟩ :=
      ufUnion_spec hwf.1 hro hout hcl hbd hfuel hu hv
    have hedges' : ∀ e ∈ rest, e.1 ∈ G.nodeIds ∧ e.2.1 ∈ G.nodeIds :=
      fun e he => hedges e (List.mem_cons_of_mem _ he)
    by_cases hb : (ufUnion fuel p u v).1 = true
    · have hloopeq : kruskalLoop fuel ((u, v, w) :: rest) p =
          ⟨u, v, w, "add"⟩ :: kruskalLoop fuel rest (ufUnion fuel p u v).2 := by
        simp only [kruskalLoop, hb, if_true]
      have hne := hiff.mp hb
      have hnotJ : ¬Joined sofar u v := fun hJ => hne ((hI2 u v hu hv).mpr hJ)
      obtain ⟨hmerge, hcount⟩ := htrue hb
      have hI2' : ∀ x y, x ∈ G.nodeIds → y ∈ G.nodeIds →
          (ufRoot (ufUnion fuel p u v).2 fuel x = ufRoot (ufUnion fuel p u v).2 fuel y ↔
            Joined (sofar ++ [(u, v)]) x y) := by
        intro x y hx hy
        have e1 := hI2 x y hx hy
        have e2 := hI2 x u hx hu
        have e3 := hI2 v y hv hy
        have e4 := hI2 x v hx hv
        have e5 := hI2 u y hu hy
        rw [hmerge x, hmerge y, merge_eq_iff hne, joined_append_singleton, joined_cons_iff,
          ← e1, ← e2, ← e3, ← e4, ← e5]
      obtain ⟨ihA, ihF, q, ihInv, ihI2, ihCount, ihC⟩ :=
        ih (ufUnion fuel p u v).2 (sofar ++ [(u, v)]) hinv2 hedges' hI2'
      rw [hloopeq]
      refine ⟨?_, ⟨hnotJ, ihF⟩, q, ihInv, ?_, ?_, ?_⟩
      · intro st hst
        rw [List.mem_cons] at hst
        rcases hst with rfl | hst
        · exact ⟨rfl, List.mem_cons_self _ _⟩
        · obtain ⟨ha, hm⟩ := ihA st hst
          exact ⟨ha, List.mem_cons_of_mem _ hm⟩
      · intro x y hx hy
        have hres := ihI2 x y hx hy
        rw [List.append_assoc] at hres
        exact hres
      · rw [List.length_cons]
        omega
      · intro x y hx hy
        have hres := ihC x y hx hy
        rw [List.append_assoc, List.append_assoc] at hres
        exact hres
    · rw [Bool.not_eq_true] at hb
      have hloopeq : kruskalLoop fuel ((u, v, w) :: rest) p =
          kruskalLoop fuel rest (ufUnion fuel p u v).2 := by
        simp only [kruskalLoop, hb, Bool.false_eq_true, if_false]
      obtain ⟨hpres, hcnt⟩ := hfalse hb
      have heqroot : ufRoot p fuel u = ufRoot p fuel v := by
        by_contra hne
        exact Bool.noConfusion ((hiff.mpr hne).symm.trans hb)
      have hJuv : Joined sofar u v := (hI2 u v hu hv).mp heqroot
      have hI2' : ∀ x y, x ∈ G.nodeIds → y ∈ G.nodeIds →
          (ufRoot (ufUnion fuel p u v).2 fuel x = ufRoot (ufUnion fuel p u v).2 fuel y ↔
            Joined sofar x y) := by
        intro x y hx hy
        rw [hpres x, hpres y]
        exact hI2 x y hx hy
      obtain ⟨ihA, ihF, q, ihInv, ihI2, ihCount, ihC⟩ :=
        ih (ufUnion fuel p u v).2 sofar hinv2 hedges' hI2'
      rw [hloopeq]
      refine ⟨?_, ihF, q, ihInv, ihI2, by omega, ?_⟩
      · intro st hst
        obtain ⟨ha, hm⟩ := ihA st hst
        exact ⟨ha, List.mem_cons_of_mem _ hm⟩
      · intro x y hx hy
        have h1 := ihC x y hx hy
        rw [List.map_cons, h1, joined_middle_cons,
          joined_cons_redundant (joined_mono (fun pr hpr => List.mem_append_left _ hpr) hJuv)]

/-- The full correctness package of the Kruskal branch of `get_mst_steps`:
every step is a graph edge marked `add` with the selected weight, no step
closes a cycle, the steps generate exactly the graph's connectivity on the
node set, and on a disconnected graph fewer than `n - 1` steps are emitted. -/
theorem kruskal_props {G : Graph} (hwf : G.Wf) (wk : Dim) :
    (∀ st ∈ get_mst_steps G "kruskal" wk, st.action = "add" ∧
      ∃ data, ((st.u, st.v, data) ∈ G.edges ∨ (st.v, st.u, data) ∈ G.edges) ∧
        st.weight = wk.sel data) ∧
    Fresh [] (get_mst_steps G "kruskal" wk) ∧
    (∀ u v, u ∈ G.nodeIds → v ∈ G.nodeIds →
      (Joined (stepPairs (get_mst_steps G "kruskal" wk)) u v ↔ ConnectedB G u v = true)) ∧
    (∀ u v, u ∈ G.nodeIds → v ∈ G.nodeIds → ConnectedB G u v = false →
      (get_mst_steps G "kruskal" wk).length < G.nodeIds.length - 1) := by
  have hunf : get_mst_steps G "kruskal" wk =
      kruskalLoop (G.nodes.length + 1)
        (sortStable (fun a b => a.2.2 ≤ b.2.2)
          ((nxEdges G).map (fun e => (e.1, e.2.1, wk.sel e.2.2)))) id := by
    unfold get_mst_steps
    rw [if_pos rfl]
  have hlen : G.nodeIds.length = G.nodes.length := by
    rw [Graph.nodeIds, List.length_map]
  have hfuel : G.nodeIds.length < G.nodes.length + 1 := by omega
  have hSmem : ∀ e ∈ sortStable (fun a b => a.2.2 ≤ b.2.2)
      ((nxEdges G).map (fun e => (e.1, e.2.1, wk.sel e.2.2))),
      ∃ o ∈ nxEdges G, e = (o.1, o.2.1, wk.sel o.2.2) := by
    intro e he
    have := (sortStable_perm _ _).mem_iff.mp he
    rw [List.mem_map] at this
    obtain ⟨o, ho, heq⟩ := this
    exact ⟨o, ho, heq.symm⟩
  have hSvalid : ∀ e ∈ sortStable (fun a b => a.2.2 ≤ b.2.2)
      ((nxEdges G).map (fun e => (e.1, e.2.1, wk.sel e.2.2))),
      ∃ data, ((e.1, e.2.1, data) ∈ G.edges ∨ (e.2.1, e.1, data) ∈ G.edges) ∧
        e.2.2 = wk.sel data := by
    intro e he
    obtain ⟨o, ho, rfl⟩ := hSmem e he
    exact ⟨o.2.2, adj_mem_edges (nxEdges_mem ho), rfl⟩
  have hSnodes : ∀ e ∈ sortStable (fun a b => a.2.2 ≤ b.2.2)
      ((nxEdges G).map (fun e => (e.1, e.2.1, wk.sel e.2.2))),
      e.1 ∈ G.nodeIds ∧ e.2.1 ∈ G.nodeIds := by
    intro e he
    obtain ⟨data, hd, _⟩ := hSvalid e he
    rcases hd with hd | hd
    · exact ⟨(hwf.2.1 _ hd).1, (hwf.2.1 _ hd).2.1⟩
    · exact ⟨(hwf.2.1 _ hd).2.1, (hwf.2.1 _ hd).1⟩
  have hidinv : UFInv G id := by
    refine ⟨fun v _ => rfl, fun v hv => hv, fun _ => 0, ⟨fun _ _ => rfl, ?_⟩,
      fun v => Nat.zero_le _⟩
    intro v hv
    exact absurd rfl hv
  have hid : ∀ (f : ℕ) (z : String), ufRoot id f z = z := fun f z => ufRoot_of_fix rfl f
  have hI2id : ∀ u v, u ∈ G.nodeIds → v ∈ G.nodeIds →
      (ufRoot id (G.nodes.length + 1) u = ufRoot id (G.nodes.length + 1) v ↔
        Joined ([] : List (String × String)) u v) := by
    intro u v _ _
    rw [hid, hid, joined_nil]
  obtain ⟨hA, hF, q, hqInv, hqI2, hqCount, hC⟩ :=
    kruskalLoop_spec hwf hfuel
      (sortStable (fun a b => a.2.2 ≤ b.2.2)
        ((nxEdges G).map (fun e => (e.1, e.2.1, wk.sel e.2.2)))) id []
      hidinv hSnodes hI2id
  rw [hunf]
  have hstepedge : ∀ pr ∈ stepPairs (kruskalLoop (G.nodes.length + 1)
      (sortStable (fun a b => a.2.2 ≤ b.2.2)
        ((nxEdges G).map (fun e => (e.1, e.2.1, wk.sel e.2.2)))) id),
      G.hasEdge pr.1 pr.2 = true := by
    intro pr hpr
    rw [stepPairs, List.mem_map] at hpr
    obtain ⟨st, hst, rfl⟩ := hpr
    obtain ⟨data, hd, _⟩ := hSvalid _ (hA st hst).2
    exact hasEdge_of_mem_edges hd
  have hspan : ∀ u v, u ∈ G.nodeIds → v ∈ G.nodeIds →
      (Joined (stepPairs (kruskalLoop (G.nodes.length + 1)
        (sortStable (fun a b => a.2.2 ≤ b.2.2)
          ((nxEdges G).map (fun e => (e.1, e.2.1, wk.sel e.2.2)))) id)) u v ↔
        ConnectedB G u v = true) := by
    intro u v hu hv
    constructor
    · exact joined_to_connected hwf hstepedge
    · intro hconn
      refine (hC u v hu hv).mpr ?_
      refine connected_to_joined hwf ?_ hconn
      intro a b hab
      obtain ⟨w', hw⟩ := hasEdge_exists hab
      have hpair : ∀ (o : String × String × ℚ × ℚ), o ∈ nxEdges G →
          (o.1, o.2.1) ∈ ([] : List (String × String)) ++
            (sortStable (fun a b => a.2.2 ≤ b.2.2)
              ((nxEdges G).map (fun e => (e.1, e.2.1, wk.sel e.2.2)))).map
                (fun e => (e.1, e.2.1)) := by
        intro o ho
        rw [List.nil_append, List.mem_map]
        refine ⟨(o.1, o.2.1, wk.sel o.2.2), ?_, rfl⟩
        rw [(sortStable_perm _ _).mem_iff, List.mem_map]
        exact ⟨o, ho, rfl⟩
      rcases hw with hw | hw
      · rcases nxEdges_covers hwf hw with hcov | hcov
        · exact joined_single (hpair _ hcov)
        · exact joined_single' (hpair _ hcov)
      · rcases nxEdges_covers hwf hw with hcov | hcov
        · exact joined_single' (hpair _ hcov)
        · exact joined_single (hpair _ hcov)
  refine ⟨?_, hF, hspan, ?_⟩
  · intro st hst
    obtain ⟨hact, hmem⟩ := hA st hst
    obtain ⟨data, hd, hwd⟩ := hSvalid _ hmem
    exact ⟨hact, data, hd, hwd⟩
  · intro u v hu hv hnc
    have hne : u ≠ v := by
      rintro rfl
      rw [connectedB_self] at hnc
      cases hnc
    obtain ⟨hqout, hqcl, rankq, hqro, hqbd⟩ := hqInv
    have hqbound : ∀ x, rankq x ≤ G.nodes.length + 1 := by
      intro x
      have h1 := hqbd x
      have h2 := nonRootsCount_le G q
      omega
    have hrne : ufRoot q (G.nodes.length + 1) u ≠ ufRoot q (G.nodes.length + 1) v := by
      intro heq
      have hJ := (hqI2 u v hu hv).mp heq
      rw [List.nil_append] at hJ
      have := joined_to_connected hwf hstepedge hJ
      rw [hnc] at this
      cases this
    have hrumem := ufRoot_mem_nodes hqcl (G.nodes.length + 1) u hu
    have hrvmem := ufRoot_mem_nodes hqcl (G.nodes.length + 1) v hv
    have hrufix := ufRoot_fix hqro (G.nodes.length + 1) u (hqbound u)
    have hrvfix := ufRoot_fix hqro (G.nodes.length + 1) v (hqbound v)
    have hcount2 : 2 ≤ rootsCount G q := by
      refine two_mem_le_length (x := ufRoot q (G.nodes.length + 1) u)
        (y := ufRoot q (G.nodes.length + 1) v) ?_ ?_ hrne
      · exact List.mem_filter.mpr ⟨hrumem, by simpa using hrufix⟩
      · exact List.mem_filter.mpr ⟨hrvmem, by simpa using hrvfix⟩
    have hn2 : 2 ≤ G.nodeIds.length := two_mem_le_length hu hv hne
    rw [rootsCount_id] at hqCount
    omega

/-! ## Lemmas: the Prim loop -/

theorem popMinP_none : ∀ {l : List (ℚ × String × String)}, popMinP l = none → l = [] := by
  intro l
  cases l with
  | nil => intro _; rfl
  | cons e rest =>
    intro h
    rw [popMinP] at h
    cases hrest : popMinP rest with
    | none => rw [hrest] at h; cases h
    | some pr =>
      rw [hrest] at h
      dsimp at h
      by_cases hlt : pLt pr.1 e = true
      · rw [if_pos hlt] at h; cases h
      · rw [if_neg hlt] at h; cases h

theorem popMinP_perm : ∀ {l : List (ℚ × String × String)} {m rest},
    popMinP l = some (m, rest) → l.Perm (m :: rest) := by
  intro l
  induction l with
  | nil => intro m rest h; cases h
  | cons e tail ih =>
    intro m rest h
    rw [popMinP] at h
    cases htail : popMinP tail with
    | none =>
      rw [htail] at h
      rw [Option.some_inj, Prod.mk.injEq] at h
      obtain ⟨rfl, rfl⟩ := h
      rw [popMinP_none htail]
    | some pr =>
      obtain ⟨m0, rest0⟩ := pr
      rw [htail] at h
      dsimp at h
      by_cases hlt : pLt m0 e = true
      · rw [if_pos hlt, Option.some_inj, Prod.mk.injEq] at h
        obtain ⟨rfl, rfl⟩ := h
        exact ((ih htail).cons e).trans (List.Perm.swap m0 e rest0)
      · rw [if_neg hlt, Option.some_inj, Prod.mk.injEq] at h
        obtain ⟨rfl, rfl⟩ := h
        exact List.Perm.refl _

theorem sum_filter_remove (f : String → ℕ) {v : String} :
    ∀ (l : List String) (vis : List String), l.Nodup → v ∈ l → v ∉ vis →
      ((l.filter (fun x => !decide (x ∈ vis))).map f).sum =
        f v + ((l.filter (fun x => !decide (x ∈ v :: vis))).map f).sum := by
  intro l
  induction l with
  | nil => intro vis _ hv; cases hv
  | cons a restl ih =>
    intro vis hnd hv hvv
    rw [List.mem_cons] at hv
    rcases hv with rfl | hv
    · have hkeep : (!decide (v ∈ vis)) = true := by simpa using hvv
      have hdrop : (!decide (v ∈ v :: vis)) = false := by simp
      rw [List.filter_cons, hkeep, List.filter_cons, hdrop]
      have hfc : restl.filter (fun x => !decide (x ∈ vis)) =
          restl.filter (fun x => !decide (x ∈ v :: vis)) := by
        apply List.filter_congr
        intro x hx
        have hxv : x ≠ v := fun hxv => (List.nodup_cons.mp hnd).1 (hxv ▸ hx)
        simp [List.mem_cons, hxv]
      rw [hfc]
      simp
    · have hav : a ≠ v := fun hav => (List.nodup_cons.mp hnd).1 (hav ▸ hv)
      by_cases hmem : a ∈ vis
      · have h1 : (a :: restl).filter (fun x => !decide (x ∈ vis)) =
            restl.filter (fun x => !decide (x ∈ vis)) := by
          simp [List.filter_cons, hmem]
        have h2 : (a :: restl).filter (fun x => !decide (x ∈ v :: vis)) =
            restl.filter (fun x => !decide (x ∈ v :: vis)) := by
          simp [List.filter_cons, List.mem_cons, hmem]
        rw [h1, h2]
        exact ih vis (List.nodup_cons.mp hnd).2 hv hvv
      · have h1 : (a :: restl).filter (fun x => !decide (x ∈ vis)) =
            a :: restl.filter (fun x => !decide (x ∈ vis)) := by
          simp [List.filter_cons, hmem]
        have h2 : (a :: restl).filter (fun x => !decide (x ∈ v :: vis)) =
            a :: restl.filter (fun x => !decide (x ∈ v :: vis)) := by
          simp [List.filter_cons, List.mem_cons, hmem, hav]
        rw [h1, h2]
        simp only [List.map_cons, List.sum_cons]
        rw [ih vis (List.nodup_cons.mp hnd).2 hv hvv]
        omega

theorem prim_join_extend {sofar : List (String × String)} {visited : List String}
    {u v : String}
    (hQ3 : ∀ x y, Joined sofar x y ↔ (x = y ∨ (x ∈ visited ∧ y ∈ visited)))
    (hu : u ∈ visited) (hv : v ∉ visited) :
    ∀ x y, Joined (sofar ++ [(u, v)]) x y ↔
      (x = y ∨ (x ∈ v :: visited ∧ y ∈ v :: visited)) := by
  intro x y
  rw [joined_append_singleton, joined_cons_iff, hQ3 x y, hQ3 x u, hQ3 v y, hQ3 x v, hQ3 u y]
  simp only [List.mem_cons]
  constructor
  · rintro ((h | ⟨h1, h2⟩) | ⟨hxu, hvy⟩ | ⟨hxv, huy⟩)
    · exact Or.inl h
    · exact Or.inr ⟨Or.inr h1, Or.inr h2⟩
    · have hx : x ∈ visited := by
        rcases hxu with rfl | ⟨h1, _⟩
        · exact hu
        · exact h1
      rcases hvy with rfl | ⟨hvmem, _⟩
      · exact Or.inr ⟨Or.inr hx, Or.inl rfl⟩
      · exact absurd hvmem hv
    · have hy : y ∈ visited := by
        rcases huy with rfl | ⟨_, h2⟩
        · exact hu
        · exact h2
      rcases hxv with rfl | ⟨_, hvmem⟩
      · exact Or.inr ⟨Or.inl rfl, Or.inr hy⟩
      · exact absurd hvmem hv
  · rintro (h | ⟨h1, h2⟩)
    · exact Or.inl (Or.inl h)
    · rcases h1 with rfl | h1
      · rcases h2 with rfl | h2
        · exact Or.inl (Or.inl rfl)
        · exact Or.inr (Or.inr ⟨Or.inl rfl, Or.inr ⟨hu, h2⟩⟩)
      · rcases h2 with rfl | h2
        · exact Or.inr (Or.inl ⟨Or.inr ⟨h1, hu⟩, Or.inl rfl⟩)
        · exact Or.inl (Or.inr ⟨h1, h2⟩)

theorem walk_nodes_closed {G : Graph} {visited : List String}
    (hclosed : ∀ z ∈ visited, ∀ pr ∈ G.adj z, pr.1 ∈ visited) :
    ∀ (p : List String) (s : String), chainB G p = true → p.head? = some s →
      s ∈ visited → ∀ x ∈ p, x ∈ visited := by
  intro p
  induction p with
  | nil => intro s _ hh; cases hh
  | cons a rest ih =>
    intro s hchain hhead hs x hx
    rw [List.head?_cons, Option.some_inj] at hhead
    subst hhead
    rw [List.mem_cons] at hx
    rcases hx with rfl | hx
    · exact hs
    · cases rest with
      | nil => cases hx
      | cons b rest' =>
        rw [chainB, Bool.and_eq_true] at hchain
        obtain ⟨wb, hwb⟩ := adj_of_hasEdge hchain.1
        have hb : b ∈ visited := hclosed a hs (b, wb) hwb
        exact ih b hchain.2 (by simp) hb x hx

theorem closed_component {G : Graph} (hwf : G.Wf) {visited : List String} {start x : String}
    (hstart : start ∈ visited)
    (hclosed : ∀ z ∈ visited, ∀ pr ∈ G.adj z, pr.1 ∈ visited)
    (hconn : ConnectedB G start x = true) : x ∈ visited := by
  rw [connectedB_eq_true_iff] at hconn
  obtain ⟨p, hp⟩ := List.exists_mem_of_ne_nil _ hconn
  have hpath := mem_allPaths_sound hwf hp
  rw [isPathB, isWalkB, Bool.and_eq_true, Bool.and_eq_true, Bool.and_eq_true] at hpath
  simp only [decide_eq_true_eq] at hpath
  obtain ⟨⟨⟨hh, hl⟩, hc⟩, _⟩ := hpath
  exact walk_nodes_closed hclosed p start hc hh hstart x (List.mem_of_mem_getLast? hl)

theorem connected_target_mem {G : Graph} (hwf : G.Wf) {start x : String}
    (hstart : start ∈ G.nodeIds) (hconn : ConnectedB G start x = true) :
    x ∈ G.nodeIds := by
  rw [connectedB_eq_true_iff] at hconn
  obtain ⟨p, hp⟩ := List.exists_mem_of_ne_nil _ hconn
  have hpath := mem_allPaths_sound hwf hp
  rw [isPathB, isWalkB, Bool.and_eq_true, Bool.and_eq_true, Bool.and_eq_true] at hpath
  simp only [decide_eq_true_eq] at hpath
  obtain ⟨⟨⟨hh, hl⟩, hc⟩, _⟩ := hpath
  exact walk_nodes_mem hwf p start hc hh hstart x (List.mem_of_mem_getLast? hl)

/-- Master invariant of the Prim loop: every emitted step is an `add` of a
graph edge with the selected weight attaching a fresh node to the visited
set; on termination the visited set is exactly the start component and the
steps form a spanning tree of it. -/
theorem primLoop_spec {G : Graph} (hwf : G.Wf) (wk : Dim) {start : String} :
    ∀ (fuel : ℕ) (cand : List (ℚ × String × String)) (visited : List String)
      (sofar : List (String × String)),
      primMeasure G cand visited < fuel →
      visited.Nodup →
      (∀ x ∈ visited, x ∈ G.nodeIds) →
      start ∈ visited →
      (∀ x ∈ visited, ConnectedB G start x = true) →
      (∀ c ∈ cand, c.2.1 ∈ visited ∧
        ∃ data, (c.2.2, data) ∈ G.adj c.2.1 ∧ c.1 = wk.sel data) →
      (∀ z ∈ visited, ∀ pr ∈ G.adj z, pr.1 ∉ visited → ∃ c ∈ cand, c.2.2 = pr.1) →
      (∀ x y, Joined sofar x y ↔ (x = y ∨ (x ∈ visited ∧ y ∈ visited))) →
      sofar.length + 1 = visited.length →
      (∀ st ∈ primLoop G wk fuel cand visited, st.action = "add" ∧
        ∃ data, ((st.u, st.v, data) ∈ G.edges ∨ (st.v, st.u, data) ∈ G.edges) ∧
          st.weight = wk.sel data) ∧
      Fresh sofar (primLoop G wk fuel cand visited) ∧
      ∃ visitedF : List String,
        visitedF.Nodup ∧
        (∀ x ∈ visitedF, x ∈ G.nodeIds) ∧
        (∀ x ∈ visitedF, ConnectedB G start x = true) ∧
        (∀ x ∈ G.nodeIds, ConnectedB G start x = true → x ∈ visitedF) ∧
        (∀ x y, Joined (sofar ++ stepPairs (primLoop G wk fuel cand visited)) x y ↔
          (x = y ∨ (x ∈ visitedF ∧ y ∈ visitedF))) ∧
        sofar.length + (primLoop G wk fuel cand visited).length + 1 = visitedF.length := by
  intro fuel
  induction fuel with
  | zero => intro cand visited sofar hmeas; exact absurd hmeas (Nat.not_lt_zero _)
  | succ n ih =>
    intro cand visited sofar hmeas hnd hsub hstart hconn hQ5 hQ6 hQ3 hQ4
    cases hpop : popMinP cand with
    | none =>
      have hcand : cand = [] := popMinP_none hpop
      have hloopeq : primLoop G wk (n + 1) cand visited = [] := by
        simp only [primLoop, hpop]
      rw [hloopeq]
      have hclosed : ∀ z ∈ visited, ∀ pr ∈ G.adj z, pr.1 ∈ visited := by
        intro z hz pr hpr
        by_contra hnot
        obtain ⟨c, hc, _⟩ := hQ6 z hz pr hpr hnot
        rw [hcand] at hc
        cases hc
      refine ⟨fun st hst => absurd hst (List.not_mem_nil st), trivial,
        visited, hnd, hsub, hconn, ?_, ?_, ?_⟩
      · intro x _ hx
        exact closed_component hwf hstart hclosed hx
      · intro x y
        rw [stepPairs, List.map_nil, List.append_nil]
        exact hQ3 x y
      · simpa using hQ4
    | some popped =>
      obtain ⟨⟨w, u, v⟩, rest⟩ := popped
      have hperm := popMinP_perm hpop
      have hlencand : cand.length = rest.length + 1 := by
        rw [hperm.length_eq, List.length_cons]
      have hpopmem : (w, u, v) ∈ cand := hperm.mem_iff.mpr (List.mem_cons_self _ _)
      have humem : u ∈ visited := (hQ5 (w, u, v) hpopmem).1
      have hdata' : ∃ data, (v, data) ∈ G.adj u ∧ w = wk.sel data :=
        (hQ5 (w, u, v) hpopmem).2
      obtain ⟨data, hdata, hwdata⟩ := hdata'
      by_cases hvv : v ∈ visited
      · have hloopeq : primLoop G wk (n + 1) cand visited =
            primLoop G wk n rest visited := by
          simp only [primLoop, hpop, if_pos hvv]
        have hmeas' : primMeasure G rest visited < n := by
          rw [primMeasure] at hmeas ⊢
          omega
        have hQ5' : ∀ c ∈ rest, c.2.1 ∈ visited ∧
            ∃ data, (c.2.2, data) ∈ G.adj c.2.1 ∧ c.1 = wk.sel data :=
          fun c hc => hQ5 c (hperm.mem_iff.mpr (List.mem_cons_of_mem _ hc))
        have hQ6' : ∀ z ∈ visited, ∀ pr ∈ G.adj z, pr.1 ∉ visited →
            ∃ c ∈ rest, c.2.2 = pr.1 := by
          intro z hz pr hpr hnot
          obtain ⟨c, hc, hceq⟩ := hQ6 z hz pr hpr hnot
          have hcm := hperm.mem_iff.mp hc
          rw [List.mem_cons] at hcm
          rcases hcm with rfl | hcm
          · exact absurd (hceq ▸ hvv) hnot
          · exact ⟨c, hcm, hceq⟩
        rw [hloopeq]
        exact ih rest visited sofar hmeas' hnd hsub hstart hconn hQ5' hQ6' hQ3 hQ4
      · have hvnode : v ∈ G.nodeIds := adj_mem_nodes hwf hdata
        have hvconn : ConnectedB G start v = true :=
          connected_trans hwf (hconn u humem) (connected_of_edge hwf (hasEdge_of_adj hdata))
        have hloopeq : primLoop G wk (n + 1) cand visited =
            ⟨u, v, w, "add"⟩ :: primLoop G wk n
              (rest ++ (G.adj v).filterMap (fun pr =>
                if pr.1 ∈ v :: visited then none else some (wk.sel pr.2, v, pr.1)))
              (v :: visited) := by
          simp only [primLoop, hpop, if_neg hvv]
        have hpushchar : ∀ c ∈ (G.adj v).filterMap (fun pr =>
            if pr.1 ∈ v :: visited then none else some (wk.sel pr.2, v, pr.1)),
            ∃ pr ∈ G.adj v, pr.1 ∉ v :: visited ∧ c = (wk.sel pr.2, v, pr.1) := by
          intro c hc
          rw [List.mem_filterMap] at hc
          obtain ⟨pr, hpr, hmk⟩ := hc
          by_cases hmem : pr.1 ∈ v :: visited
          · rw [if_pos hmem] at hmk; cases hmk
          · rw [if_neg hmem, Option.some_inj] at hmk
            exact ⟨pr, hpr, hmem, hmk.symm⟩
        have hsum : ((G.nodeIds.filter (fun x => !decide (x ∈ visited))).map
            (fun x => (G.adj x).length)).sum =
            (G.adj v).length +
              ((G.nodeIds.filter (fun x => !decide (x ∈ v :: visited))).map
                (fun x => (G.adj x).length)).sum :=
          sum_filter_remove (fun x => (G.adj x).length) G.nodeIds visited
            hwf.1 hvnode hvv
        have hpushlen : ((G.adj v).filterMap (fun pr =>
            if pr.1 ∈ v :: visited then none else some (wk.sel pr.2, v, pr.1))).length ≤
            (G.adj v).length := List.length_filterMap_le _ _
        have hmeas' : primMeasure G
            (rest ++ (G.adj v).filterMap (fun pr =>
              if pr.1 ∈ v :: visited then none else some (wk.sel pr.2, v, pr.1)))
            (v :: visited) < n := by
          rw [primMeasure] at hmeas ⊢
          rw [List.length_append]
          omega
        have hnd' : (v :: visited).Nodup := List.nodup_cons.mpr ⟨hvv, hnd⟩
        have hsub' : ∀ x ∈ v :: visited, x ∈ G.nodeIds := by
          intro x hx
          rw [List.mem_cons] at hx
          rcases hx with rfl | hx
          · exact hvnode
          · exact hsub x hx
        have hstart' : start ∈ v :: visited := List.mem_cons_of_mem _ hstart
        have hconn' : ∀ x ∈ v :: visited, ConnectedB G start x = true := by
          intro x hx
          rw [List.mem_cons] at hx
          rcases hx with rfl | hx
          · exact hvconn
          · exact hconn x hx
        have hQ5' : ∀ c ∈ rest ++ (G.adj v).filterMap (fun pr =>
            if pr.1 ∈ v :: visited then none else some (wk.sel pr.2, v, pr.1)),
            c.2.1 ∈ v :: visited ∧
            ∃ data, (c.2.2, data) ∈ G.adj c.2.1 ∧ c.1 = wk.sel data := by
          intro c hc
          rw [List.mem_append] at hc
          rcases hc with hc | hc
          · obtain ⟨h1, h2⟩ := hQ5 c (hperm.mem_iff.mpr (List.mem_cons_of_mem _ hc))
            exact ⟨List.mem_cons_of_mem _ h1, h2⟩
          · obtain ⟨pr, hpr, _, rfl⟩ := hpushchar c hc
            exact ⟨List.mem_cons_self _ _, pr.2, hpr, rfl⟩
        have hQ6' : ∀ z ∈ v :: visited, ∀ pr ∈ G.adj z, pr.1 ∉ v :: visited →
            ∃ c ∈ rest ++ (G.adj v).filterMap (fun pr =>
              if pr.1 ∈ v :: visited then none else some (wk.sel pr.2, v, pr.1)),
              c.2.2 = pr.1 := by
          intro z hz pr hpr hnot
          rw [List.mem_cons] at hz
          rcases hz with rfl | hz
          · refine ⟨(wk.sel pr.2, z, pr.1), ?_, rfl⟩
            rw [List.mem_append]
            right
            rw [List.mem_filterMap]
            exact ⟨pr, hpr, by rw [if_neg hnot]⟩
          · have hnot' : pr.1 ∉ visited := fun h => hnot (List.mem_cons_of_mem _ h)
            obtain ⟨c, hc, hceq⟩ := hQ6 z hz pr hpr hnot'
            have hcm := hperm.mem_iff.mp hc
            rw [List.mem_cons] at hcm
            rcases hcm with rfl | hcm
            · exfalso
              apply hnot
              rw [← hceq]
              exact List.mem_cons_self _ _
            · exact ⟨c, List.mem_append_left _ hcm, hceq⟩
        have hQ3' := prim_join_extend hQ3 humem hvv
        have hQ4' : (sofar ++ [(u, v)]).length + 1 = (v :: visited).length := by
          simp only [List.length_append, List.length_cons, List.length_nil]
          omega
        obtain ⟨ihA, ihF, visitedF, ihnd, ihsubn, ihsound, ihcomp, ihJ, ihcount⟩ :=
          ih _ (v :: visited) (sofar ++ [(u, v)]) hmeas' hnd' hsub' hstart' hconn'
            hQ5' hQ6' hQ3' hQ4'
        rw [hloopeq]
        have hnotJ : ¬Joined sofar u v := by
          intro hJ
          rcases (hQ3 u v).mp hJ with rfl | ⟨_, h2⟩
          · exact hvv humem
          · exact hvv h2
        refine ⟨?_, ⟨hnotJ, ihF⟩, visitedF, ihnd, ihsubn, ihsound, ihcomp, ?_, ?_⟩
        · intro st hst
          rw [List.mem_cons] at hst
          rcases hst with rfl | hst
          · exact ⟨rfl, data, adj_mem_edges hdata, hwdata⟩
          · exact ihA st hst
        · intro x y
          have hres := ihJ x y
          rw [List.append_assoc] at hres
          exact hres
        · simp only [List.length_append, List.length_cons, List.length_nil] at ihcount
          rw [List.length_cons]
          omega

theorem nodup_length_eq {l₁ l₂ : List String} (h₁ : l₁.Nodup) (h₂ : l₂.Nodup)
    (h : ∀ x, x ∈ l₁ ↔ x ∈ l₂) : l₁.length = l₂.length := by
  have hfin : l₁.toFinset = l₂.toFinset := by
    ext x
    rw [List.mem_toFinset, List.mem_toFinset]
    exact h x
  rw [← List.toFinset_card_of_nodup h₁, ← List.toFinset_card_of_nodup h₂, hfin]

/-- The full correctness package of the Prim branch of `get_mst_steps`:
every step is a graph edge marked `add` with the selected weight, no step
closes a cycle, and the steps span exactly the connected component of the
first node of the graph. -/
theorem prim_props {G : Graph} (hwf : G.Wf) (wk : Dim) {start : String}
    {restN : List String} (hnodes : G.nodeIds = start :: restN) :
    (∀ st ∈ get_mst_steps G "prim" wk, st.action = "add" ∧
      ∃ data, ((st.u, st.v, data) ∈ G.edges ∨ (st.v, st.u, data) ∈ G.edges) ∧
        st.weight = wk.sel data) ∧
    Fresh [] (get_mst_steps G "prim" wk) ∧
    (∀ x y, Joined (stepPairs (get_mst_steps G "prim" wk)) x y ↔
      (x = y ∨ (ConnectedB G start x = true ∧ ConnectedB G start y = true))) ∧
    (get_mst_steps G "prim" wk).length + 1 =
      (G.nodeIds.filter (fun x => ConnectedB G start x)).length := by
  have hstartmem : start ∈ G.nodeIds := by
    rw [hnodes]; exact List.mem_cons_self _ _
  have hunf : get_mst_steps G "prim" wk =
      primLoop G wk (primFuel G)
        ((G.adj start).map (fun pr => (wk.sel pr.2, start, pr.1))) [start] := by
    unfold get_mst_steps
    rw [if_neg (by decide), if_pos rfl, hnodes]
  have hM : primMeasure G ((G.adj start).map (fun pr => (wk.sel pr.2, start, pr.1)))
      [start] < primFuel G := by
    have hsum : ((G.nodeIds.filter (fun x => !decide (x ∈ ([] : List String)))).map
        (fun x => (G.adj x).length)).sum =
        (G.adj start).length +
          ((G.nodeIds.filter (fun x => !decide (x ∈ [start]))).map
            (fun x => (G.adj x).length)).sum :=
      sum_filter_remove (fun x => (G.adj x).length) G.nodeIds [] hwf.1 hstartmem (by simp)
    have hfe : G.nodeIds.filter (fun x => !decide (x ∈ ([] : List String))) = G.nodeIds :=
      List.filter_eq_self.mpr (by intro x _; simp)
    rw [hfe] at hsum
    rw [primMeasure, primFuel, List.length_map]
    omega
  have hQ5 : ∀ c ∈ (G.adj start).map (fun pr => (wk.sel pr.2, start, pr.1)),
      c.2.1 ∈ [start] ∧ ∃ data, (c.2.2, data) ∈ G.adj c.2.1 ∧ c.1 = wk.sel data := by
    intro c hc
    rw [List.mem_map] at hc
    obtain ⟨pr, hpr, rfl⟩ := hc
    exact ⟨List.mem_singleton_self _, pr.2, hpr, rfl⟩
  have hQ6 : ∀ z ∈ [start], ∀ pr ∈ G.adj z, pr.1 ∉ [start] →
      ∃ c ∈ (G.adj start).map (fun pr => (wk.sel pr.2, start, pr.1)), c.2.2 = pr.1 := by
    intro z hz pr hpr _
    rw [List.mem_singleton] at hz
    subst hz
    refine ⟨(wk.sel pr.2, z, pr.1), ?_, rfl⟩
    rw [List.mem_map]
    exact ⟨pr, hpr, rfl⟩
  have hQ3 : ∀ x y, Joined ([] : List (String × String)) x y ↔
      (x = y ∨ (x ∈ [start] ∧ y ∈ [start])) := by
    intro x y
    rw [joined_nil]
    constructor
    · exact Or.inl
    · rintro (h | ⟨hx, hy⟩)
      · exact h
      · rw [List.mem_singleton] at hx hy
        exact hx.trans hy.symm
  obtain ⟨hA, hF, visitedF, hndF, hsubF, hsoundF, hcompF, hJF, hcountF⟩ :=
    primLoop_spec hwf wk (primFuel G)
      ((G.adj start).map (fun pr => (wk.sel pr.2, start, pr.1))) [start] [] hM
      (by simp) (by intro x hx; rw [List.mem_singleton] at hx; subst hx; exact hstartmem)
      (List.mem_singleton_self _)
      (by intro x hx; rw [List.mem_singleton] at hx; subst hx; exact connectedB_self G x)
      hQ5 hQ6 hQ3 rfl
  have hiff : ∀ x, x ∈ visitedF ↔ ConnectedB G start x = true := fun x =>
    ⟨hsoundF x, fun hc => hcompF x (connected_target_mem hwf hstartmem hc) hc⟩
  rw [hunf]
  refine ⟨hA, hF, ?_, ?_⟩
  · intro x y
    have hres := hJF x y
    rw [List.nil_append] at hres
    rw [hres, hiff x, hiff y]
  · have hlenF : visitedF.length =
        (G.nodeIds.filter (fun x => ConnectedB G start x)).length := by
      refine nodup_length_eq hndF (hwf.1.filter _) ?_
      intro x
      rw [List.mem_filter]
      constructor
      · intro hx
        exact ⟨hsubF x hx, hsoundF x hx⟩
      · rintro ⟨h1, h2⟩
        exact hcompF x h1 h2
    rw [← hlenF]
    simpa using hcountF

/-! ## Claim theorems: C2 and C4 (MST tracer, amended) -/

/-- C2 (amended): on every well-formed graph, Kruskal's steps form a
spanning forest of the whole graph — their connectivity coincides with the
graph's, and on a disconnected graph fewer than `n - 1` steps are emitted —
whereas Prim's steps span only the connected component of the first node
(one step per other node of that component).  On the two-component graph
`{A,B} ∪ {C,D}`, Kruskal returns exactly two steps, one per component, but
Prim returns only the single step of the start component. -/
theorem C2_amended :
    (∀ (G : Graph), G.Wf → ∀ wk : Dim,
      (∀ u v, u ∈ G.nodeIds → v ∈ G.nodeIds →
        (Joined (stepPairs (get_mst_steps G "kruskal" wk)) u v ↔ ConnectedB G u v = true)) ∧
      (∀ u v, u ∈ G.nodeIds → v ∈ G.nodeIds → ConnectedB G u v = false →
        (get_mst_steps G "kruskal" wk).length < G.nodeIds.length - 1)) ∧
    (∀ (G : Graph), G.Wf → ∀ (wk : Dim) (start : String) (restN : List String),
      G.nodeIds = start :: restN →
      (∀ x y, Joined (stepPairs (get_mst_steps G "prim" wk)) x y ↔
        (x = y ∨ (ConnectedB G start x = true ∧ ConnectedB G start y = true))) ∧
      (get_mst_steps G "prim" wk).length + 1 =
        (G.nodeIds.filter (fun x => ConnectedB G start x)).length) ∧
    get_mst_steps exG2 "kruskal" Dim.time = [⟨"A", "B", 1, "add"⟩, ⟨"C", "D", 1, "add"⟩] ∧
    get_mst_steps exG2 "prim" Dim.time = [⟨"A", "B", 1, "add"⟩] := by
  refine ⟨?_, ?_, by decide, by decide⟩
  · intro G hwf wk
    obtain ⟨_, _, hspan, hcnt⟩ := kruskal_props hwf wk
    exact ⟨hspan, hcnt⟩
  · intro G hwf wk start restN hnodes
    obtain ⟨_, _, hJ, hcount⟩ := prim_props hwf wk hnodes
    exact ⟨hJ, hcount⟩

theorem C2_amended_witness :
    Joined (stepPairs (get_mst_steps exG2 "kruskal" Dim.time)) "C" "D" ∧
    (get_mst_steps exG2 "prim" Dim.time).length + 1 =
      (exG2.nodeIds.filter (fun x => ConnectedB exG2 "A" x)).length :=
  ⟨((C2_amended.1 exG2 (by decide) Dim.time).1 "C" "D" (by decide) (by decide)).mpr (by decide),
   (C2_amended.2.1 exG2 (by decide) Dim.time "A" ["B", "C", "D"] (by decide)).2⟩

/-- C4 (amended): every step emitted by `get_mst_steps` — for any algorithm
string and either weight key — is a record with fields `u`, `v`, `weight`,
`action` (not `source`/`target`) whose action is `"add"` (not `include`),
whose edge is an edge of the graph carrying the selected weight, and whose
endpoints were not already joined by the earlier steps: edges rejected
because they would close a cycle never appear in the output. -/
theorem C4_amended (G : Graph) (hwf : G.Wf) (algorithm : String) (wk : Dim) :
    (∀ st ∈ get_mst_steps G algorithm wk, st.action = "add" ∧
      ∃ data, ((st.u, st.v, data) ∈ G.edges ∨ (st.v, st.u, data) ∈ G.edges) ∧
        st.weight = wk.sel data) ∧
    Fresh [] (get_mst_steps G algorithm wk) := by
  by_cases hk : algorithm = "kruskal"
  · subst hk
    obtain ⟨hA, hF, _, _⟩ := kruskal_props hwf wk
    exact ⟨hA, hF⟩
  · by_cases hp : algorithm = "prim"
    · subst hp
      cases hnodes : G.nodeIds with
      | nil =>
        have hempty : get_mst_steps G "prim" wk = [] := by
          unfold get_mst_steps
          rw [if_neg (by decide), if_pos rfl, hnodes]
        rw [hempty]
        exact ⟨fun st hst => absurd hst (List.not_mem_nil st), trivial⟩
      | cons start restN =>
        obtain ⟨hA, hF, _, _⟩ := prim_props hwf wk hnodes
        exact ⟨hA, hF⟩
    · have hempty : get_mst_steps G algorithm wk = [] := by
        unfold get_mst_steps
        rw [if_neg hk, if_neg hp]
      rw [hempty]
      exact ⟨fun st hst => absurd hst (List.not_mem_nil st), trivial⟩

theorem C4_amended_witness :
    Fresh [] (get_mst_steps exG2 "kruskal" Dim.time) ∧
    ∀ st ∈ get_mst_steps exG2 "prim" Dim.cost, st.action = "add" :=
  ⟨(C4_amended exG2 (by decide) "kruskal" Dim.time).2,
   fun st hst => ((C4_amended exG2 (by decide) "prim" Dim.cost).1 st hst).1⟩

/-! ## Lemmas: the weight lattice of the A* loop -/

theorem wDen_pos (G : Graph) (d : Dim) : 0 < wDen G d := by
  rw [wDen]
  apply List.prod_pos
  intro a ha
  rw [List.mem_map] at ha
  obtain ⟨e, _, rfl⟩ := ha
  exact (d.sel e.2.2).pos

theorem latQ_of_dvd {G : Graph} {d : Dim} {q : ℚ} (hdvd : q.den ∣ wDen G d) : LatQ G d q := by
  obtain ⟨k, hk⟩ := hdvd
  refine ⟨q.num * k, ?_⟩
  rw [hk]
  calc q * ((q.den * k : ℕ) : ℚ) = (q * (q.den : ℚ)) * (k : ℚ) := by push_cast; ring
    _ = (q.num : ℚ) * (k : ℚ) := by rw [Rat.mul_den_eq_num]
    _ = ((q.num * k : ℤ) : ℚ) := by push_cast; ring

theorem latQ_edge {G : Graph} {d : Dim} {e : String × String × ℚ × ℚ}
    (he : e ∈ G.edges) : LatQ G d (d.sel e.2.2) := by
  apply latQ_of_dvd
  rw [wDen]
  exact List.dvd_prod (List.mem_map_of_mem _ he)

theorem latQ_adj {G : Graph} {d : Dim} {cur b : String} {wdata : ℚ × ℚ}
    (h : (b, wdata) ∈ G.adj cur) : LatQ G d (d.sel wdata) := by
  rcases adj_mem_edges h with hm | hm
  · exact latQ_edge hm
  · exact latQ_edge hm

theorem latQ_zero (G : Graph) (d : Dim) : LatQ G d 0 := ⟨0, by simp⟩

theorem latQ_add {G : Graph} {d : Dim} {x y : ℚ} (hx : LatQ G d x) (hy : LatQ G d y) :
    LatQ G d (x + y) := by
  obtain ⟨zx, hzx⟩ := hx
  obtain ⟨zy, hzy⟩ := hy
  exact ⟨zx + zy, by push_cast [← hzx, ← hzy]; ring⟩

theorem natRep_eq {G : Graph} {d : Dim} {x : ℚ} (hlat : LatQ G d x) (hx : 0 ≤ x) :
    ((natRep G d x : ℕ) : ℚ) = x * (wDen G d : ℚ) := by
  obtain ⟨z, hz⟩ := hlat
  have hz0 : 0 ≤ z := by
    have hq : (0 : ℚ) ≤ (z : ℚ) := by
      rw [← hz]
      apply mul_nonneg hx
      exact_mod_cast Nat.zero_le _
    exact_mod_cast hq
  rw [natRep, hz]
  rw [Rat.num_intCast]
  exact_mod_cast Int.toNat_of_nonneg hz0

theorem natRep_lt {G : Graph} {d : Dim} {x y : ℚ} (hlx : LatQ G d x) (hly : LatQ G d y)
    (hx : 0 ≤ x) (hlt : x < y) : natRep G d x < natRep G d y := by
  have h1 := natRep_eq hlx hx
  have h2 := natRep_eq hly (le_of_lt (lt_of_le_of_lt hx hlt))
  have hW : (0 : ℚ) < ((wDen G d : ℕ) : ℚ) := by exact_mod_cast wDen_pos G d
  have hcast : ((natRep G d x : ℕ) : ℚ) < ((natRep G d y : ℕ) : ℚ) := by
    rw [h1, h2]
    exact mul_lt_mul_of_pos_right hlt hW
  exact_mod_cast hcast

theorem sum_map_mul_right (c : ℚ) : ∀ l : List ℚ, l.sum * c = (l.map (fun x => x * c)).sum := by
  intro l
  induction l with
  | nil => simp
  | cons a rest ih => simp [add_mul, ih]

theorem wSumQ_nonneg {G : Graph} (hwf : G.Wf) (d : Dim) : 0 ≤ wSumQ G d := by
  rw [wSumQ]
  apply List.sum_nonneg
  intro x hx
  rw [List.mem_map] at hx
  obtain ⟨e, he, rfl⟩ := hx
  cases d
  · exact (hwf.2.1 e he).2.2.2.1
  · exact (hwf.2.1 e he).2.2.2.2

theorem wSumQ_mul {G : Graph} (hwf : G.Wf) (d : Dim) :
    wSumQ G d * (wDen G d : ℚ) = (wSumNat G d : ℚ) := by
  rw [wSumQ, wSumNat, sum_map_mul_right, List.map_map, Nat.cast_list_sum, List.map_map]
  congr 1
  apply List.map_congr_left
  intro e he
  show d.sel e.2.2 * (wDen G d : ℚ) = (((d.sel e.2.2 * (wDen G d : ℚ)).num.toNat : ℕ) : ℚ)
  have hnn : 0 ≤ d.sel e.2.2 := by
    cases d
    · exact (hwf.2.1 e he).2.2.2.1
    · exact (hwf.2.1 e he).2.2.2.2
  exact (natRep_eq (latQ_edge he) hnn).symm

theorem natRep_le_of_le {G : Graph} {d : Dim} {x : ℚ} (hwf : G.Wf) (hl : LatQ G d x)
    (hx : 0 ≤ x) {k : ℕ} (hle : x ≤ (k : ℚ) * wSumQ G d) :
    natRep G d x ≤ k * wSumNat G d := by
  have h1 := natRep_eq hl hx
  have h2 : ((k * wSumNat G d : ℕ) : ℚ) = (k : ℚ) * wSumQ G d * (wDen G d : ℚ) := by
    push_cast
    rw [mul_assoc, wSumQ_mul hwf]
  have hW : (0 : ℚ) ≤ ((wDen G d : ℕ) : ℚ) := by exact_mod_cast Nat.zero_le _
  have hcast : ((natRep G d x : ℕ) : ℚ) ≤ ((k * wSumNat G d : ℕ) : ℚ) := by
    rw [h1, h2]
    exact mul_le_mul_of_nonneg_right hle hW
  exact_mod_cast hcast

theorem w_le_wSumQ {G : Graph} (hwf : G.Wf) {a b : String} (h : G.hasEdge a b = true)
    (d : Dim) : G.w a b d ≤ wSumQ G d := by
  obtain ⟨data, hm⟩ := hasEdge_exists h
  have hadj : (b, data) ∈ G.adj a := by
    rcases hm with hm | hm
    · exact adj_of_mem_edges₁ hm
    · exact adj_of_mem_edges₂ hm
  rw [w_eq_of_adj hwf hadj]
  rcases adj_mem_edges hadj with hm' | hm'
  · refine List.single_le_sum ?_ _ (List.mem_map_of_mem (fun e => d.sel e.2.2) hm')
    intro x hx
    rw [List.mem_map] at hx
    obtain ⟨e, he, rfl⟩ := hx
    cases d
    · exact (hwf.2.1 e he).2.2.2.1
    · exact (hwf.2.1 e he).2.2.2.2
  · refine List.single_le_sum ?_ _ (List.mem_map_of_mem (fun e => d.sel e.2.2) hm')
    intro x hx
    rw [List.mem_map] at hx
    obtain ⟨e, he, rfl⟩ := hx
    cases d
    · exact (hwf.2.1 e he).2.2.2.1
    · exact (hwf.2.1 e he).2.2.2.2

theorem path_len_le {G : Graph} {p : List String} (hnd : p.Nodup)
    (hsub : ∀ x ∈ p, x ∈ G.nodeIds) : p.length ≤ G.nodeIds.length := by
  calc p.length = p.toFinset.card := (List.toFinset_card_of_nodup hnd).symm
    _ ≤ G.nodeIds.toFinset.card := by
        apply Finset.card_le_card
        intro x hx
        rw [List.mem_toFinset] at hx ⊢
        exact hsub x hx
    _ ≤ G.nodeIds.length := G.nodeIds.toFinset_card_le

theorem gpw_le_len_mul {G : Graph} (hwf : G.Wf) (d : Dim) :
    ∀ p : List String, chainB G p = true →
      get_path_weight G p d ≤ (p.length : ℚ) * wSumQ G d := by
  intro p
  induction p with
  | nil => intro _; simp [get_path_weight]
  | cons a rest ih =>
    intro hchain
    cases rest with
    | nil =>
      have hS := wSumQ_nonneg hwf d
      simp [get_path_weight]
      linarith
    | cons b rest' =>
      rw [chainB, Bool.and_eq_true] at hchain
      have h1 := w_le_wSumQ hwf hchain.1 d
      have h2 := ih hchain.2
      show G.w a b d + get_path_weight G (b :: rest') d ≤ _
      have hlen : ((a :: b :: rest').length : ℚ) = ((b :: rest').length : ℚ) + 1 := by
        push_cast [List.length_cons]
        ring
      rw [hlen, add_mul, one_mul]
      linarith

theorem path_cost_le {G : Graph} (hwf : G.Wf) (d : Dim) {s v : String} {p : List String}
    (hs : s ∈ G.nodeIds) (hp : isPathB G s v p = true) :
    get_path_weight G p d ≤ (G.nodes.length : ℚ) * wSumQ G d := by
  rw [isPathB, isWalkB, Bool.and_eq_true, Bool.and_eq_true, Bool.and_eq_true] at hp
  simp only [decide_eq_true_eq] at hp
  obtain ⟨⟨⟨hh, _⟩, hc⟩, hnd⟩ := hp
  have hsub := walk_nodes_mem hwf p s hc hh hs
  have hlen : p.length ≤ G.nodeIds.length := path_len_le hnd hsub
  have hlen' : G.nodeIds.length = G.nodes.length := by rw [Graph.nodeIds, List.length_map]
  have h1 := gpw_le_len_mul hwf d p hc
  have h2 : ((p.length : ℕ) : ℚ) ≤ ((G.nodes.length : ℕ) : ℚ) := by
    rw [← hlen']
    exact_mod_cast hlen
  have hS := wSumQ_nonneg hwf d
  calc get_path_weight G p d ≤ (p.length : ℚ) * wSumQ G d := h1
    _ ≤ (G.nodes.length : ℚ) * wSumQ G d := mul_le_mul_of_nonneg_right h2 hS

theorem sum_map_congr_single {l : List String} {f f' : String → ℕ} {v : String} :
    l.Nodup → v ∈ l → (∀ x ∈ l, x ≠ v → f' x = f x) →
    (l.map f').sum + f v = (l.map f).sum + f' v := by
  induction l with
  | nil => intro _ hv; cases hv
  | cons a rest ih =>
    intro hnd hv hsame
    rw [List.mem_cons] at hv
    rcases hv with rfl | hv
    · have hrest : rest.map f' = rest.map f := by
        apply List.map_congr_left
        intro x hx
        exact hsame x (List.mem_cons_of_mem _ hx)
          (fun hxv => (List.nodup_cons.mp hnd).1 (hxv ▸ hx))
      simp only [List.map_cons, List.sum_cons, hrest]
      omega
    · have hav : a ≠ v := fun hav => (List.nodup_cons.mp hnd).1 (hav ▸ hv)
      have ha := hsame a (List.mem_cons_self _ _) hav
      have ihr := ih (List.nodup_cons.mp hnd).2 hv
        (fun x hx hxv => hsame x (List.mem_cons_of_mem _ hx) hxv)
      simp only [List.map_cons, List.sum_cons, ha]
      omega

/-! ## Lemmas: A* heap, lookup and potential -/

theorem popMinA_none : ∀ {l : List AEntry}, popMinA l = none → l = [] := by
  intro l
  cases l with
  | nil => intro _; rfl
  | cons e rest =>
    intro h
    rw [popMinA] at h
    cases hrest : popMinA rest with
    | none => rw [hrest] at h; cases h
    | some pr =>
      rw [hrest] at h
      dsimp at h
      by_cases hlt : aLt pr.1 e = true
      · rw [if_pos hlt] at h; cases h
      · rw [if_neg hlt] at h; cases h

theorem popMinA_perm : ∀ {l : List AEntry} {m rest},
    popMinA l = some (m, rest) → l.Perm (m :: rest) := by
  intro l
  induction l with
  | nil => intro m rest h; cases h
  | cons e tail ih =>
    intro m rest h
    rw [popMinA] at h
    cases htail : popMinA tail with
    | none =>
      rw [htail] at h
      rw [Option.some_inj, Prod.mk.injEq] at h
      obtain ⟨rfl, rfl⟩ := h
      rw [popMinA_none htail]
    | some pr =>
      obtain ⟨m0, rest0⟩ := pr
      rw [htail] at h
      dsimp at h
      by_cases hlt : aLt m0 e = true
      · rw [if_pos hlt, Option.some_inj, Prod.mk.injEq] at h
        obtain ⟨rfl, rfl⟩ := h
        exact ((ih htail).cons e).trans (List.Perm.swap m0 e rest0)
      · rw [if_neg hlt, Option.some_inj, Prod.mk.injEq] at h
        obtain ⟨rfl, rfl⟩ := h
        exact List.Perm.refl _

theorem lookupStr_cons_self {α : Type} {k : String} {v : α} {l : List (String × α)} :
    lookupStr k ((k, v) :: l) = some v := by
  rw [lookupStr, if_pos rfl]

theorem lookupStr_cons_ne {α : Type} {k k' : String} {v : α} {l : List (String × α)}
    (h : k' ≠ k) : lookupStr k ((k', v) :: l) = lookupStr k l := by
  rw [lookupStr, if_neg h]

theorem lookupStr_mem {α : Type} {k : String} {v : α} :
    ∀ {l : List (String × α)}, lookupStr k l = some v → (k, v) ∈ l := by
  intro l
  induction l with
  | nil => intro h; cases h
  | cons b rest ih =>
    intro h
    rw [lookupStr] at h
    by_cases hk : b.1 = k
    · rw [if_pos hk, Option.some_inj] at h
      have hb : (k, v) = b := by rw [← hk, ← h]
      rw [hb]
      exact List.mem_cons_self _ _
    · rw [if_neg hk] at h
      exact List.mem_cons_of_mem _ (ih h)

theorem lookupStr_none_not_mem {α : Type} {k : String} :
    ∀ {l : List (String × α)}, lookupStr k l = none → k ∉ l.map (fun b => b.1) := by
  intro l
  induction l with
  | nil => intro _ h; cases h
  | cons b rest ih =>
    intro h hm
    rw [lookupStr] at h
    by_cases hk : b.1 = k
    · rw [if_pos hk] at h; cases h
    · rw [if_neg hk] at h
      rw [List.map_cons, List.mem_cons] at hm
      rcases hm with hm | hm
      · exact hk hm.symm
      · exact ih h hm

theorem enqKeysLen_cons_le (b : String × ℚ × ℚ) (enq : List (String × ℚ × ℚ)) :
    enqKeysLen enq ≤ enqKeysLen (b :: enq) := by
  rw [enqKeysLen, enqKeysLen, List.map_cons]
  by_cases hm : b.1 ∈ enq.map (fun b => b.1)
  · rw [List.dedup_cons_of_mem hm]
  · rw [List.dedup_cons_of_not_mem hm, List.length_cons]
    omega

theorem enqKeysLen_cons_not_mem {b : String × ℚ × ℚ} {enq : List (String × ℚ × ℚ)}
    (hm : b.1 ∉ enq.map (fun b => b.1)) :
    enqKeysLen (b :: enq) = enqKeysLen enq + 1 := by
  rw [enqKeysLen, enqKeysLen, List.map_cons, List.dedup_cons_of_not_mem hm, List.length_cons]

theorem enqKeysLen_le_nodes {G : Graph} {enq : List (String × ℚ × ℚ)}
    (hsub : ∀ b ∈ enq, b.1 ∈ G.nodeIds) : enqKeysLen enq ≤ G.nodes.length := by
  have h1 : enqKeysLen enq ≤ G.nodeIds.length := by
    rw [enqKeysLen]
    apply path_len_le (G := G) (enq.map (fun b => b.1)).nodup_dedup
    intro x hx
    rw [List.mem_dedup, List.mem_map] at hx
    obtain ⟨b, hb, rfl⟩ := hx
    exact hsub b hb
  rw [Graph.nodeIds, List.length_map] at h1
  exact h1

theorem gBound_nonneg {G : Graph} (hwf : G.Wf) (d : Dim) (enq : List (String × ℚ × ℚ)) :
    0 ≤ gBound G d enq := by
  rw [gBound]
  apply mul_nonneg
  · exact_mod_cast Nat.zero_le _
  · exact wSumQ_nonneg hwf d

theorem gBound_cons_le {G : Graph} (hwf : G.Wf) (d : Dim) (b : String × ℚ × ℚ)
    (enq : List (String × ℚ × ℚ)) : gBound G d enq ≤ gBound G d (b :: enq) := by
  rw [gBound, gBound]
  apply mul_le_mul_of_nonneg_right _ (wSumQ_nonneg hwf d)
  exact_mod_cast Nat.add_le_add_right (enqKeysLen_cons_le b enq) 1

theorem gBound_le_max {G : Graph} (hwf : G.Wf) (d : Dim) {enq : List (String × ℚ × ℚ)}
    (hsub : ∀ b ∈ enq, b.1 ∈ G.nodeIds) :
    gBound G d enq ≤ ((G.nodes.length + 1 : ℕ) : ℚ) * wSumQ G d := by
  rw [gBound]
  apply mul_le_mul_of_nonneg_right _ (wSumQ_nonneg hwf d)
  exact_mod_cast Nat.add_le_add_right (enqKeysLen_le_nodes hsub) 1

theorem QEntryOk_mono {G : Graph} (hwf : G.Wf) {d : Dim} {s : String}
    {enq : List (String × ℚ × ℚ)} (b : String × ℚ × ℚ) {e : AEntry}
    (h : QEntryOk G d s enq e) : QEntryOk G d s (b :: enq) e :=
  ⟨h.1, h.2.1, h.2.2.1, h.2.2.2.1, le_trans h.2.2.2.2 (gBound_cons_le hwf d b enq)⟩

theorem EEntryOk_mono {G : Graph} (hwf : G.Wf) {d : Dim}
    {enq : List (String × ℚ × ℚ)} (b : String × ℚ × ℚ) {b' : String × ℚ × ℚ}
    (h : EEntryOk G d enq b') : EEntryOk G d (b :: enq) b' :=
  ⟨h.1, h.2.1, h.2.2.1, le_trans h.2.2.2 (gBound_cons_le hwf d b enq)⟩

theorem adj_sel_nonneg {G : Graph} (hwf : G.Wf) {cur b : String} {wdata : ℚ × ℚ}
    (h : (b, wdata) ∈ G.adj cur) (d : Dim) : 0 ≤ d.sel wdata := by
  rcases adj_mem_edges h with hm | hm
  · cases d
    · exact (hwf.2.1 _ hm).2.2.2.1
    · exact (hwf.2.1 _ hm).2.2.2.2
  · cases d
    · exact (hwf.2.1 _ hm).2.2.2.1
    · exact (hwf.2.1 _ hm).2.2.2.2

/-- Effect of a push on the total potential: the pushed node's potential
strictly decreases, everything else is unchanged. -/
theorem psiSum_push {G : Graph} (hwf : G.Wf) {d : Dim} {enq : List (String × ℚ × ℚ)}
    {nbr : String} {g h : ℚ} (hnbr : nbr ∈ G.nodeIds)
    (hcase :
      (∃ qc hh, lookupStr nbr enq = some (qc, hh) ∧ g < qc ∧ 0 ≤ g ∧
        LatQ G d g ∧ LatQ G d qc) ∨
      (lookupStr nbr enq = none ∧
        natRep G d g ≤ (G.nodes.length + 1) * wSumNat G d)) :
    (G.nodeIds.map (enqPsi G d ((nbr, g, h) :: enq))).sum + 1 ≤
      (G.nodeIds.map (enqPsi G d enq)).sum := by
  have hsame : ∀ x ∈ G.nodeIds, x ≠ nbr →
      enqPsi G d ((nbr, g, h) :: enq) x = enqPsi G d enq x := by
    intro x _ hx
    rw [enqPsi, enqPsi, lookupStr_cons_ne (Ne.symm hx)]
  have hnew : enqPsi G d ((nbr, g, h) :: enq) nbr = natRep G d g := by
    rw [enqPsi, lookupStr_cons_self]
  have hkey := sum_map_congr_single hwf.1 hnbr hsame
  rw [hnew] at hkey
  have hold : natRep G d g + 1 ≤ enqPsi G d enq nbr := by
    rcases hcase with ⟨qc, hh, hlk, hlt, hg0, hlg, hlq⟩ | ⟨hlk, hle⟩
    · have hrep := natRep_lt hlg hlq hg0 hlt
      rw [enqPsi, hlk]
      show natRep G d g + 1 ≤ natRep G d qc
      omega
    · rw [enqPsi, hlk]
      show natRep G d g + 1 ≤ (G.nodes.length + 1) * wSumNat G d + 1
      omega
  omega

/-- Full specification of the relaxation loop: the invariant is preserved
and the measure `|queue| + 2 Σψ` does not increase (each push pays for its
queue slot by decreasing the pushed node's potential). -/
theorem relaxA_spec {G : Graph} (hwf : G.Wf) (d : Dim) (s t : String)
    (hw : String → String → ℚ) {cur : String} {dist : ℚ}
    (hconn : ConnectedB G s cur = true) (hd0 : 0 ≤ dist) (hdlat : LatQ G d dist) :
    ∀ (adjl : List (String × ℚ × ℚ)) (q : List AEntry) (c : ℕ)
      (enq : List (String × ℚ × ℚ)),
      (∀ pr ∈ adjl, (pr.1, pr.2) ∈ G.adj cur) →
      (∀ e ∈ q, QEntryOk G d s enq e) →
      (∀ b ∈ enq, EEntryOk G d enq b) →
      dist ≤ gBound G d enq →
      (∀ e ∈ (relaxA hw t d cur dist adjl q c enq).1,
        QEntryOk G d s (relaxA hw t d cur dist adjl q c enq).2.2 e) ∧
      (∀ b ∈ (relaxA hw t d cur dist adjl q c enq).2.2,
        EEntryOk G d (relaxA hw t d cur dist adjl q c enq).2.2 b) ∧
      (relaxA hw t d cur dist adjl q c enq).1.length +
          2 * ((G.nodeIds.map (enqPsi G d (relaxA hw t d cur dist adjl q c enq).2.2)).sum) ≤
        q.length + 2 * ((G.nodeIds.map (enqPsi G d enq)).sum) := by
  intro adjl
  induction adjl with
  | nil =>
    intro q c enq _ hq henq _
    exact ⟨hq, henq, le_refl _⟩
  | cons pr rest ih =>
    obtain ⟨nbr, wdata⟩ := pr
    intro q c enq hadj hq henq hdb
    have hadjm : (nbr, wdata) ∈ G.adj cur := hadj (nbr, wdata) (List.mem_cons_self _ _)
    have hadj' : ∀ pr ∈ rest, (pr.1, pr.2) ∈ G.adj cur :=
      fun pr hpr => hadj pr (List.mem_cons_of_mem _ hpr)
    have hnbrmem : nbr ∈ G.nodeIds := adj_mem_nodes hwf hadjm
    have hcost0 : 0 ≤ d.sel wdata := adj_sel_nonneg hwf hadjm d
    have hcostlat : LatQ G d (d.sel wdata) := latQ_adj hadjm
    have hnconn : ConnectedB G s nbr = true :=
      connected_trans hwf hconn (connected_of_edge hwf (hasEdge_of_adj hadjm))
    have hcostS : d.sel wdata ≤ wSumQ G d := by
      have hww := w_le_wSumQ hwf (hasEdge_of_adj hadjm) d
      rw [w_eq_of_adj hwf hadjm] at hww
      exact hww
    have hn0 : 0 ≤ dist + d.sel wdata := add_nonneg hd0 hcost0
    have hnlat : LatQ G d (dist + d.sel wdata) := latQ_add hdlat hcostlat
    cases hlk : lookupStr nbr enq with
    | some pr2 =>
      obtain ⟨qc, hh⟩ := pr2
      by_cases hle : qc ≤ dist + d.sel wdata
      · have hunf : relaxA hw t d cur dist ((nbr, wdata) :: rest) q c enq =
            relaxA hw t d cur dist rest q c enq := by
          simp only [relaxA, hlk]
          rw [if_pos hle]
        rw [hunf]
        exact ih q c enq hadj' hq henq hdb
      · obtain ⟨_, hqc0, hqclat, hqcB⟩ := henq _ (lookupStr_mem hlk)
        have hnlt : dist + d.sel wdata < qc := lt_of_not_ge hle
        have hunf : relaxA hw t d cur dist ((nbr, wdata) :: rest) q c enq =
            relaxA hw t d cur dist rest
              (q ++ [(dist + d.sel wdata + hh, c, nbr, dist + d.sel wdata, some cur)])
              (c + 1) ((nbr, dist + d.sel wdata, hh) :: enq) := by
          simp only [relaxA, hlk]
          rw [if_neg hle]
        rw [hunf]
        have hBn : dist + d.sel wdata ≤ gBound G d ((nbr, dist + d.sel wdata, hh) :: enq) :=
          le_trans (le_of_lt hnlt) (le_trans hqcB (gBound_cons_le hwf d _ enq))
        have hq' : ∀ e ∈ q ++ [(dist + d.sel wdata + hh, c, nbr, dist + d.sel wdata, some cur)],
            QEntryOk G d s ((nbr, dist + d.sel wdata, hh) :: enq) e := by
          intro e he
          rw [List.mem_append, List.mem_singleton] at he
          rcases he with he | rfl
          · exact QEntryOk_mono hwf _ (hq e he)
          · exact ⟨hnbrmem, hnconn, hn0, hnlat, hBn⟩
        have henq' : ∀ b ∈ (nbr, dist + d.sel wdata, hh) :: enq,
            EEntryOk G d ((nbr, dist + d.sel wdata, hh) :: enq) b := by
          intro b hb
          rw [List.mem_cons] at hb
          rcases hb with rfl | hb
          · exact ⟨hnbrmem, hn0, hnlat, hBn⟩
          · exact EEntryOk_mono hwf _ (henq b hb)
        have hdb' : dist ≤ gBound G d ((nbr, dist + d.sel wdata, hh) :: enq) :=
          le_trans hdb (gBound_cons_le hwf d _ enq)
        obtain ⟨ih1, ih2, ih3⟩ := ih _ (c + 1) _ hadj' hq' henq' hdb'
        refine ⟨ih1, ih2, ?_⟩
        have hpush := psiSum_push hwf (d := d) (h := hh) hnbrmem
          (Or.inl ⟨qc, hh, hlk, hnlt, hn0, hnlat, hqclat⟩)
        rw [List.length_append] at ih3
        simp only [List.length_cons, List.length_nil] at ih3
        omega
    | none =>
      have hunf : relaxA hw t d cur dist ((nbr, wdata) :: rest) q c enq =
          relaxA hw t d cur dist rest
            (q ++ [(dist + d.sel wdata + hw nbr t, c, nbr, dist + d.sel wdata, some cur)])
            (c + 1) ((nbr, dist + d.sel wdata, hw nbr t) :: enq) := by
        simp only [relaxA, hlk]
      rw [hunf]
      have hkeys : nbr ∉ enq.map (fun b => b.1) := lookupStr_none_not_mem hlk
      have hgrow : gBound G d ((nbr, dist + d.sel wdata, hw nbr t) :: enq) =
          gBound G d enq + wSumQ G d := by
        rw [gBound, gBound, enqKeysLen_cons_not_mem hkeys]
        push_cast
        ring
      have hBn : dist + d.sel wdata ≤
          gBound G d ((nbr, dist + d.sel wdata, hw nbr t) :: enq) := by
        rw [hgrow]
        exact add_le_add hdb hcostS
      have hsub' : ∀ b ∈ (nbr, dist + d.sel wdata, hw nbr t) :: enq, b.1 ∈ G.nodeIds := by
        intro b hb
        rw [List.mem_cons] at hb
        rcases hb with rfl | hb
        · exact hnbrmem
        · exact (henq b hb).1
      have hrep : natRep G d (dist + d.sel wdata) ≤ (G.nodes.length + 1) * wSumNat G d := by
        apply natRep_le_of_le hwf hnlat hn0
        calc dist + d.sel wdata ≤
            gBound G d ((nbr, dist + d.sel wdata, hw nbr t) :: enq) := hBn
          _ ≤ ((G.nodes.length + 1 : ℕ) : ℚ) * wSumQ G d := gBound_le_max hwf d hsub'
      have hq' : ∀ e ∈ q ++
          [(dist + d.sel wdata + hw nbr t, c, nbr, dist + d.sel wdata, some cur)],
          QEntryOk G d s ((nbr, dist + d.sel wdata, hw nbr t) :: enq) e := by
        intro e he
        rw [List.mem_append, List.mem_singleton] at he
        rcases he with he | rfl
        · exact QEntryOk_mono hwf _ (hq e he)
        · exact ⟨hnbrmem, hnconn, hn0, hnlat, hBn⟩
      have henq' : ∀ b ∈ (nbr, dist + d.sel wdata, hw nbr t) :: enq,
          EEntryOk G d ((nbr, dist + d.sel wdata, hw nbr t) :: enq) b := by
        intro b hb
        rw [List.mem_cons] at hb
        rcases hb with rfl | hb
        · exact ⟨hnbrmem, hn0, hnlat, hBn⟩
        · exact EEntryOk_mono hwf _ (henq b hb)
      have hdb' : dist ≤ gBound G d ((nbr, dist + d.sel wdata, hw nbr t) :: enq) :=
        le_trans hdb (gBound_cons_le hwf d _ enq)
      obtain ⟨ih1, ih2, ih3⟩ := ih _ (c + 1) _ hadj' hq' henq' hdb'
      refine ⟨ih1, ih2, ?_⟩
      have hpush := psiSum_push hwf (d := d) (h := hw nbr t) hnbrmem (Or.inr ⟨hlk, hrep⟩)
      rw [List.length_append] at ih3
      simp only [List.length_cons, List.length_nil] at ih3
      omega

/-- One loop iteration that continues preserves the invariant and strictly
decreases the measure. -/
theorem astarStep_inl_spec {G : Graph} (hwf : G.Wf) (d : Dim) (s t : String)
    (hw : String → String → ℚ) {st st' : AState} (hinv : AInv G d s st)
    (hstep : astarStep G hw t d st = .inl st') :
    AInv G d s st' ∧ aMeasure G d st' < aMeasure G d st := by
  rw [astarStep] at hstep
  cases hpop : popMinA st.queue with
  | none => rw [hpop] at hstep; cases hstep
  | some pr =>
    obtain ⟨⟨f, c, cur, dist, par⟩, rest⟩ := pr
    rw [hpop] at hstep
    dsimp at hstep
    have hperm := popMinA_perm hpop
    have hqlen : st.queue.length = rest.length + 1 := by
      rw [hperm.length_eq, List.length_cons]
    have hpopok := hinv.1 _ (hperm.mem_iff.mpr (List.mem_cons_self _ _))
    have hcurconn : ConnectedB G s cur = true := hpopok.2.1
    have hd0 : (0 : ℚ) ≤ dist := hpopok.2.2.1
    have hdlat : LatQ G d dist := hpopok.2.2.2.1
    have hdb : dist ≤ gBound G d st.enq := hpopok.2.2.2.2
    have hrestq : ∀ e ∈ rest, QEntryOk G d s st.enq e :=
      fun e he => hinv.1 e (hperm.mem_iff.mpr (List.mem_cons_of_mem _ he))
    have hskip : st' = ⟨rest, st.cnt, st.enq, st.expl⟩ →
        AInv G d s st' ∧ aMeasure G d st' < aMeasure G d st := by
      intro hst'
      subst hst'
      refine ⟨⟨hrestq, hinv.2⟩, ?_⟩
      rw [aMeasure, aMeasure]
      dsimp
      omega
    have hexp : ∀ {q2 : List AEntry} {c2 : ℕ} {e2 : List (String × ℚ × ℚ)},
        relaxA hw t d cur dist (G.adj cur) rest st.cnt st.enq = (q2, c2, e2) →
        st' = ⟨q2, c2, e2, (cur, par) :: st.expl⟩ →
        AInv G d s st' ∧ aMeasure G d st' < aMeasure G d st := by
      intro q2 c2 e2 hrel hst'
      obtain ⟨r1, r2, r3⟩ := relaxA_spec hwf d s t hw hcurconn hd0 hdlat (G.adj cur)
        rest st.cnt st.enq (fun pr hpr => hpr) hrestq hinv.2 hdb
      rw [hrel] at r1 r2 r3
      subst hst'
      refine ⟨⟨r1, r2⟩, ?_⟩
      rw [aMeasure, aMeasure]
      dsimp
      dsimp at r3
      omega
    by_cases hct : cur = t
    · rw [if_pos hct] at hstep; cases hstep
    · rw [if_neg hct] at hstep
      cases hle : lookupStr cur st.expl with
      | none =>
        rw [hle] at hstep
        rcases hrel : relaxA hw t d cur dist (G.adj cur) rest st.cnt st.enq
          with ⟨q2, c2, e2⟩
        rw [hrel] at hstep
        exact hexp hrel (Sum.inl.inj hstep).symm
      | some opar =>
        rw [hle] at hstep
        cases opar with
        | none => exact hskip (Sum.inl.inj hstep).symm
        | some p0 =>
          dsimp at hstep
          cases hlq : lookupStr cur st.enq with
          | some prq =>
            obtain ⟨qc, hh⟩ := prq
            rw [hlq] at hstep
            dsimp at hstep
            by_cases hqd : qc < dist
            · rw [if_pos hqd] at hstep
              exact hskip (Sum.inl.inj hstep).symm
            · rw [if_neg hqd] at hstep
              rcases hrel : relaxA hw t d cur dist (G.adj cur) rest st.cnt st.enq
                with ⟨q2, c2, e2⟩
              rw [hrel] at hstep
              exact hexp hrel (Sum.inl.inj hstep).symm
          | none =>
            rw [hlq] at hstep
            rcases hrel : relaxA hw t d cur dist (G.adj cur) rest st.cnt st.enq
              with ⟨q2, c2, e2⟩
            rw [hrel] at hstep
            exact hexp hrel (Sum.inl.inj hstep).symm

/-- A loop iteration that stops either reports no path or pops the target
off the queue. -/
theorem astarStep_inr_spec {G : Graph} {hw : String → String → ℚ} {t : String} {d : Dim}
    {st : AState} {r : NxRes (List String)} (h : astarStep G hw t d st = .inr r) :
    r = .noPath ∨ ∃ e ∈ st.queue, e.2.2.1 = t ∧ ∃ p, r = .ok p := by
  rw [astarStep] at h
  cases hpop : popMinA st.queue with
  | none =>
    rw [hpop] at h
    exact Or.inl (Sum.inr.inj h).symm
  | some pr =>
    obtain ⟨⟨f, c, cur, dist, par⟩, rest⟩ := pr
    rw [hpop] at h
    dsimp at h
    by_cases hct : cur = t
    · rw [if_pos hct] at h
      right
      exact ⟨(f, c, cur, dist, par),
        (popMinA_perm hpop).mem_iff.mpr (List.mem_cons_self _ _), hct,
        _, (Sum.inr.inj h).symm⟩
    · rw [if_neg hct] at h
      cases hle : lookupStr cur st.expl with
      | none =>
        rw [hle] at h
        rcases hrel : relaxA hw t d cur dist (G.adj cur) rest st.cnt st.enq
          with ⟨q2, c2, e2⟩
        rw [hrel] at h
        cases h
      | some opar =>
        rw [hle] at h
        cases opar with
        | none => cases h
        | some p0 =>
          dsimp at h
          cases hlq : lookupStr cur st.enq with
          | some prq =>
            obtain ⟨qc, hh⟩ := prq
            rw [hlq] at h
            dsimp at h
            by_cases hqd : qc < dist
            · rw [if_pos hqd] at h
              cases h
            · rw [if_neg hqd] at h
              rcases hrel : relaxA hw t d cur dist (G.adj cur) rest st.cnt st.enq
                with ⟨q2, c2, e2⟩
              rw [hrel] at h
              cases h
          | none =>
            rw [hlq] at h
            rcases hrel : relaxA hw t d cur dist (G.adj cur) rest st.cnt st.enq
              with ⟨q2, c2, e2⟩
            rw [hrel] at h
            cases h

theorem sum_map_const {α : Type} (l : List α) (k : ℕ) : (l.map (fun _ => k)).sum = l.length * k := by
  induction l with
  | nil => simp
  | cons a rest ih => simp [ih, List.length_cons]; ring

/-- On an unreachable pair the loop always terminates with `noPath`: the
target never enters the queue (every queue node is reachable), and the
measure rules out divergence. -/
theorem astarRun_noPath {G : Graph} (hwf : G.Wf) (d : Dim) {s t : String}
    (hw : String → String → ℚ) (hnc : ConnectedB G s t = false) :
    ∀ (fuel : ℕ) (st : AState), AInv G d s st → aMeasure G d st < fuel →
      astarRun G hw t d fuel st = .noPath := by
  intro fuel
  induction fuel with
  | zero => intro st _ hm; exact absurd hm (Nat.not_lt_zero _)
  | succ n ih =>
    intro st hinv hm
    cases hstep : astarStep G hw t d st with
    | inl st' =>
      have hunf : astarRun G hw t d (n + 1) st = astarRun G hw t d n st' := by
        simp only [astarRun, hstep]
      obtain ⟨hinv', hdec⟩ := astarStep_inl_spec hwf d s t hw hinv hstep
      rw [hunf]
      exact ih st' hinv' (by omega)
    | inr r =>
      have hunf : astarRun G hw t d (n + 1) st = r := by
        simp only [astarRun, hstep]
      rw [hunf]
      rcases astarStep_inr_spec hstep with rfl | ⟨e, he, het, p, rfl⟩
      · rfl
      · exfalso
        have hec := (hinv.1 e he).2.1
        rw [het, hnc] at hec
        cases hec

theorem aMeasure_init (G : Graph) (d : Dim) (s : String) :
    aMeasure G d ⟨[(0, 0, s, 0, none)], 1, [], []⟩ =
      1 + 2 * (G.nodeIds.length * ((G.nodes.length + 1) * wSumNat G d + 1)) := by
  rw [aMeasure]
  dsimp
  have hmap : G.nodeIds.map (enqPsi G d []) =
      G.nodeIds.map (fun _ => (G.nodes.length + 1) * wSumNat G d + 1) := by
    apply List.map_congr_left
    intro v _
    rfl
  rw [hmap, sum_map_const]

theorem AInv_init {G : Graph} (hwf : G.Wf) (d : Dim) {s : String} (hs : s ∈ G.nodeIds) :
    AInv G d s ⟨[(0, 0, s, 0, none)], 1, [], []⟩ := by
  constructor
  · intro e he
    rw [List.mem_singleton] at he
    subst he
    exact ⟨hs, connectedB_self G s, le_refl 0, latQ_zero G d, gBound_nonneg hwf d []⟩
  · intro b hb
    cases hb

theorem aMeasure_init_lt {G : Graph} (d : Dim) (s : String) :
    aMeasure G d ⟨[(0, 0, s, 0, none)], 1, [], []⟩ < astarFuel G d := by
  rw [aMeasure_init, astarFuel]
  have hlen : G.nodeIds.length = G.nodes.length := by
    rw [Graph.nodeIds, List.length_map]
  rw [hlen]
  have hassoc : 2 * G.nodes.length * ((G.nodes.length + 1) * wSumNat G d + 1) =
      2 * (G.nodes.length * ((G.nodes.length + 1) * wSumNat G d + 1)) := by ring
  omega

/-- `nx.astar_path` on two existing but unconnected nodes reports
`NetworkXNoPath`, for every heuristic and weight. -/
theorem nx_astar_noPath {G : Graph} (hwf : G.Wf) {s t : String} (h : String → String → ℚ)
    (d : Dim) (hs : s ∈ G.nodeIds) (ht : t ∈ G.nodeIds)
    (hnc : ConnectedB G s t = false) : nx_astar_path G h s t d = .noPath := by
  rw [nx_astar_path, if_pos ⟨hs, ht⟩]
  exact astarRun_noPath hwf d h hnc (astarFuel G d) _ (AInv_init hwf d hs)
    (aMeasure_init_lt d s)

/-! ## Claim theorem: C3 (unreachable pair in the dual router, amended) -/

/-- C3 (amended): for existing but unconnected endpoints, `find_dual_paths`
in dijkstra mode (any selector other than `bfs`/`astar`) and in astar mode
does not fail: it returns a result with both path slots `None` and both
per-path aggregates `None`; but the `total_time`/`total_cost` keys are not
omitted or null — they are set to `float('inf')`. -/
theorem C3_amended (G : Graph) (hwf : G.Wf) (hE : String → String → ℚ) (s t : String)
    (hs : s ∈ G.nodeIds) (ht : t ∈ G.nodeIds) (hnc : ConnectedB G s t = false)
    (alg : String) (halg : alg ≠ "bfs") :
    find_dual_paths G hE s t alg =
      .ok ⟨s, t, alg, none, none, some ⊤, some ⊤, none, none, [], []⟩ := by
  have hpaths : allPaths G s t = [] := connectedB_eq_false_iff.mp hnc
  have hdij : ∀ d, dijkstra_shortest_path G s t d = .ok ⟨none, ⊤, some "无路径"⟩ := by
    intro d
    rw [dijkstra_shortest_path, nx_dijkstra_noPath d hs hpaths]
  have hast : ∀ d, astar_shortest_path G hE s t d = .ok ⟨none, ⊤, some "无路径"⟩ := by
    intro d
    rw [astar_shortest_path]
    rw [nx_astar_noPath hwf (fun u v => if d = Dim.time then hE u v else 0) d hs ht hnc]
  by_cases ha : alg = "astar"
  · subst ha
    rw [find_dual_paths, if_neg halg, if_pos rfl, hast Dim.time, hast Dim.cost]
    rfl
  · rw [find_dual_paths, if_neg halg, if_neg ha, hdij Dim.time, hdij Dim.cost]
    rfl

theorem C3_amended_witness :
    find_dual_paths exG2 (fun _ _ => 0) "A" "C" "astar" =
      .ok ⟨"A", "C", "astar", none, none, some ⊤, some ⊤, none, none, [], []⟩ ∧
    find_dual_paths exG2 (fun _ _ => 0) "A" "C" "dijkstra" =
      .ok ⟨"A", "C", "dijkstra", none, none, some ⊤, some ⊤, none, none, [], []⟩ :=
  ⟨C3_amended exG2 (by decide) (fun _ _ => 0) "A" "C" (by decide) (by decide)
    (by decide) "astar" (by decide),
   C3_amended exG2 (by decide) (fun _ _ => 0) "A" "C" (by decide) (by decide)
    (by decide) "dijkstra" (by decide)⟩

/-! ## Claim theorems: C1 (missing start/end nodes) -/

theorem allPaths_empty_of_target_absent {G : Graph} (hwf : G.Wf) {s t : String}
    (hs : s ∈ G.nodeIds) (ht : t ∉ G.nodeIds) : allPaths G s t = [] := by
  by_contra hne
  obtain ⟨p, hp⟩ := List.exists_mem_of_ne_nil _ hne
  obtain ⟨hhead, hlast, hchain, _⟩ := allPaths_props hwf hp
  have htp : t ∈ p := List.mem_of_mem_getLast? hlast
  cases p with
  | nil => cases hhead
  | cons a rest =>
    rw [List.head?_cons, Option.some_inj] at hhead
    subst hhead
    exact ht (walk_nodes_mem hwf _ a hchain rfl hs t htp)

theorem nx_dijkstra_cases {G : Graph} {s t : String} (d : Dim) (hs : s ∈ G.nodeIds) :
    (∃ p, nx_dijkstra_path G s t d = .ok p) ∨ nx_dijkstra_path G s t d = .noPath := by
  rw [nx_dijkstra_path, if_pos hs]
  by_cases hts : t = s
  · rw [if_pos hts]
    exact Or.inl ⟨[s], rfl⟩
  · rw [if_neg hts]
    rcases argminBy (fun p => get_path_weight G p d) (allPaths G s t) with _ | p
    · exact Or.inr rfl
    · exact Or.inl ⟨p, rfl⟩

theorem nx_dijkstra_ok_target {G : Graph} (hwf : G.Wf) {s t : String} {d : Dim}
    {p : List String} (hs : s ∈ G.nodeIds) (hok : nx_dijkstra_path G s t d = .ok p) :
    t ∈ G.nodeIds ∨ t = s := by
  by_cases ht : t ∈ G.nodeIds
  · exact Or.inl ht
  · by_cases hts : t = s
    · exact Or.inr hts
    · rw [nx_dijkstra_path, if_pos hs, if_neg hts,
        argminBy_eq_none_iff.mpr (allPaths_empty_of_target_absent hwf hs ht)] at hok
      cases hok

theorem chain_target_absent {G : Graph} (hwf : G.Wf) (d : Dim) {t : String}
    (ht : t ∉ G.nodeIds) :
    ∀ (wps : List String) (s : String) (i : ℕ) (curr : List String), s ∈ G.nodeIds →
      buildChainAux G d (chainPairs (s :: (wps ++ [t]))) i curr = .noPath := by
  intro wps
  induction wps with
  | nil =>
    intro s i curr hs
    have hempty : allPaths G s t = [] := allPaths_empty_of_target_absent hwf hs ht
    show buildChainAux G d [(s, t)] i curr = .noPath
    simp only [buildChainAux, nx_dijkstra_noPath d hs hempty]
  | cons w ws ih =>
    intro s i curr hs
    show buildChainAux G d ((s, w) :: chainPairs (w :: (ws ++ [t]))) i curr = .noPath
    rcases nx_dijkstra_cases (t := w) d hs with ⟨seg, hseg⟩ | hnp
    · simp only [buildChainAux, hseg]
      have hw : w ∈ G.nodeIds := by
        rcases nx_dijkstra_ok_target hwf hs hseg with h | h
        · exact h
        · rw [h]; exact hs
      exact ih w _ _ hw
    · simp only [buildChainAux, hnp]

theorem chain_source_absent {G : Graph} (d : Dim) {s : String} (hs : s ∉ G.nodeIds)
    (wps : List String) (t : String) (i : ℕ) (curr : List String) :
    buildChainAux G d (chainPairs (s :: (wps ++ [t]))) i curr = .nodeNotFound := by
  cases wps with
  | nil =>
    show buildChainAux G d [(s, t)] i curr = .nodeNotFound
    simp only [buildChainAux, nx_dijkstra_notFound d hs]
  | cons w ws =>
    show buildChainAux G d ((s, w) :: chainPairs (w :: (ws ++ [t]))) i curr = .nodeNotFound
    simp only [buildChainAux, nx_dijkstra_notFound d hs]

/-- C1 (amended): `bfs_shortest_path` and `astar_shortest_path` (and the
routers in those modes) fail with `NodeNotFound` whenever start or end is
absent, and so does every function when the *start* is absent; but when only
the *end* is absent, `dijkstra_shortest_path` (and `find_dual_paths` in
dijkstra mode and `find_multi_stop_path`) report the caught-`NetworkXNoPath`
no-path outcome instead of the node error. -/
theorem C1_amended (G : Graph) (hwf : G.Wf) (hE : String → String → ℚ)
    (s t : String) (d : Dim) (wps : List String) :
    (¬(s ∈ G.nodeIds ∧ t ∈ G.nodeIds) →
      bfs_shortest_path G s t = .error .nodeNotFound ∧
      astar_shortest_path G hE s t d = .error .nodeNotFound ∧
      find_dual_paths G hE s t "bfs" = .error .nodeNotFound ∧
      find_dual_paths G hE s t "astar" = .error .nodeNotFound) ∧
    (s ∉ G.nodeIds →
      dijkstra_shortest_path G s t d = .error .nodeNotFound ∧
      (∀ alg, find_dual_paths G hE s t alg = .error .nodeNotFound) ∧
      find_multi_stop_path G s t wps = .error .nodeNotFound) ∧
    (s ∈ G.nodeIds → t ∉ G.nodeIds →
      dijkstra_shortest_path G s t d = .ok ⟨none, ⊤, some "无路径"⟩ ∧
      (∀ alg, alg ≠ "bfs" → alg ≠ "astar" →
        find_dual_paths G hE s t alg =
          .ok ⟨s, t, alg, none, none, some ⊤, some ⊤, none, none, [], []⟩) ∧
      find_multi_stop_path G s t wps = .ok (.error "路径不可达，请检查途径点是否连通")) := by
  have hbfs_err : ¬(s ∈ G.nodeIds ∧ t ∈ G.nodeIds) →
      bfs_shortest_path G s t = .error .nodeNotFound := by
    intro h
    rw [bfs_shortest_path, nx_shortest_notFound h]
  have hast_err : ¬(s ∈ G.nodeIds ∧ t ∈ G.nodeIds) →
      astar_shortest_path G hE s t d = .error .nodeNotFound := by
    intro h
    simp only [astar_shortest_path, nx_astar_path, if_neg h]
  have hast_err' : ∀ d', ¬(s ∈ G.nodeIds ∧ t ∈ G.nodeIds) →
      astar_shortest_path G hE s t d' = .error .nodeNotFound := by
    intro d' h
    simp only [astar_shortest_path, nx_astar_path, if_neg h]
  refine ⟨?_, ?_, ?_⟩
  · intro h
    refine ⟨hbfs_err h, hast_err h, ?_, ?_⟩
    · rw [find_dual_paths, if_pos rfl, hbfs_err h]
    · rw [find_dual_paths, if_neg (by decide : ¬("astar" = "bfs")), if_pos rfl,
        hast_err' Dim.time h]
  · intro hs
    have hd : ∀ d', dijkstra_shortest_path G s t d' = .error .nodeNotFound := by
      intro d'
      rw [dijkstra_shortest_path, nx_dijkstra_notFound d' hs]
    refine ⟨hd d, ?_, ?_⟩
    · intro alg
      rw [find_dual_paths]
      by_cases h1 : alg = "bfs"
      · rw [if_pos h1, hbfs_err (fun h => hs h.1)]
      · rw [if_neg h1]
        by_cases h2 : alg = "astar"
        · rw [if_pos h2, hast_err' Dim.time (fun h => hs h.1)]
        · rw [if_neg h2, hd Dim.time]
    · simp only [find_multi_stop_path]
      rw [show buildChain G Dim.time (s :: (wps ++ [t])) = .nodeNotFound from
        chain_source_absent Dim.time hs wps t 0 []]
  · intro hs ht
    have hempty : allPaths G s t = [] := allPaths_empty_of_target_absent hwf hs ht
    have hd : ∀ d', dijkstra_shortest_path G s t d' = .ok ⟨none, ⊤, some "无路径"⟩ := by
      intro d'
      rw [dijkstra_shortest_path, nx_dijkstra_noPath d' hs hempty]
    refine ⟨hd d, ?_, ?_⟩
    · intro alg h1 h2
      rw [find_dual_paths, if_neg h1, if_neg h2, hd Dim.time, hd Dim.cost]
      rfl
    · simp only [find_multi_stop_path]
      rw [show buildChain G Dim.time (s :: (wps ++ [t])) = .noPath from
        chain_target_absent hwf Dim.time ht wps s 0 [] hs]

/-- C1 (amended) witness. -/
theorem C1_amended_witness :
    (¬("A" ∈ exG1.nodeIds ∧ "B" ∈ exG1.nodeIds) →
      bfs_shortest_path exG1 "A" "B" = .error .nodeNotFound ∧
      astar_shortest_path exG1 (fun _ _ => 0) "A" "B" Dim.time = .error .nodeNotFound ∧
      find_dual_paths exG1 (fun _ _ => 0) "A" "B" "bfs" = .error .nodeNotFound ∧
      find_dual_paths exG1 (fun _ _ => 0) "A" "B" "astar" = .error .nodeNotFound) ∧
    ("A" ∉ exG1.nodeIds →
      dijkstra_shortest_path exG1 "A" "B" Dim.time = .error .nodeNotFound ∧
      (∀ alg, find_dual_paths exG1 (fun _ _ => 0) "A" "B" alg = .error .nodeNotFound) ∧
      find_multi_stop_path exG1 "A" "B" [] = .error .nodeNotFound) ∧
    ("A" ∈ exG1.nodeIds → "B" ∉ exG1.nodeIds →
      dijkstra_shortest_path exG1 "A" "B" Dim.time = .ok ⟨none, ⊤, some "无路径"⟩ ∧
      (∀ alg, alg ≠ "bfs" → alg ≠ "astar" →
        find_dual_paths exG1 (fun _ _ => 0) "A" "B" alg =
          .ok ⟨"A", "B", alg, none, none, some ⊤, some ⊤, none, none, [], []⟩) ∧
      find_multi_stop_path exG1 "A" "B" [] =
        .ok (.error "路径不可达，请检查途径点是否连通")) :=
  C1_amended exG1 (by decide) (fun _ _ => 0) "A" "B" Dim.time []

/-- C10 witness. -/
theorem C10_witness :
    find_dual_paths exG2 (fun _ _ => 0) "A" "B" "dijsktra" =
      (find_dual_paths exG2 (fun _ _ => 0) "A" "B" "dijkstra").map
        (fun r => { r with algorithm := "dijsktra" }) :=
  C10_unknown_algorithm_is_dijkstra exG2 (fun _ _ => 0) "A" "B" "dijsktra"
    (by decide) (by decide)

/-! ## The A* loop with a zero heuristic: heap order and parent chains -/

theorem aLt_true_iff {a b : AEntry} :
    aLt a b = true ↔ (a.1 < b.1 ∨ (a.1 = b.1 ∧ a.2.1 < b.2.1)) := by
  rw [aLt]
  simp

theorem aLt_false_iff {a b : AEntry} :
    aLt a b = false ↔ (b.1 ≤ a.1 ∧ (a.1 = b.1 → b.2.1 ≤ a.2.1)) := by
  rw [aLt]
  simp [not_lt]

theorem aLt_false_trans {x m e : AEntry} (h1 : aLt x m = false) (h2 : aLt m e = false) :
    aLt x e = false := by
  rw [aLt_false_iff] at h1 h2 ⊢
  obtain ⟨hm1, hm2⟩ := h1
  obtain ⟨he1, he2⟩ := h2
  refine ⟨le_trans he1 hm1, ?_⟩
  intro hxe
  have hxm : x.1 = m.1 := le_antisymm (by rw [hxe]; exact he1) hm1
  have hme : m.1 = e.1 := by rw [← hxm, hxe]
  exact le_trans (he2 hme) (hm2 hxm)

theorem aLt_asymm {a b : AEntry} (h : aLt a b = true) : aLt b a = false := by
  rw [aLt_true_iff] at h
  rw [aLt_false_iff]
  rcases h with h | ⟨h1, h2⟩
  · exact ⟨le_of_lt h, fun he => absurd he (ne_of_gt h)⟩
  · exact ⟨le_of_eq h1, fun _ => le_of_lt h2⟩

theorem popMinA_min : ∀ {l : List AEntry} {m rest},
    popMinA l = some (m, rest) → ∀ e ∈ rest, aLt e m = false := by
  intro l
  induction l with
  | nil => intro m rest h; cases h
  | cons a tail ih =>
    intro m rest h e he
    rw [popMinA] at h
    cases htail : popMinA tail with
    | none =>
      rw [htail] at h
      rw [Option.some_inj, Prod.mk.injEq] at h
      obtain ⟨rfl, rfl⟩ := h
      cases he
    | some pr =>
      obtain ⟨m0, rest0⟩ := pr
      rw [htail] at h
      dsimp at h
      by_cases hlt : aLt m0 a = true
      · rw [if_pos hlt, Option.some_inj, Prod.mk.injEq] at h
        obtain ⟨rfl, rfl⟩ := h
        rw [List.mem_cons] at he
        rcases he with rfl | he
        · exact aLt_asymm hlt
        · exact ih htail e he
      · rw [if_neg hlt, Option.some_inj, Prod.mk.injEq] at h
        obtain ⟨rfl, rfl⟩ := h
        have hba : aLt m0 a = false := Bool.eq_false_iff.mpr hlt
        have hem : e ∈ m0 :: rest0 := (popMinA_perm htail).mem_iff.mp he
        rw [List.mem_cons] at hem
        rcases hem with rfl | he0
        · exact hba
        · exact aLt_false_trans (ih htail e he0) hba

theorem popMinA_split : ∀ {l : List AEntry} {m rest},
    popMinA l = some (m, rest) →
      ∃ l1 l2, l = l1 ++ m :: l2 ∧ rest = l1 ++ l2 := by
  intro l
  induction l with
  | nil => intro m rest h; cases h
  | cons a tail ih =>
    intro m rest h
    rw [popMinA] at h
    cases htail : popMinA tail with
    | none =>
      rw [htail] at h
      rw [Option.some_inj, Prod.mk.injEq] at h
      obtain ⟨rfl, rfl⟩ := h
      exact ⟨[], tail, rfl, (popMinA_none htail).symm⟩
    | some pr =>
      obtain ⟨m0, rest0⟩ := pr
      rw [htail] at h
      dsimp at h
      by_cases hlt : aLt m0 a = true
      · rw [if_pos hlt, Option.some_inj, Prod.mk.injEq] at h
        obtain ⟨rfl, rfl⟩ := h
        obtain ⟨l1, l2, htl, hrl⟩ := ih htail
        exact ⟨a :: l1, l2, by rw [htl, List.cons_append], by rw [hrl, List.cons_append]⟩
      · rw [if_neg hlt, Option.some_inj, Prod.mk.injEq] at h
        obtain ⟨rfl, rfl⟩ := h
        exact ⟨[], tail, rfl, rfl⟩

theorem spells_parentChain {expl : List (String × Option String)} :
    ∀ {op : Option String} {chain : List String}, Spells expl op chain →
      ∀ fuel : ℕ, chain.length ≤ fuel → parentChain expl fuel op = chain := by
  intro op chain h
  induction h with
  | nil => intro fuel _; cases fuel <;> rfl
  | @cons u p rest hlk hsp ih =>
    intro fuel hfuel
    cases fuel with
    | zero => simp at hfuel
    | succ n =>
      have hlen : rest.length ≤ n := by
        rw [List.length_cons] at hfuel
        omega
      calc parentChain expl (n + 1) (some u)
          = u :: parentChain expl n ((lookupStr u expl).getD none) := rfl
        _ = u :: parentChain expl n p := by rw [hlk, Option.getD_some]
        _ = u :: rest := by rw [ih n hlen]

theorem spells_lift {expl0 : List (String × Option String)} {cur : String}
    {p0 : Option String} (hcur : cur ∉ expl0.map (fun b => b.1)) :
    ∀ {op : Option String} {chain : List String}, Spells expl0 op chain →
      Spells ((cur, p0) :: expl0) op chain := by
  intro op chain h
  induction h with
  | nil => exact Spells.nil
  | @cons u p rest hlk hsp ih =>
    have hne : cur ≠ u := by
      intro he
      subst he
      exact hcur (List.mem_map.mpr ⟨(cur, p), lookupStr_mem hlk, rfl⟩)
    exact Spells.cons (by rw [lookupStr_cons_ne hne]; exact hlk) ih

/-! ## Optimal weights: realisation, positivity, triangle inequality -/

theorem connected_of_walk {G : Graph} (hwf : G.Wf) {s v : String} {w : List String}
    (hw : isWalkB G s v w = true) : ConnectedB G s v = true := by
  obtain ⟨p, hp, _, _⟩ := walk_to_path hwf Dim.time w s v hw
  rw [connectedB_eq_true_iff]
  intro hnil
  have hmem := mem_allPaths_complete hwf hp
  rw [hnil] at hmem
  cases hmem

theorem optWeight_realized {G : Graph} (d : Dim) {s v : String}
    (hc : ConnectedB G s v = true) :
    ∃ p ∈ allPaths G s v, get_path_weight G p d = optWeight G d s v := by
  rw [connectedB_eq_true_iff] at hc
  rcases h : argminBy (fun p => get_path_weight G p d) (allPaths G s v) with _ | p
  · rw [argminBy_eq_none_iff] at h
    exact absurd h hc
  · exact ⟨p, argminBy_mem h, by rw [optWeight, h]⟩

theorem optWeight_nonneg {G : Graph} (hwf : G.Wf) (d : Dim) (s v : String) :
    0 ≤ optWeight G d s v := by
  rw [optWeight]
  rcases h : argminBy (fun p => get_path_weight G p d) (allPaths G s v) with _ | p
  · exact le_refl 0
  · exact gpw_nonneg hwf d p

theorem optWeight_triangle {G : Graph} (hwf : G.Wf) (d : Dim) {s cur nbr : String}
    {wdata : ℚ × ℚ} (hconn : ConnectedB G s cur = true)
    (hadj : (nbr, wdata) ∈ G.adj cur) :
    optWeight G d s nbr ≤ optWeight G d s cur + d.sel wdata := by
  obtain ⟨P, hP, hPw⟩ := optWeight_realized d hconn
  have hPpath := mem_allPaths_sound hwf hP
  rw [isPathB, Bool.and_eq_true] at hPpath
  have hPwalk := hPpath.1
  have hedge : G.hasEdge cur nbr = true := hasEdge_of_adj hadj
  have hstep : isWalkB G cur nbr [cur, nbr] = true := by
    rw [isWalkB, chainB]
    simp [hedge, chainB]
  have hglue := isWalk_glue hPwalk hstep
  have hlast : P.getLast? = some cur := by
    rw [isWalkB, Bool.and_eq_true, Bool.and_eq_true] at hPwalk
    exact of_decide_eq_true hPwalk.1.2
  have hpair : get_path_weight G [cur, nbr] d = G.w cur nbr d := by
    show G.w cur nbr d + get_path_weight G [nbr] d = G.w cur nbr d
    show G.w cur nbr d + 0 = G.w cur nbr d
    ring
  have hcost : get_path_weight G (P ++ [nbr]) d =
      get_path_weight G P d + G.w cur nbr d := by
    rw [gpw_glue P cur [nbr] hlast]
    have : get_path_weight G [cur, nbr] d = G.w cur nbr d := hpair
    rw [this]
  have hW : G.w cur nbr d = d.sel wdata := w_eq_of_adj hwf hadj d
  have h1 : optWeight G d s nbr ≤ get_path_weight G (P ++ [nbr]) d :=
    optWeight_le_walk hwf hglue
  rw [hcost, hW, hPw] at h1
  exact h1

/-! ## Walk decomposition at the explored frontier -/

theorem chainB_prefix {G : Graph} :
    ∀ (xs : List String) (y : String) (zs : List String),
      chainB G (xs ++ y :: zs) = true → chainB G (xs ++ [y]) = true := by
  intro xs
  induction xs with
  | nil => intro y zs _; rfl
  | cons a xs ih =>
    intro y zs h
    cases xs with
    | nil =>
      have h' : chainB G (a :: y :: zs) = true := h
      rw [chainB, Bool.and_eq_true] at h'
      show chainB G (a :: y :: []) = true
      rw [chainB, Bool.and_eq_true]
      exact ⟨h'.1, rfl⟩
    | cons b xs' =>
      have h' : chainB G (a :: b :: (xs' ++ y :: zs)) = true := h
      rw [chainB, Bool.and_eq_true] at h'
      have hih := ih y zs h'.2
      show chainB G (a :: b :: (xs' ++ [y])) = true
      rw [chainB, Bool.and_eq_true]
      exact ⟨h'.1, hih⟩

theorem head?_append_cons {α : Type} (l1 : List α) (z : α) (l2 l3 : List α) :
    (l1 ++ z :: l2).head? = (l1 ++ z :: l3).head? := by
  cases l1 <;> rfl

theorem crossing {keys : List String} :
    ∀ (p : List String) (a b : String), p.head? = some a → p.getLast? = some b →
      a ∈ keys → b ∉ keys →
      ∃ p1 z y p2, p = p1 ++ z :: y :: p2 ∧ z ∈ keys ∧ y ∉ keys := by
  intro p
  induction p with
  | nil => intro a b h; cases h
  | cons x rest ih =>
    intro a b hh hl ha hb
    rw [List.head?_cons, Option.some_inj] at hh
    subst hh
    cases rest with
    | nil =>
      rw [List.getLast?_singleton, Option.some_inj] at hl
      subst hl
      exact absurd ha hb
    | cons y rest' =>
      by_cases hy : y ∈ keys
      · rw [List.getLast?_cons_cons] at hl
        obtain ⟨p1, z, y', p2, heq, hz, hy'⟩ := ih y b rfl hl hy hb
        refine ⟨x :: p1, z, y', p2, ?_, hz, hy'⟩
        rw [List.cons_append, ← heq]
      · exact ⟨[], x, y, rest', rfl, ha, hy⟩

/-! ## The relaxation loop preserves the zero-heuristic Dijkstra invariant -/

/-- While the node `cur` is being expanded at its optimal cost `dist`, the
relaxation loop preserves `RelInv` (relative to the `explored` map extended
with `cur`), only appends to the queue, and leaves every unexplored
neighbour of `cur` with a queue entry within one edge of `dist`. -/
theorem relaxA_h0_spec {G : Graph} (hwf : G.Wf) (d : Dim) (s t : String)
    {hw : String → String → ℚ} (hzero : ∀ u v, hw u v = 0)
    {cur : String} {dist : ℚ} {par : Option String}
    {expl0 : List (String × Option String)}
    (hconncur : ConnectedB G s cur = true)
    (hdistopt : dist = optWeight G d s cur)
    (hchainc : ∃ chainc, Spells ((cur, par) :: expl0) (some cur) (cur :: chainc) ∧
      (cur :: chainc).length ≤ ((cur, par) :: expl0).length ∧
      isWalkB G s cur ((cur :: chainc).reverse) = true ∧
      get_path_weight G ((cur :: chainc).reverse) d = dist) :
    ∀ (adjl : List (String × ℚ × ℚ)) (q : List AEntry) (c : ℕ)
      (enq : List (String × ℚ × ℚ)),
      (∀ pr ∈ adjl, (pr.1, pr.2) ∈ G.adj cur) →
      RelInv G d s ((cur, par) :: expl0) q c enq →
      RelInv G d s ((cur, par) :: expl0) (relaxA hw t d cur dist adjl q c enq).1
        (relaxA hw t d cur dist adjl q c enq).2.1
        (relaxA hw t d cur dist adjl q c enq).2.2 ∧
      (∀ e ∈ q, e ∈ (relaxA hw t d cur dist adjl q c enq).1) ∧
      (∀ pr ∈ adjl, pr.1 ∉ ((cur, par) :: expl0).map (fun b => b.1) →
        ∃ e ∈ (relaxA hw t d cur dist adjl q c enq).1,
          e.2.2.1 = pr.1 ∧ e.2.2.2.1 ≤ dist + d.sel pr.2) := by
  obtain ⟨chainc, hspc, hlenc, hwalkc, hcostc⟩ := hchainc
  intro adjl
  induction adjl with
  | nil =>
    intro q c enq _ hinv
    exact ⟨hinv, fun e he => he, fun pr hpr => absurd hpr (List.not_mem_nil pr)⟩
  | cons pr0 adjrest ih =>
    obtain ⟨nbr, wdata⟩ := pr0
    intro q c enq hsub hinv
    have hinvKeep := hinv
    obtain ⟨a1, a2, a3, a4, a5, a6, a10, a11, a12, a13⟩ := hinv
    have hadjm : (nbr, wdata) ∈ G.adj cur := hsub (nbr, wdata) (List.mem_cons_self _ _)
    have hsub' : ∀ pr ∈ adjrest, (pr.1, pr.2) ∈ G.adj cur :=
      fun pr hpr => hsub pr (List.mem_cons_of_mem _ hpr)
    have hstepw : isWalkB G cur nbr [cur, nbr] = true := by
      rw [isWalkB, chainB]
      simp [hasEdge_of_adj hadjm, chainB]
    have hwalknew : isWalkB G s nbr ((nbr :: cur :: chainc).reverse) = true := by
      rw [List.reverse_cons]
      exact isWalk_glue hwalkc hstepw
    have hlastrev : ((cur :: chainc).reverse).getLast? = some cur := by
      rw [List.getLast?_reverse]
      rfl
    have hcostnew : get_path_weight G ((nbr :: cur :: chainc).reverse) d =
        dist + d.sel wdata := by
      rw [List.reverse_cons, gpw_glue _ cur [nbr] hlastrev, hcostc]
      have hpair : get_path_weight G [cur, nbr] d = G.w cur nbr d := by
        show G.w cur nbr d + get_path_weight G [nbr] d = G.w cur nbr d
        show G.w cur nbr d + 0 = G.w cur nbr d
        ring
      rw [hpair, w_eq_of_adj hwf hadjm d]
    cases hlk : lookupStr nbr enq with
    | some prq =>
      obtain ⟨qc, hh⟩ := prq
      by_cases hle : qc ≤ dist + d.sel wdata
      · -- no push: the neighbour's binding is already at least as good
        have hunf : relaxA hw t d cur dist ((nbr, wdata) :: adjrest) q c enq =
            relaxA hw t d cur dist adjrest q c enq := by
          simp only [relaxA, hlk]
          rw [if_pos hle]
        rw [hunf]
        obtain ⟨r1, r2, r3⟩ := ih q c enq hsub' hinvKeep
        refine ⟨r1, r2, ?_⟩
        intro pr hpr hprk
        rw [List.mem_cons] at hpr
        rcases hpr with rfl | hpr
        · obtain ⟨e, he, hen, heg⟩ := a4 nbr qc hh hlk hprk
          exact ⟨e, r2 e he, hen, by rw [heg]; exact hle⟩
        · exact r3 pr hpr hprk
      · -- push with the stored heuristic value
        have hlt' : dist + d.sel wdata < qc := not_le.mp hle
        have hzeroh : hh = 0 := a13 (nbr, qc, hh) (lookupStr_mem hlk)
        have hnbr_nexp : ∀ par0 : String, (nbr, some par0) ∈ (cur, par) :: expl0 → False := by
          intro par0 hmem
          obtain ⟨qc0, hh0, hlk0, hq0⟩ := a10 (nbr, some par0) hmem ⟨par0, rfl⟩
          rw [hlk, Option.some_inj, Prod.mk.injEq] at hlk0
          obtain ⟨heq, _⟩ := hlk0
          have htri := optWeight_triangle hwf d hconncur hadjm
          rw [← hq0, ← heq, ← hdistopt] at htri
          exact absurd htri (not_le.mpr hlt')
        have hunf : relaxA hw t d cur dist ((nbr, wdata) :: adjrest) q c enq =
            relaxA hw t d cur dist adjrest
              (q ++ [(dist + d.sel wdata + hh, c, nbr, dist + d.sel wdata, some cur)])
              (c + 1) ((nbr, dist + d.sel wdata, hh) :: enq) := by
          simp only [relaxA, hlk]
          rw [if_neg hle]
        rw [hunf]
        have hinv' : RelInv G d s ((cur, par) :: expl0)
            (q ++ [(dist + d.sel wdata + hh, c, nbr, dist + d.sel wdata, some cur)])
            (c + 1) ((nbr, dist + d.sel wdata, hh) :: enq) := by
          refine ⟨?_, ?_, ?_, ?_, ?_, ?_, ?_, ?_, ?_, ?_⟩
          · intro e he
            rw [List.mem_append, List.mem_singleton] at he
            rcases he with he | rfl
            · exact a1 e he
            · show dist + d.sel wdata + hh = dist + d.sel wdata
              rw [hzeroh, add_zero]
          · intro e he
            rw [List.mem_append, List.mem_singleton] at he
            rcases he with he | rfl
            · exact a2 e he
            · exact ⟨cur :: chainc, hspc, hlenc, hwalknew, hcostnew⟩
          · intro e he
            rw [List.mem_append, List.mem_singleton] at he
            rcases he with he | rfl
            · rcases a3 e he with h0 | ⟨hc1, qc2, hh2, hlke, hqce⟩
              · exact Or.inl h0
              · by_cases hen : e.2.2.1 = nbr
                · rw [hen, hlk, Option.some_inj, Prod.mk.injEq] at hlke
                  obtain ⟨rfl, rfl⟩ := hlke
                  refine Or.inr ⟨hc1, dist + d.sel wdata, hh, ?_, ?_⟩
                  · rw [hen]
                    exact lookupStr_cons_self
                  · exact le_trans (le_of_lt hlt') hqce
                · refine Or.inr ⟨hc1, qc2, hh2, ?_, hqce⟩
                  rw [lookupStr_cons_ne (fun hq => hen hq.symm)]
                  exact hlke
            · exact Or.inr ⟨a12, dist + d.sel wdata, hh, lookupStr_cons_self, le_refl _⟩
          · intro v qcv hhv hlkv hvk
            by_cases hvn : v = nbr
            · subst hvn
              rw [lookupStr_cons_self, Option.some_inj, Prod.mk.injEq] at hlkv
              obtain ⟨rfl, rfl⟩ := hlkv
              exact ⟨(dist + d.sel wdata + hh, c, v, dist + d.sel wdata, some cur),
                List.mem_append_right _ (List.mem_singleton.mpr rfl), rfl, rfl⟩
            · rw [lookupStr_cons_ne (fun hq => hvn hq.symm)] at hlkv
              obtain ⟨e, he, hen, heg⟩ := a4 v qcv hhv hlkv hvk
              exact ⟨e, List.mem_append_left _ he, hen, heg⟩
          · intro e he par0 hlke
            rw [List.mem_append, List.mem_singleton] at he
            rcases he with he | rfl
            · by_cases hen : e.2.2.1 = nbr
              · rw [hen] at hlke
                exact absurd (lookupStr_mem hlke) (fun hm => hnbr_nexp par0 hm)
              · obtain ⟨qc2, hh2, hlk2, hlt2⟩ := a5 e he par0 hlke
                refine ⟨qc2, hh2, ?_, hlt2⟩
                rw [lookupStr_cons_ne (fun hq => hen hq.symm)]
                exact hlk2
            · exact absurd (lookupStr_mem hlke) (fun hm => hnbr_nexp par0 hm)
          · intro hsk
            exact List.mem_append_left _ (a6 hsk)
          · intro b hb hbp
            obtain ⟨par0, hp0⟩ := hbp
            obtain ⟨b1, b2⟩ := b
            dsimp at hp0
            subst hp0
            by_cases hb1 : b1 = nbr
            · subst hb1
              exact absurd hb (fun hm => hnbr_nexp par0 hm)
            · obtain ⟨qc0, hh0, hlk0, hq0⟩ := a10 (b1, some par0) hb ⟨par0, rfl⟩
              refine ⟨qc0, hh0, ?_, hq0⟩
              show lookupStr b1 ((nbr, dist + d.sel wdata, hh) :: enq) = some (qc0, hh0)
              rw [lookupStr_cons_ne (fun hq => hb1 hq.symm)]
              exact hlk0
          · rw [List.pairwise_append]
            refine ⟨a11, List.pairwise_singleton _ _, ?_⟩
            intro e he e' he'
            rw [List.mem_singleton] at he'
            subst he'
            intro hnode hce _
            rcases a3 e he with h0 | ⟨hc1, qc2, hh2, hlke, hqce⟩
            · rw [h0] at hce
              exact absurd hce (by norm_num)
            · rw [hnode] at hlke
              show e.2.2.2.1 ≠ dist + d.sel wdata
              rw [hlk, Option.some_inj, Prod.mk.injEq] at hlke
              obtain ⟨rfl, rfl⟩ := hlke
              intro hq
              rw [← hq] at hlt'
              exact absurd hqce (not_le.mpr hlt')
          · omega
          · intro b hb
            rw [List.mem_cons] at hb
            rcases hb with rfl | hb
            · exact hzeroh
            · exact a13 b hb
        obtain ⟨r1, r2, r3⟩ := ih _ (c + 1) _ hsub' hinv'
        refine ⟨r1, fun e he => r2 e (List.mem_append_left _ he), ?_⟩
        intro pr hpr hprk
        rw [List.mem_cons] at hpr
        rcases hpr with rfl | hpr
        · refine ⟨(dist + d.sel wdata + hh, c, nbr, dist + d.sel wdata, some cur),
            r2 _ (List.mem_append_right _ (List.mem_singleton.mpr rfl)), rfl, le_refl _⟩
        · exact r3 pr hpr hprk
    | none =>
      have hzeroh : hw nbr t = 0 := hzero nbr t
      have hnbr_nexp : ∀ par0 : String, (nbr, some par0) ∈ (cur, par) :: expl0 → False := by
        intro par0 hmem
        obtain ⟨qc0, hh0, hlk0, _⟩ := a10 (nbr, some par0) hmem ⟨par0, rfl⟩
        rw [hlk] at hlk0
        cases hlk0
      have hunf : relaxA hw t d cur dist ((nbr, wdata) :: adjrest) q c enq =
          relaxA hw t d cur dist adjrest
            (q ++ [(dist + d.sel wdata + hw nbr t, c, nbr, dist + d.sel wdata, some cur)])
            (c + 1) ((nbr, dist + d.sel wdata, hw nbr t) :: enq) := by
        simp only [relaxA, hlk]
      rw [hunf]
      have hinv' : RelInv G d s ((cur, par) :: expl0)
          (q ++ [(dist + d.sel wdata + hw nbr t, c, nbr, dist + d.sel wdata, some cur)])
          (c + 1) ((nbr, dist + d.sel wdata, hw nbr t) :: enq) := by
        refine ⟨?_, ?_, ?_, ?_, ?_, ?_, ?_, ?_, ?_, ?_⟩
        · intro e he
          rw [List.mem_append, List.mem_singleton] at he
          rcases he with he | rfl
          · exact a1 e he
          · show dist + d.sel wdata + hw nbr t = dist + d.sel wdata
            rw [hzeroh, add_zero]
        · intro e he
          rw [List.mem_append, List.mem_singleton] at he
          rcases he with he | rfl
          · exact a2 e he
          · exact ⟨cur :: chainc, hspc, hlenc, hwalknew, hcostnew⟩
        · intro e he
          rw [List.mem_append, List.mem_singleton] at he
          rcases he with he | rfl
          · rcases a3 e he with h0 | ⟨hc1, qc2, hh2, hlke, hqce⟩
            · exact Or.inl h0
            · by_cases hen : e.2.2.1 = nbr
              · rw [hen, hlk] at hlke
                cases hlke
              · refine Or.inr ⟨hc1, qc2, hh2, ?_, hqce⟩
                rw [lookupStr_cons_ne (fun hq => hen hq.symm)]
                exact hlke
          · exact Or.inr ⟨a12, dist + d.sel wdata, hw nbr t, lookupStr_cons_self, le_refl _⟩
        · intro v qcv hhv hlkv hvk
          by_cases hvn : v = nbr
          · subst hvn
            rw [lookupStr_cons_self, Option.some_inj, Prod.mk.injEq] at hlkv
            obtain ⟨rfl, rfl⟩ := hlkv
            exact ⟨(dist + d.sel wdata + hw v t, c, v, dist + d.sel wdata, some cur),
              List.mem_append_right _ (List.mem_singleton.mpr rfl), rfl, rfl⟩
          · rw [lookupStr_cons_ne (fun hq => hvn hq.symm)] at hlkv
            obtain ⟨e, he, hen, heg⟩ := a4 v qcv hhv hlkv hvk
            exact ⟨e, List.mem_append_left _ he, hen, heg⟩
        · intro e he par0 hlke
          rw [List.mem_append, List.mem_singleton] at he
          rcases he with he | rfl
          · by_cases hen : e.2.2.1 = nbr
            · rw [hen] at hlke
              exact absurd (lookupStr_mem hlke) (fun hm => hnbr_nexp par0 hm)
            · obtain ⟨qc2, hh2, hlk2, hlt2⟩ := a5 e he par0 hlke
              refine ⟨qc2, hh2, ?_, hlt2⟩
              rw [lookupStr_cons_ne (fun hq => hen hq.symm)]
              exact hlk2
          · exact absurd (lookupStr_mem hlke) (fun hm => hnbr_nexp par0 hm)
        · intro hsk
          exact List.mem_append_left _ (a6 hsk)
        · intro b hb hbp
          obtain ⟨par0, hp0⟩ := hbp
          obtain ⟨b1, b2⟩ := b
          dsimp at hp0
          subst hp0
          by_cases hb1 : b1 = nbr
          · subst hb1
            exact absurd hb (fun hm => hnbr_nexp par0 hm)
          · obtain ⟨qc0, hh0, hlk0, hq0⟩ := a10 (b1, some par0) hb ⟨par0, rfl⟩
            refine ⟨qc0, hh0, ?_, hq0⟩
            show lookupStr b1 ((nbr, dist + d.sel wdata, hw nbr t) :: enq) = some (qc0, hh0)
            rw [lookupStr_cons_ne (fun hq => hb1 hq.symm)]
            exact hlk0
        · rw [List.pairwise_append]
          refine ⟨a11, List.pairwise_singleton _ _, ?_⟩
          intro e he e' he'
          rw [List.mem_singleton] at he'
          subst he'
          intro hnode hce _
          rcases a3 e he with h0 | ⟨hc1, qc2, hh2, hlke, hqce⟩
          · rw [h0] at hce
            exact absurd hce (by norm_num)
          · rw [hnode, hlk] at hlke
            cases hlke
        · omega
        · intro b hb
          rw [List.mem_cons] at hb
          rcases hb with rfl | hb
          · exact hzeroh
          · exact a13 b hb
      obtain ⟨r1, r2, r3⟩ := ih _ (c + 1) _ hsub' hinv'
      refine ⟨r1, fun e he => r2 e (List.mem_append_left _ he), ?_⟩
      intro pr hpr hprk
      rw [List.mem_cons] at hpr
      rcases hpr with rfl | hpr
      · refine ⟨(dist + d.sel wdata + hw nbr t, c, nbr, dist + d.sel wdata, some cur),
          r2 _ (List.mem_append_right _ (List.mem_singleton.mpr rfl)), rfl, le_refl _⟩
      · exact r3 pr hpr hprk

/-- While any reachable node `v` is unexplored, the queue holds an entry of
`g`-value at most `optWeight s v`: either the initial entry (while `s` is
unexplored) or an entry produced at the first explored/unexplored crossing
of an optimal `s`–`v` path. -/
theorem frontier_entry {G : Graph} (hwf : G.Wf) (d : Dim) {s v : String}
    {expl : List (String × Option String)} {queue : List AEntry}
    (hfront : ∀ z ∈ expl.map (fun b => b.1), ∀ pr ∈ G.adj z,
      pr.1 ∉ expl.map (fun b => b.1) →
      ∃ e ∈ queue, e.2.2.1 = pr.1 ∧ e.2.2.2.1 ≤ optWeight G d s z + d.sel pr.2)
    (hinit : s ∉ expl.map (fun b => b.1) → (0, 0, s, 0, none) ∈ queue)
    (hconn : ConnectedB G s v = true) (hvk : v ∉ expl.map (fun b => b.1)) :
    ∃ e ∈ queue, e.2.2.2.1 ≤ optWeight G d s v := by
  by_cases hsk : s ∈ expl.map (fun b => b.1)
  · obtain ⟨P, hPmem, hPw⟩ := optWeight_realized d hconn
    have hPpath := mem_allPaths_sound hwf hPmem
    rw [isPathB, Bool.and_eq_true] at hPpath
    have hPwalk := hPpath.1
    rw [isWalkB, Bool.and_eq_true, Bool.and_eq_true] at hPwalk
    obtain ⟨⟨hPh, hPl⟩, hPc⟩ := hPwalk
    have hPh' : P.head? = some s := of_decide_eq_true hPh
    have hPl' : P.getLast? = some v := of_decide_eq_true hPl
    obtain ⟨p1, z, y, p2, hPeq, hz, hy⟩ := crossing P s v hPh' hPl' hsk hvk
    have hPc2 : chainB G (p1 ++ z :: y :: p2) = true := by rw [← hPeq]; exact hPc
    have hch : chainB G (z :: y :: p2) = true := chainB_suffix hPc2
    have hch2 := hch
    rw [chainB, Bool.and_eq_true] at hch2
    obtain ⟨wd, hadj⟩ := adj_of_hasEdge hch2.1
    obtain ⟨ey, hey, heyn, heyg⟩ := hfront z hz (y, wd) hadj hy
    refine ⟨ey, hey, ?_⟩
    have hwalkz : isWalkB G s z (p1 ++ [z]) = true := by
      rw [isWalkB, Bool.and_eq_true, Bool.and_eq_true]
      refine ⟨⟨?_, ?_⟩, ?_⟩
      · rw [decide_eq_true_eq, head?_append_cons p1 z [] (y :: p2), ← hPeq]
        exact hPh'
      · rw [decide_eq_true_eq, List.getLast?_append_of_ne_nil p1 (by simp)]
        simp
      · exact chainB_prefix p1 z (y :: p2) hPc2
    have h3 : optWeight G d s z ≤ get_path_weight G (p1 ++ [z]) d :=
      optWeight_le_walk hwf hwalkz
    have h4 : get_path_weight G P d =
        get_path_weight G (p1 ++ [z]) d + get_path_weight G (z :: y :: p2) d := by
      rw [hPeq]
      exact gpw_append G d p1 z (y :: p2)
    have h5 : get_path_weight G (z :: y :: p2) d =
        G.w z y d + get_path_weight G (y :: p2) d := rfl
    have h6 : 0 ≤ get_path_weight G (y :: p2) d := gpw_nonneg hwf d _
    have h7 : G.w z y d = d.sel wd := w_eq_of_adj hwf hadj d
    have h8 : ey.2.2.2.1 ≤ optWeight G d s z + d.sel wd := heyg
    rw [← hPw]
    linarith
  · refine ⟨(0, 0, s, 0, none), hinit hsk, ?_⟩
    show (0 : ℚ) ≤ optWeight G d s v
    exact optWeight_nonneg hwf d s v

/-- One loop iteration under a zero heuristic: a continuing step preserves
the Dijkstra invariant, and a stopping step on a connected pair returns an
optimal-cost walk from source to target. -/
theorem astarStep_h0_spec {G : Graph} (hwf : G.Wf) (d : Dim) {s t : String}
    {hw : String → String → ℚ} (hzero : ∀ u v, hw u v = 0)
    {st : AState} (hdinv : DInv G d s t st) :
    (∀ st', astarStep G hw t d st = .inl st' → DInv G d s t st') ∧
    (∀ r, astarStep G hw t d st = .inr r → ConnectedB G s t = true →
      ∃ p, r = .ok p ∧ isWalkB G s t p = true ∧
        get_path_weight G p d = optWeight G d s t) := by
  obtain ⟨hrel, hfront, htk⟩ := hdinv
  obtain ⟨a1, a2, a3, a4, a5, a6, a10, a11, a12, a13⟩ := hrel
  cases hpop : popMinA st.queue with
  | none =>
    have hqnil : st.queue = [] := popMinA_none hpop
    constructor
    · intro st' hstep
      rw [astarStep, hpop] at hstep
      cases hstep
    · intro r _ hconn
      exfalso
      obtain ⟨e, he, _⟩ := frontier_entry hwf d hfront a6 hconn htk
      rw [hqnil] at he
      cases he
  | some pr =>
    obtain ⟨⟨f, c, cur, dist, par⟩, rest⟩ := pr
    have hperm := popMinA_perm hpop
    have hpopmem : ((f, c, cur, dist, par) : AEntry) ∈ st.queue :=
      hperm.mem_iff.mpr (List.mem_cons_self _ _)
    have hrestmem : ∀ e ∈ rest, e ∈ st.queue :=
      fun e he => hperm.mem_iff.mpr (List.mem_cons_of_mem _ he)
    have hf : f = dist := a1 _ hpopmem
    obtain ⟨chainp, hsp_p, hlen_p, hwalk_p, hcost_p⟩ := a2 _ hpopmem
    have hcost_p' : get_path_weight G ((cur :: chainp).reverse) d = dist := hcost_p
    have hwalk_p' : isWalkB G s cur ((cur :: chainp).reverse) = true := hwalk_p
    have hdist0 : (0 : ℚ) ≤ dist := by
      rw [← hcost_p']
      exact gpw_nonneg hwf d _
    have hconncur : ConnectedB G s cur = true := connected_of_walk hwf hwalk_p'
    have hming : ∀ e ∈ st.queue, dist ≤ e.2.2.2.1 := by
      intro e he
      have h1 : dist ≤ e.1 := by
        rcases List.mem_cons.mp (hperm.mem_iff.mp he) with rfl | he'
        · exact le_of_eq hf.symm
        · have h2 := popMinA_min hpop e he'
          have h3 : f ≤ e.1 := (aLt_false_iff.mp h2).1
          calc dist = f := hf.symm
            _ ≤ e.1 := h3
      rw [← a1 e he]
      exact h1
    have hpopopt : cur ∉ st.expl.map (fun b => b.1) → dist = optWeight G d s cur := by
      intro hck
      apply le_antisymm
      · obtain ⟨e, he, heg⟩ := frontier_entry hwf d hfront a6 hconncur hck
        exact le_trans (hming e he) heg
      · rw [← hcost_p']
        exact optWeight_le_walk hwf hwalk_p'
    have hfactC : cur ∉ st.expl.map (fun b => b.1) → ∀ p0 : String, par = some p0 →
        (∃ qc hh, lookupStr cur st.enq = some (qc, hh) ∧ qc = dist) ∧ 1 ≤ c ∧ cur ≠ s := by
      intro hck p0 hp0
      rcases a3 _ hpopmem with h0 | ⟨hc1, qcp, hhp, hlkp, hlep⟩
      · have hpn : par = none := congrArg (fun e : AEntry => e.2.2.2.2) h0
        rw [hp0] at hpn
        cases hpn
      · have hc1' : 1 ≤ c := hc1
        have hlkp' : lookupStr cur st.enq = some (qcp, hhp) := hlkp
        have hlep' : qcp ≤ dist := hlep
        obtain ⟨ew, hew, hewn, hewg⟩ := a4 cur qcp hhp hlkp' hck
        have hdq : qcp = dist := le_antisymm hlep' (by rw [← hewg]; exact hming ew hew)
        have hcurnes : cur ≠ s := by
          intro hq
          have hsknot : s ∉ st.expl.map (fun b => b.1) := by rw [← hq]; exact hck
          have hinit := a6 hsknot
          have hinitne : ((0, 0, s, 0, none) : AEntry) ≠ (f, c, cur, dist, par) := by
            intro he2
            have hco : (none : Option String) = par :=
              congrArg (fun e : AEntry => e.2.2.2.2) he2
            rw [hp0] at hco
            cases hco
          have hinitrest : ((0, 0, s, 0, none) : AEntry) ∈ rest := by
            rcases List.mem_cons.mp (hperm.mem_iff.mp hinit) with h | h
            · exact absurd h hinitne
            · exact h
          have hltf := popMinA_min hpop _ hinitrest
          rw [aLt_false_iff] at hltf
          obtain ⟨hl1, hl2⟩ := hltf
          have hl1' : f ≤ 0 := hl1
          have hl2' : (0 : ℚ) = f → c ≤ 0 := hl2
          have hf0 : f = 0 := le_antisymm hl1' (by rw [hf]; exact hdist0)
          have hc0 : c ≤ 0 := hl2' hf0.symm
          omega
        exact ⟨⟨qcp, hhp, hlkp', hdq⟩, hc1', hcurnes⟩
    have hexpansion : lookupStr cur st.expl = none → cur ≠ t →
        ∀ q2 c2 e2, relaxA hw t d cur dist (G.adj cur) rest st.cnt st.enq = (q2, c2, e2) →
        DInv G d s t ⟨q2, c2, e2, (cur, par) :: st.expl⟩ := by
      intro hle hct q2 c2 e2 hrelx
      have hck : cur ∉ st.expl.map (fun b => b.1) := lookupStr_none_not_mem hle
      have hdistopt : dist = optWeight G d s cur := hpopopt hck
      have hrelrest : RelInv G d s ((cur, par) :: st.expl) rest st.cnt st.enq := by
        refine ⟨?_, ?_, ?_, ?_, ?_, ?_, ?_, ?_, a12, a13⟩
        · exact fun e he => a1 e (hrestmem e he)
        · intro e he
          obtain ⟨ch, hsp, hlen, hwk, hcst⟩ := a2 e (hrestmem e he)
          refine ⟨ch, spells_lift hck hsp, ?_, hwk, hcst⟩
          rw [List.length_cons]
          omega
        · exact fun e he => a3 e (hrestmem e he)
        · intro v qcv hhv hlkv hvk'
          simp only [List.map_cons, List.mem_cons, not_or] at hvk'
          obtain ⟨hvcur, hvk0⟩ := hvk'
          obtain ⟨e, he, hen, heg⟩ := a4 v qcv hhv hlkv hvk0
          rcases List.mem_cons.mp (hperm.mem_iff.mp he) with rfl | he'
          · have hcv : cur = v := hen
            exact absurd hcv.symm hvcur
          · exact ⟨e, he', hen, heg⟩
        · intro e he par0 hlke'
          by_cases hen : e.2.2.1 = cur
          · rw [hen, lookupStr_cons_self, Option.some_inj] at hlke'
            obtain ⟨⟨qcp, hhp, hlkp, hdq⟩, hc1, hcurnes⟩ := hfactC hck par0 hlke'
            refine ⟨qcp, hhp, by rw [hen]; exact hlkp, ?_⟩
            have hgee : dist ≤ e.2.2.2.1 := hming e (hrestmem e he)
            have hece : 1 ≤ e.2.1 := by
              rcases a3 e (hrestmem e he) with h0 | ⟨hc, _⟩
              · exfalso
                have hes : e.2.2.1 = s := by rw [h0]
                rw [hen] at hes
                exact hcurnes hes
              · exact hc
            have hneq : e.2.2.2.1 ≠ dist := by
              obtain ⟨l1, l2, hql, hrl⟩ := popMinA_split hpop
              have ha11 := a11
              rw [hql, List.pairwise_append] at ha11
              obtain ⟨pw1, pw2, hcross⟩ := ha11
              have hmem2 : e ∈ l1 ∨ e ∈ l2 := List.mem_append.mp (by rw [← hrl]; exact he)
              rcases hmem2 with h | h
              · exact hcross e h _ (List.mem_cons_self _ _) (by rw [hen]) hece hc1
              · intro hq
                exact (List.pairwise_cons.mp pw2).1 e h (by rw [hen]) hc1 hece hq.symm
            rw [hdq]
            exact lt_of_le_of_ne hgee (Ne.symm hneq)
          · rw [lookupStr_cons_ne (fun hq => hen hq.symm)] at hlke'
            exact a5 e (hrestmem e he) par0 hlke'
        · intro hsk'
          simp only [List.map_cons, List.mem_cons, not_or] at hsk'
          obtain ⟨hscur, hsk0⟩ := hsk'
          have hinit := a6 hsk0
          rcases List.mem_cons.mp (hperm.mem_iff.mp hinit) with h | h
          · exfalso
            have hsc : s = cur := congrArg (fun e : AEntry => e.2.2.1) h
            exact hscur hsc
          · exact h
        · intro b hb hbp
          rcases List.mem_cons.mp hb with rfl | hb0
          · obtain ⟨par0, hp0⟩ := hbp
            have hp0' : par = some par0 := hp0
            obtain ⟨⟨qcp, hhp, hlkp, hdq⟩, _, _⟩ := hfactC hck par0 hp0'
            refine ⟨qcp, hhp, hlkp, ?_⟩
            show qcp = optWeight G d s cur
            rw [hdq]
            exact hdistopt
          · exact a10 b hb0 hbp
        · obtain ⟨l1, l2, hql, hrl⟩ := popMinA_split hpop
          have ha11 := a11
          rw [hql] at ha11
          rw [hrl]
          exact List.Pairwise.sublist
            (List.Sublist.append_left (List.sublist_cons_self _ _) l1) ha11
      have hchainc' : ∃ chainc, Spells ((cur, par) :: st.expl) (some cur) (cur :: chainc) ∧
          (cur :: chainc).length ≤ ((cur, par) :: st.expl).length ∧
          isWalkB G s cur ((cur :: chainc).reverse) = true ∧
          get_path_weight G ((cur :: chainc).reverse) d = dist := by
        refine ⟨chainp, Spells.cons lookupStr_cons_self (spells_lift hck hsp_p), ?_,
          hwalk_p', hcost_p'⟩
        simp only [List.length_cons]
        omega
      obtain ⟨r1, r2, r3⟩ := relaxA_h0_spec hwf d s t hzero hconncur hdistopt hchainc'
        (G.adj cur) rest st.cnt st.enq (fun pr hpr => hpr) hrelrest
      rw [hrelx] at r1 r2 r3
      refine ⟨r1, ?_, ?_⟩
      · intro v hv pr hpr hprk
        simp only [List.map_cons, List.mem_cons] at hv
        rcases hv with rfl | hv0
        · obtain ⟨e, he, hen, heg⟩ := r3 pr hpr hprk
          refine ⟨e, he, hen, ?_⟩
          rw [← hdistopt]
          exact heg
        · have hprk0 : pr.1 ∉ st.expl.map (fun b => b.1) := by
            intro hm
            exact hprk (by simp only [List.map_cons, List.mem_cons]; exact Or.inr hm)
          obtain ⟨e, he, hen, heg⟩ := hfront v hv0 pr hpr hprk0
          rcases List.mem_cons.mp (hperm.mem_iff.mp he) with rfl | he'
          · exfalso
            have hcv : cur = pr.1 := hen
            exact hprk (by simp only [List.map_cons, List.mem_cons]; exact Or.inl hcv.symm)
          · exact ⟨e, r2 e he', hen, heg⟩
      · simp only [List.map_cons, List.mem_cons, not_or]
        exact ⟨fun hq => hct hq.symm, htk⟩
    have hskip : cur ∈ st.expl.map (fun b => b.1) →
        DInv G d s t ⟨rest, st.cnt, st.enq, st.expl⟩ := by
      intro hckin
      refine ⟨⟨?_, ?_, ?_, ?_, ?_, ?_, a10, ?_, a12, a13⟩, ?_, htk⟩
      · exact fun e he => a1 e (hrestmem e he)
      · exact fun e he => a2 e (hrestmem e he)
      · exact fun e he => a3 e (hrestmem e he)
      · intro v qcv hhv hlkv hvk0
        obtain ⟨e, he, hen, heg⟩ := a4 v qcv hhv hlkv hvk0
        rcases List.mem_cons.mp (hperm.mem_iff.mp he) with rfl | he'
        · exfalso
          have hcv : cur = v := hen
          rw [hcv] at hckin
          exact hvk0 hckin
        · exact ⟨e, he', hen, heg⟩
      · exact fun e he par0 hlke => a5 e (hrestmem e he) par0 hlke
      · intro hsk0
        have hinit := a6 hsk0
        rcases List.mem_cons.mp (hperm.mem_iff.mp hinit) with h | h
        · exfalso
          have hsc : s = cur := congrArg (fun e : AEntry => e.2.2.1) h
          rw [← hsc] at hckin
          exact hsk0 hckin
        · exact h
      · obtain ⟨l1, l2, hql, hrl⟩ := popMinA_split hpop
        have ha11 := a11
        rw [hql] at ha11
        rw [hrl]
        exact List.Pairwise.sublist
          (List.Sublist.append_left (List.sublist_cons_self _ _) l1) ha11
      · intro v hv pr hpr hprk
        obtain ⟨e, he, hen, heg⟩ := hfront v hv pr hpr hprk
        rcases List.mem_cons.mp (hperm.mem_iff.mp he) with rfl | he'
        · exfalso
          have hcv : cur = pr.1 := hen
          rw [hcv] at hckin
          exact hprk hckin
        · exact ⟨e, he', hen, heg⟩
    constructor
    · intro st' hstep
      rw [astarStep, hpop] at hstep
      dsimp at hstep
      by_cases hct : cur = t
      · rw [if_pos hct] at hstep
        cases hstep
      · rw [if_neg hct] at hstep
        cases hle : lookupStr cur st.expl with
        | none =>
          rw [hle] at hstep
          rcases hrelx : relaxA hw t d cur dist (G.adj cur) rest st.cnt st.enq
            with ⟨q2, c2, e2⟩
          rw [hrelx] at hstep
          exact (Sum.inl.inj hstep) ▸ hexpansion hle hct q2 c2 e2 hrelx
        | some opar =>
          rw [hle] at hstep
          have hckin : cur ∈ st.expl.map (fun b => b.1) :=
            List.mem_map.mpr ⟨(cur, opar), lookupStr_mem hle, rfl⟩
          cases opar with
          | none => exact (Sum.inl.inj hstep) ▸ hskip hckin
          | some p0 =>
            dsimp at hstep
            obtain ⟨qc5, hh5, hlk5, hlt5⟩ := a5 _ hpopmem p0 hle
            have hlt5' : qc5 < dist := hlt5
            cases hlq : lookupStr cur st.enq with
            | some prq =>
              obtain ⟨qc, hh⟩ := prq
              rw [hlq] at hstep
              dsimp at hstep
              rw [hlq, Option.some_inj, Prod.mk.injEq] at hlk5
              obtain ⟨heq5, _⟩ := hlk5
              rw [if_pos (heq5 ▸ hlt5' : qc < dist)] at hstep
              exact (Sum.inl.inj hstep) ▸ hskip hckin
            | none =>
              rw [hlq] at hstep
              rw [hlq] at hlk5
              cases hlk5
    · intro r hstep hconn
      rw [astarStep, hpop] at hstep
      dsimp at hstep
      by_cases hct : cur = t
      · rw [if_pos hct] at hstep
        have hres := Sum.inr.inj hstep
        have hpc : parentChain st.expl (st.expl.length + 1) par = chainp :=
          spells_parentChain hsp_p _ (le_trans hlen_p (Nat.le_succ _))
        have hck : cur ∉ st.expl.map (fun b => b.1) := by
          rw [hct]
          exact htk
        refine ⟨(cur :: chainp).reverse, ?_, ?_, ?_⟩
        · rw [← hres, hpc]
        · rw [← hct]
          exact hwalk_p'
        · rw [hcost_p', ← hct]
          exact hpopopt hck
      · exfalso
        rw [if_neg hct] at hstep
        cases hle : lookupStr cur st.expl with
        | none =>
          rw [hle] at hstep
          rcases hrelx : relaxA hw t d cur dist (G.adj cur) rest st.cnt st.enq
            with ⟨q2, c2, e2⟩
          rw [hrelx] at hstep
          cases hstep
        | some opar =>
          rw [hle] at hstep
          cases opar with
          | none => cases hstep
          | some p0 =>
            dsimp at hstep
            cases hlq : lookupStr cur st.enq with
            | some prq =>
              obtain ⟨qc, hh⟩ := prq
              rw [hlq] at hstep
              dsimp at hstep
              by_cases hqd : qc < dist
              · rw [if_pos hqd] at hstep
                cases hstep
              · rw [if_neg hqd] at hstep
                rcases hrelx : relaxA hw t d cur dist (G.adj cur) rest st.cnt st.enq
                  with ⟨q2, c2, e2⟩
                rw [hrelx] at hstep
                cases hstep
            | none =>
              rw [hlq] at hstep
              rcases hrelx : relaxA hw t d cur dist (G.adj cur) rest st.cnt st.enq
                with ⟨q2, c2, e2⟩
              rw [hrelx] at hstep
              cases hstep

/-- The full loop under a zero heuristic on a connected pair returns an
optimal-cost walk (enough fuel given; the invariants hold). -/
theorem astarRun_h0 {G : Graph} (hwf : G.Wf) (d : Dim) {s t : String}
    {hw : String → String → ℚ} (hzero : ∀ u v, hw u v = 0)
    (hconn : ConnectedB G s t = true) :
    ∀ (fuel : ℕ) (st : AState), AInv G d s st → DInv G d s t st →
      aMeasure G d st < fuel →
      ∃ p, astarRun G hw t d fuel st = .ok p ∧ isWalkB G s t p = true ∧
        get_path_weight G p d = optWeight G d s t := by
  intro fuel
  induction fuel with
  | zero => intro st _ _ hm; exact absurd hm (Nat.not_lt_zero _)
  | succ n ih =>
    intro st hainv hdinv hm
    cases hstep : astarStep G hw t d st with
    | inl st' =>
      have hunf : astarRun G hw t d (n + 1) st = astarRun G hw t d n st' := by
        simp only [astarRun, hstep]
      obtain ⟨hainv', hdec⟩ := astarStep_inl_spec hwf d s t hw hainv hstep
      have hdinv' := (astarStep_h0_spec hwf d hzero hdinv).1 st' hstep
      rw [hunf]
      exact ih st' hainv' hdinv' (by omega)
    | inr r =>
      have hunf : astarRun G hw t d (n + 1) st = r := by
        simp only [astarRun, hstep]
      rw [hunf]
      exact (astarStep_h0_spec hwf d hzero hdinv).2 r hstep hconn

/-- The initial loop state satisfies the Dijkstra invariant. -/
theorem DInv_init (G : Graph) (d : Dim) (s t : String) :
    DInv G d s t ⟨[(0, 0, s, 0, none)], 1, [], []⟩ := by
  refine ⟨⟨?_, ?_, ?_, ?_, ?_, ?_, ?_, ?_, ?_, ?_⟩, ?_, ?_⟩
  · intro e he
    rw [List.mem_singleton] at he
    subst he
    rfl
  · intro e he
    rw [List.mem_singleton] at he
    subst he
    refine ⟨[], Spells.nil, le_refl _, ?_, rfl⟩
    rw [isWalkB]
    simp [chainB]
  · intro e he
    rw [List.mem_singleton] at he
    exact Or.inl he
  · intro v qc hh hlkv
    rw [lookupStr] at hlkv
    cases hlkv
  · intro e he par0 hlke
    rw [lookupStr] at hlke
    cases hlke
  · intro _
    exact List.mem_singleton.mpr rfl
  · intro b hb
    cases hb
  · exact List.pairwise_singleton _ _
  · exact le_refl 1
  · intro b hb
    cases hb
  · intro v hv
    simp at hv
  · simp

/-- `nx.astar_path` with an everywhere-zero heuristic returns an
optimal-weight walk on every connected pair of existing nodes of a
well-formed graph. -/
theorem nx_astar_h0 {G : Graph} (hwf : G.Wf) {s t : String}
    {hw : String → String → ℚ} (hzero : ∀ u v, hw u v = 0) (d : Dim)
    (hs : s ∈ G.nodeIds) (ht : t ∈ G.nodeIds) (hconn : ConnectedB G s t = true) :
    ∃ p, nx_astar_path G hw s t d = .ok p ∧ isWalkB G s t p = true ∧
      get_path_weight G p d = optWeight G d s t := by
  rw [nx_astar_path, if_pos ⟨hs, ht⟩]
  exact astarRun_h0 hwf d hzero hconn (astarFuel G d) _ (AInv_init hwf d hs)
    (DInv_init G d s t) (aMeasure_init_lt d s)

/-! ## Claim theorem: C6 (A* vs Dijkstra totals, amended) -/

/-- C6 (amended): under the `cost` dimension, where the wrapped heuristic
degenerates to the constant zero, `astar_shortest_path` and
`dijkstra_shortest_path` return paths of identical total weight — both equal
to the optimal weight — for every connected pair of existing nodes of a
well-formed graph.  (Under the `time` dimension with the repo's Euclidean
heuristic the totals can differ, because the heuristic can overestimate:
see the counterexample.) -/
theorem C6_amended (G : Graph) (hwf : G.Wf) (hE : String → String → ℚ) (s t : String)
    (hs : s ∈ G.nodeIds) (ht : t ∈ G.nodeIds) (hconn : ConnectedB G s t = true) :
    ∃ p q : List String,
      astar_shortest_path G hE s t Dim.cost =
        .ok ⟨some p, ((optWeight G Dim.cost s t : ℚ) : WithTop ℚ), none⟩ ∧
      dijkstra_shortest_path G s t Dim.cost =
        .ok ⟨some q, ((optWeight G Dim.cost s t : ℚ) : WithTop ℚ), none⟩ := by
  have hzero : ∀ u v : String, (if Dim.cost = Dim.time then hE u v else 0) = 0 :=
    fun u v => rfl
  obtain ⟨p, hp, hpw, hpc⟩ :=
    @nx_astar_h0 G hwf s t (fun u v => if Dim.cost = Dim.time then hE u v else 0)
      hzero Dim.cost hs ht hconn
  obtain ⟨q, hq, hqm, hqc⟩ := nx_dijkstra_spec Dim.cost hs (connectedB_eq_true_iff.mp hconn)
  refine ⟨p, q, ?_, ?_⟩
  · rw [astar_shortest_path, hp]
    show (Except.ok ⟨some p, ((get_path_weight G p Dim.cost : ℚ) : WithTop ℚ), none⟩ :
        Except PyErr PathResult) =
      Except.ok ⟨some p, ((optWeight G Dim.cost s t : ℚ) : WithTop ℚ), none⟩
    rw [hpc]
  · rw [dijkstra_shortest_path, hq]
    show (Except.ok ⟨some q, ((get_path_weight G q Dim.cost : ℚ) : WithTop ℚ), none⟩ :
        Except PyErr PathResult) =
      Except.ok ⟨some q, ((optWeight G Dim.cost s t : ℚ) : WithTop ℚ), none⟩
    rw [hqc]

/-- C6 witness: on the edge `A`–`B` of the two-component graph both
strategies return the optimal cost total. -/
theorem C6_amended_witness :
    "A" ∈ exG2.nodeIds ∧ "B" ∈ exG2.nodeIds ∧ ConnectedB exG2 "A" "B" = true ∧
    ∃ p q : List String,
      astar_shortest_path exG2 (fun _ _ => 0) "A" "B" Dim.cost =
        .ok ⟨some p, ((optWeight exG2 Dim.cost "A" "B" : ℚ) : WithTop ℚ), none⟩ ∧
      dijkstra_shortest_path exG2 "A" "B" Dim.cost =
        .ok ⟨some q, ((optWeight exG2 Dim.cost "A" "B" : ℚ) : WithTop ℚ), none⟩ :=
  ⟨by decide, by decide, by decide,
    C6_amended exG2 (by decide) (fun _ _ => 0) "A" "B" (by decide) (by decide) (by decide)⟩

end CRN
